import Mathlib

/-!
Verification of the `uncalled_for` dependency-resolution engine.

This development shallowly embeds the engine's core (dependency descriptors,
the call-scoped resolver, the shared-scope manager, the annotation binder,
the uniqueness validators and the call bridge) as executable Lean functions,
and proves or refutes the specification's claims about them.

The embedding mirrors the Python sources:
 * `_functional.py` : `_Depends.__aenter__`, `_FunctionalDependency._resolve_factory_value`
 * `_shared.py`     : `_Shared.__aenter__`, `SharedContext.__aenter__/__aexit__`
 * `_resolution.py` : `resolved_dependencies`, `FailedDependency`, `without_dependencies`
 * `_validation.py` and `validation.py` : `validate_dependencies`

Producers (factories) are external collaborators: they are modelled as an
environment of `FactorySpec`s, each giving the factory's own declared
dependency parameters and a pure result function of its keyword arguments
and a fresh allocation seed (so distinct invocations can yield distinct
values, capturing Python object identity).  Python's unbounded recursion
is modelled with a fuel parameter; running out of fuel raises the
`recursionLimit` error, matching Python's `RecursionError` (an `Exception`,
hence caught by the resolver's per-parameter handler).  `AsyncExitStack`
is modelled as a LIFO list of entries whose exits run in reverse order of
registration, exactly the stdlib behaviour the code relies on.
-/

namespace UncalledFor

/-- Factories are identified by reference identity; we use numeric tokens. -/
abbrev FactoryId := Nat

/-- Parameter names of a Python signature. -/
abbrev ParamName := String

/-- Errors that can be raised during resolution.  `userErr` stands for an
arbitrary exception raised by a producer or by a tag-bound descriptor's
acquisition; `recursionLimit` models Python's RecursionError; `lookupErr`
models the LookupError from reading an unset ContextVar. -/
inductive Err where
  | recursionLimit
  | userErr (tag : Nat)
  | lookupErr
deriving DecidableEq

/-- Python values as seen by the engine: opaque produced values carrying an
identity token, and `FailedDependency` marker objects (which are ordinary
values stored in the resolved-arguments map). -/
inductive PyVal where
  | box (token : Nat)
  | failedDep (parameter : ParamName) (error : Err)
deriving DecidableEq

/-- The shape of a raw producer result, as probed by
`_FunctionalDependency._resolve_factory_value`: it may satisfy the async
context manager protocol, the sync context manager protocol, and the
awaitable protocol, independently (a single object can satisfy several).
Each protocol, when selected, produces the corresponding value. -/
structure Raw where
  isAsyncCM : Bool
  isSyncCM : Bool
  isAwaitable : Bool
  enterValue : PyVal
  awaitValue : PyVal
  plainValue : PyVal
deriving DecidableEq

/-- A dependency descriptor wrapping a factory: `_Depends` (call-scoped) or
`_Shared` (shared-scoped). -/
inductive Dep where
  | depends (f : FactoryId)
  | shared (f : FactoryId)
deriving DecidableEq

/-- Which descriptor kind performed an action, used to tag trace events. -/
inductive DepKind where
  | scoped
  | sharedK
deriving DecidableEq

def Dep.fac : Dep → FactoryId
  | .depends f => f
  | .shared f => f

def Dep.kind : Dep → DepKind
  | .depends _ => .scoped
  | .shared _ => .sharedK

/-- An entry registered on an `AsyncExitStack`: the raw context manager
obtained from a factory (async or sync), the no-op exit of a descriptor
object itself (registered by `enter_async_context`), or a bound tag-bound
descriptor. -/
inductive Entry where
  | facAsync (f : FactoryId)
  | facSync (f : FactoryId)
  | descr (k : DepKind) (f : FactoryId)
  | annE (a : Nat)
deriving DecidableEq

/-- Which exit stack an entry was registered on: the per-call stack
(`_Depends.stack`) or the shared-scope stack (`SharedContext.stack`). -/
inductive ScopeTag where
  | callS
  | sharedS
deriving DecidableEq

/-- Observable events of a run, in order of occurrence. -/
inductive Event where
  | invoke (k : DepKind) (f : FactoryId)
  | resolveFailed (k : DepKind) (f : FactoryId)
  | acquired (k : DepKind) (f : FactoryId) (v : PyVal)
  | enterParam (p : ParamName)
  | bindAnn (a : Nat) (p : ParamName) (v : Option PyVal)
  | acq (s : ScopeTag) (e : Entry)
  | rel (s : ScopeTag) (e : Entry)
deriving DecidableEq

/-- The behaviour of one factory: its own declared dependency parameters
(found by `get_dependency_parameters` on the factory), and its result as a
pure function of the resolved keyword arguments and a fresh allocation
seed, either a raw result or a raised exception. -/
structure FactorySpec where
  params : List (ParamName × Dep)
  run : List (ParamName × PyVal) → Nat → Except Err Raw

/-- The behaviour of a tag-bound (annotation) descriptor once bound to a
parameter's final value: its `__aenter__` either succeeds or raises. -/
structure AnnSpec where
  aenter : Option PyVal → Except Err Unit

def defaultFactory : FactorySpec := ⟨[], fun _ _ => .error .lookupErr⟩

def envGet (env : List FactorySpec) (f : FactoryId) : FactorySpec :=
  env.getD f defaultFactory

def annGet (anns : List AnnSpec) (a : Nat) : AnnSpec :=
  anns.getD a ⟨fun _ => .ok ()⟩

/-- Engine state: the call-scoped cache and exit stack (the two
`_Depends` ContextVars), the shared-scope state (the three `SharedContext`
ContextVars, with `sharedOpen` modelling whether they are set), and the
allocation counter for fresh value identities. -/
structure St where
  callCache : List (FactoryId × PyVal)
  callStack : List Entry
  sharedOpen : Bool
  sharedResolved : List (FactoryId × PyVal)
  sharedStack : List Entry
  alloc : Nat
deriving DecidableEq

def St.init : St := ⟨[], [], false, [], [], 0⟩

/-- Association lookup, modelling Python dict access (with insertion at the
head modelling assignment, so lookup finds the newest binding). -/
def alookup {β : Type} : List (ParamName × β) → ParamName → Option β
  | [], _ => none
  | (k, v) :: rest, x => if x = k then some v else alookup rest x

/-- Identity-keyed lookup for the factory caches. -/
def flookup : List (FactoryId × PyVal) → FactoryId → Option PyVal
  | [], _ => none
  | (k, v) :: rest, x => if x = k then some v else flookup rest x

def pushEntry (s : ScopeTag) (e : Entry) (st : St) : St :=
  match s with
  | .callS => { st with callStack := e :: st.callStack }
  | .sharedS => { st with sharedStack := e :: st.sharedStack }

/-- The result of running a piece of the engine: an outcome, the state
after the run, and the trace of events the run emitted. -/
structure Out (α : Type) where
  res : Except Err α
  st : St
  tr : List Event

/-- `_FunctionalDependency._resolve_factory_value`: classify a raw factory
result.  An async context manager is entered into the owning stack; else a
sync context manager is entered; else an awaitable is awaited; else the
result is the final value. -/
def resolveFactoryValue (s : ScopeTag) (f : FactoryId) (raw : Raw) (st : St) :
    PyVal × St × List Event :=
  if raw.isAsyncCM then
    (raw.enterValue, pushEntry s (.facAsync f) st, [.acq s (.facAsync f)])
  else if raw.isSyncCM then
    (raw.enterValue, pushEntry s (.facSync f) st, [.acq s (.facSync f)])
  else if raw.isAwaitable then
    (raw.awaitValue, st, [])
  else
    (raw.plainValue, st, [])

/-- `AsyncExitStack.enter_async_context` applied to a descriptor: run its
`__aenter__` (the supplied `enter1`); on success register the descriptor's
exit on the stack tagged `s`. -/
def enterCtxWith (enter1 : Dep → St → Out PyVal) (s : ScopeTag) (d : Dep) (st : St) :
    Out PyVal :=
  match enter1 d st with
  | ⟨.error e, st', tr⟩ => ⟨.error e, st', tr⟩
  | ⟨.ok v, st', tr⟩ =>
      ⟨.ok v, pushEntry s (.descr d.kind d.fac) st',
        tr ++ [.acq s (.descr d.kind d.fac)]⟩

/-- `_resolve_parameters` of `_Depends` / `_Shared`: enter each declared
dependency of a factory into the stack tagged `s`, collecting keyword
arguments; errors propagate (there is no handler here). -/
def paramsLoop (enter1 : Dep → St → Out PyVal) (s : ScopeTag) :
    List (ParamName × Dep) → St → Out (List (ParamName × PyVal))
  | [], st => ⟨.ok [], st, []⟩
  | (p, d) :: ps, st =>
      match enterCtxWith enter1 s d st with
      | ⟨.error e, st₁, tr₁⟩ => ⟨.error e, st₁, tr₁⟩
      | ⟨.ok v, st₁, tr₁⟩ =>
          match paramsLoop enter1 s ps st₁ with
          | ⟨.error e, st₂, tr₂⟩ => ⟨.error e, st₂, tr₁ ++ tr₂⟩
          | ⟨.ok rest, st₂, tr₂⟩ => ⟨.ok ((p, v) :: rest), st₂, tr₁ ++ tr₂⟩

/-- The tail of `_Depends.__aenter__` after a cache miss: resolve the
factory's own parameters (already done, result in `po`), invoke the
factory, adapt the raw result on the call stack, store in the call cache,
return. -/
def finishScoped (env : List FactorySpec) (f : FactoryId)
    (po : Out (List (ParamName × PyVal))) : Out PyVal :=
  match po with
  | ⟨.error e, st₁, tr₁⟩ => ⟨.error e, st₁, tr₁ ++ [.resolveFailed .scoped f]⟩
  | ⟨.ok args, st₁, tr₁⟩ =>
      let st₂ : St := { st₁ with alloc := st₁.alloc + 1 }
      match (envGet env f).run args st₁.alloc with
      | .error e => ⟨.error e, st₂, tr₁ ++ [.invoke .scoped f, .resolveFailed .scoped f]⟩
      | .ok raw =>
          match resolveFactoryValue .callS f raw st₂ with
          | (v, st₃, tr₂) =>
              ⟨.ok v, { st₃ with callCache := (f, v) :: st₃.callCache },
                tr₁ ++ [.invoke .scoped f] ++ tr₂ ++ [.acquired .scoped f v]⟩

/-- The tail of `_Shared.__aenter__` after the first cache check misses:
after the unlocked parameter resolution (result in `po`), take the lock,
re-check the cache (the double-checked pattern), and on a second miss
invoke the factory, adapt on the shared stack, store, return. -/
def finishShared (env : List FactorySpec) (f : FactoryId)
    (po : Out (List (ParamName × PyVal))) : Out PyVal :=
  match po with
  | ⟨.error e, st₁, tr₁⟩ => ⟨.error e, st₁, tr₁ ++ [.resolveFailed .sharedK f]⟩
  | ⟨.ok args, st₁, tr₁⟩ =>
      match flookup st₁.sharedResolved f with
      | some v => ⟨.ok v, st₁, tr₁ ++ [.acquired .sharedK f v]⟩
      | none =>
          let st₂ : St := { st₁ with alloc := st₁.alloc + 1 }
          match (envGet env f).run args st₁.alloc with
          | .error e =>
              ⟨.error e, st₂, tr₁ ++ [.invoke .sharedK f, .resolveFailed .sharedK f]⟩
          | .ok raw =>
              match resolveFactoryValue .sharedS f raw st₂ with
              | (v, st₃, tr₂) =>
                  ⟨.ok v, { st₃ with sharedResolved := (f, v) :: st₃.sharedResolved },
                    tr₁ ++ [.invoke .sharedK f] ++ tr₂ ++ [.acquired .sharedK f v]⟩

/-- `__aenter__` of a descriptor, with fuel bounding recursion depth.
For `_Depends`: check the call cache, else resolve the factory's
parameters on the call stack and finish.  For `_Shared`: fail fast if no
shared scope is open (the ContextVar LookupError), check the shared cache,
else resolve the parameters on the shared stack and finish with the
double-checked insert.  Exhausted fuel models Python's RecursionError. -/
def enterDep (env : List FactorySpec) : Nat → Dep → St → Out PyVal
  | 0, d, st => ⟨.error .recursionLimit, st, [.resolveFailed d.kind d.fac]⟩
  | n + 1, .depends f, st =>
      match flookup st.callCache f with
      | some v => ⟨.ok v, st, [.acquired .scoped f v]⟩
      | none =>
          finishScoped env f
            (paramsLoop (fun d' st' => enterDep env n d' st') .callS
              (envGet env f).params st)
  | n + 1, .shared f, st =>
      if st.sharedOpen then
        match flookup st.sharedResolved f with
        | some v => ⟨.ok v, st, [.acquired .sharedK f v]⟩
        | none =>
            finishShared env f
              (paramsLoop (fun d' st' => enterDep env n d' st') .sharedS
                (envGet env f).params st)
      else ⟨.error .lookupErr, st, [.resolveFailed .sharedK f]⟩

/-- The main loop of `resolved_dependencies`: for each dependency-bearing
parameter, an explicit caller-supplied value short-circuits resolution;
otherwise the descriptor is entered on the call stack, and an exception is
captured as a `FailedDependency` marker for that parameter. -/
def scopedPhase (env : List FactorySpec) (fuel : Nat)
    (provided : List (ParamName × PyVal)) :
    List (ParamName × Dep) → St → List (ParamName × PyVal) × St × List Event
  | [], st => ([], st, [])
  | (p, d) :: ps, st =>
      match alookup provided p with
      | some w =>
          match scopedPhase env fuel provided ps st with
          | (args, st', tr) => ((p, w) :: args, st', tr)
      | none =>
          match enterCtxWith (fun d' st' => enterDep env fuel d' st') .callS d st with
          | ⟨.ok v, st₁, tr₁⟩ =>
              match scopedPhase env fuel provided ps st₁ with
              | (args, st₂, tr₂) => ((p, v) :: args, st₂, .enterParam p :: (tr₁ ++ tr₂))
          | ⟨.error e, st₁, tr₁⟩ =>
              match scopedPhase env fuel provided ps st₁ with
              | (args, st₂, tr₂) =>
                  ((p, .failedDep p e) :: args, st₂, .enterParam p :: (tr₁ ++ tr₂))

/-- Like Python's `provided.get(p, arguments.get(p))`: the first lookup
wins when present, else the second (both may be absent, yielding None). -/
def firstSome (a b : Option PyVal) : Option PyVal :=
  match a with
  | some x => some x
  | none => b

/-- Enter each bound tag-bound descriptor of one parameter into the call
stack.  `bind_to_parameter` is recorded as a `bindAnn` event carrying the
final value; a raising `__aenter__` propagates (the descriptor is not
registered on the stack, so its exit will not run). -/
def annBindList (anns : List AnnSpec) (p : ParamName) (v : Option PyVal) :
    List Nat → St → Out Unit
  | [], st => ⟨.ok (), st, []⟩
  | a :: as, st =>
      match (annGet anns a).aenter v with
      | .error e => ⟨.error e, st, [.bindAnn a p v]⟩
      | .ok _ =>
          match annBindList anns p v as (pushEntry .callS (.annE a) st) with
          | ⟨r, st', tr⟩ => ⟨r, st', .bindAnn a p v :: .acq .callS (.annE a) :: tr⟩

/-- The annotation loop of `resolved_dependencies`: for each parameter
carrying tag-bound descriptors, compute the final value (caller override,
else resolved value, else absent) and bind and enter each descriptor.
Failures propagate. -/
def annPhase (anns : List AnnSpec) (provided args : List (ParamName × PyVal)) :
    List (ParamName × List Nat) → St → Out Unit
  | [], st => ⟨.ok (), st, []⟩
  | (p, ds) :: rest, st =>
      match annBindList anns p (firstSome (alookup provided p) (alookup args p)) ds st with
      | ⟨.error e, st₁, tr₁⟩ => ⟨.error e, st₁, tr₁⟩
      | ⟨.ok _, st₁, tr₁⟩ =>
          match annPhase anns provided args rest st₁ with
          | ⟨r, st₂, tr₂⟩ => ⟨r, st₂, tr₁ ++ tr₂⟩

/-- Unwinding an `AsyncExitStack`: registered exits run in reverse order of
registration (the list head is the most recent entry). -/
def unwindTrace (s : ScopeTag) (stack : List Entry) : List Event :=
  stack.map (Event.rel s)

/-- The result of one full `resolved_dependencies` lifecycle. -/
structure ROut where
  res : Except Err (List (ParamName × PyVal))
  st : St
  tr : List Event

/-- `resolved_dependencies`: install a fresh call cache and a fresh call
exit stack, run the scoped loop (which never raises: per-parameter errors
become markers), run the annotation loop (whose errors propagate), unwind
the call stack in reverse order regardless of outcome, restore the prior
cache and stack (the ContextVar token resets), and yield the arguments map
on success or propagate the annotation error. -/
def runResolved (env : List FactorySpec) (anns : List AnnSpec) (fuel : Nat)
    (fnP : List (ParamName × Dep)) (fnA : List (ParamName × List Nat))
    (provided : List (ParamName × PyVal)) (st : St) : ROut :=
  let st₀ : St := { st with callCache := [], callStack := [] }
  match scopedPhase env fuel provided fnP st₀ with
  | (args, st₁, tr₁) =>
      match annPhase anns provided args fnA st₁ with
      | ⟨r, st₂, tr₂⟩ =>
          let trU := unwindTrace .callS st₂.callStack
          let st₃ : St := { st₂ with callCache := st.callCache, callStack := st.callStack }
          match r with
          | .ok _ => ⟨.ok args, st₃, tr₁ ++ tr₂ ++ trU⟩
          | .error e => ⟨.error e, st₃, tr₁ ++ tr₂ ++ trU⟩

/-- One call resolved through the engine inside a shared scope. -/
structure CallSpec where
  fnP : List (ParamName × Dep)
  fnA : List (ParamName × List Nat)
  provided : List (ParamName × PyVal)

/-- Run a sequence of resolutions; each caller observes its own outcome
and the shared scope persists across them. -/
def runCalls (env : List FactorySpec) (anns : List AnnSpec) (fuel : Nat) :
    List CallSpec → St →
    List (Except Err (List (ParamName × PyVal))) × St × List Event
  | [], st => ([], st, [])
  | c :: cs, st =>
      match runResolved env anns fuel c.fnP c.fnA c.provided st with
      | ⟨r, st₁, tr₁⟩ =>
          match runCalls env anns fuel cs st₁ with
          | (rs, st₂, tr₂) => (r :: rs, st₂, tr₁ ++ tr₂)

/-- `SharedContext.__aenter__` / `__aexit__` around a sequence of
resolutions: install fresh shared cache, lock and stack; run the calls;
unwind the shared stack in reverse order; restore the prior shared state. -/
def runSharedScope (env : List FactorySpec) (anns : List AnnSpec) (fuel : Nat)
    (calls : List CallSpec) (st : St) :
    List (Except Err (List (ParamName × PyVal))) × St × List Event :=
  let st₀ : St := { st with sharedOpen := true, sharedResolved := [], sharedStack := [] }
  match runCalls env anns fuel calls st₀ with
  | (rs, st₁, tr₁) =>
      let trU := unwindTrace .sharedS st₁.sharedStack
      (rs,
        { st₁ with sharedOpen := st.sharedOpen, sharedResolved := st.sharedResolved,
                   sharedStack := st.sharedStack },
        tr₁ ++ trU)

/-- A dependency graph is stratified when every factory's declared
dependencies refer only to factories with strictly smaller identities:
a sufficient, checkable acyclicity condition matching the engine's own
operating assumption (self-referential graphs simply exhaust the
recursion limit). -/
def stratifiedFrom : Nat → List FactorySpec → Bool
  | _, [] => true
  | i, sp :: rest => (sp.params.all fun pd => pd.2.fac < i) && stratifiedFrom (i + 1) rest

def stratifiedEnv (env : List FactorySpec) : Bool :=
  stratifiedFrom 0 env

/-- Count occurrences of one event in a trace. -/
def countE : List Event → Event → Nat
  | [], _ => 0
  | x :: xs, ev => (if x = ev then 1 else 0) + countE xs ev

/-!
The uniqueness validators.  Dependency instances are represented by their
exact runtime type identifier.  The class hierarchy is an environment of
`TypeInfo`s: `mro` is the type's method resolution order restricted to
proper subclasses of `Dependency` (the type itself first), and
`singleOwn` is the `single` attribute declared directly on that class, if
any; `getattr(cls, "single", False)` walks the MRO for the attribute.
-/

structure TypeInfo where
  mro : List Nat
  singleOwn : Option Bool

def tyGet (tys : List TypeInfo) (t : Nat) : TypeInfo := tys.getD t ⟨[t], none⟩

/-- `getattr(t, "single", False)`: the first `single` declaration along
the MRO, defaulting to False. -/
def getSingle (tys : List TypeInfo) (t : Nat) : Bool :=
  ((tyGet tys t).mro.findSome? fun c => (tyGet tys c).singleOwn).getD false

/-- `isinstance(instance-of-t, b)` for proper Dependency subclasses. -/
def isSub (tys : List TypeInfo) (t b : Nat) : Bool := b ∈ (tyGet tys t).mro

/-- Structured validation errors, capturing which type each message names:
a duplicated concrete type, a conflicted exclusive base listing the
offending concrete types, or a per-parameter duplicated annotation type. -/
inductive VErr where
  | dupConcrete (t : Nat)
  | baseConflict (b : Nat) (offenders : List Nat)
  | dupAnn (t : Nat) (count : Nat) (p : ParamName)
deriving DecidableEq

/-- Distinct elements in order of first occurrence, modelling the
iteration order of `Counter` keys (insertion order). -/
def dedupFirst (l : List Nat) : List Nat :=
  l.foldl (fun acc t => if t ∈ acc then acc else acc ++ [t]) []

def natCount : List Nat → Nat → Nat
  | [], _ => 0
  | x :: xs, t => (if x = t then 1 else 0) + natCount xs t

/-- Phase 1 of both validators: the first exact runtime type flagged
exclusive that occurs more than once in `deps`. -/
def phase1 (tys : List TypeInfo) (deps : List Nat) : Option VErr :=
  ((dedupFirst deps).find? fun t => getSingle tys t && decide (1 < natCount deps t)).map
    VErr.dupConcrete

/-- Phase 2 of both validators: collect every exclusive-flagged proper
ancestor present in any instance's MRO, and fail on the first with more
than one is-a instance in `deps`, listing the offenders.  Python iterates
a set here; first-discovery order stands in for the unspecified set
order (no claim depends on which base is reported first). -/
def phase2 (tys : List TypeInfo) (deps : List Nat) : Option VErr :=
  let bases := dedupFirst ((deps.map fun t => (tyGet tys t).mro.filter (getSingle tys)).flatten)
  (bases.find? fun b => decide (1 < (deps.filter fun t => isSub tys t b).length)).map
    fun b => VErr.baseConflict b (deps.filter fun t => isSub tys t b)

/-- Per-parameter phase of `_validation.py`: within one parameter's
tag-bound descriptor list, an exclusive-flagged exact type may occur at
most once. -/
def phaseAnn (tys : List TypeInfo) : List (ParamName × List Nat) → Option VErr
  | [] => none
  | (p, ts) :: rest =>
      match (dedupFirst ts).find? fun t => getSingle tys t && decide (1 < natCount ts t) with
      | some t => some (.dupAnn t (natCount ts t) p)
      | none => phaseAnn tys rest

/-- `validate_dependencies` of `_validation.py` (the validator the test
suite exercises): phases 1 and 2 run over the default-declared
(scoped) dependencies only; tag-bound descriptors are checked per
parameter for exact-type duplicates. -/
def validateDependenciesU (tys : List TypeInfo) (defaults : List Nat)
    (annDeps : List (ParamName × List Nat)) : Option VErr :=
  match phase1 tys defaults with
  | some e => some e
  | none =>
      match phase2 tys defaults with
      | some e => some e
      | none => phaseAnn tys annDeps

/-- `validate_dependencies` of `validation.py` (the legacy flattened
variant): phases 1 and 2 run over the union of the default-declared
dependencies and all tag-bound descriptors; there is no per-parameter
phase. -/
def validateDependenciesFlat (tys : List TypeInfo) (defaults : List Nat)
    (annDeps : List (ParamName × List Nat)) : Option VErr :=
  let all := defaults ++ (annDeps.map Prod.snd).flatten
  match phase1 tys all with
  | some e => some e
  | none => phase2 tys all

/-!
The call bridge, `without_dependencies` of `_resolution.py`.  A Python
callable is modelled by its runtime parameter list (name and kind), its
dependency declarations, and whether it is a coroutine function.  The
wrapper the bridge builds is `async def wrapper(**kwargs)`: its runtime
signature is a single VAR_KEYWORD parameter (the cosmetic `__signature__`
attribute does not change call binding), and it is a coroutine function
regardless of the original.  Python's call binding rejects a call whose
positional argument count exceeds the number of positionally-bindable
parameters with a TypeError.
-/

inductive PyParamKind where
  | posOrKw
  | varKw
deriving DecidableEq

structure PyFunc where
  sig : List (ParamName × PyParamKind)
  depParams : List (ParamName × Dep)
  annDeps : List (ParamName × List Nat)
  isCoroutineFn : Bool

structure BridgedFn where
  runtimeSig : List (ParamName × PyParamKind)
  displaySig : List ParamName
  isCoroutineFn : Bool
  unchanged : Bool

/-- `without_dependencies`: a callable with no dependency parameters and
no tag-bound descriptors is returned unchanged; otherwise an async
wrapper accepting only `**kwargs` is returned, whose displayed signature
omits the dependency-bearing parameters. -/
def withoutDependencies (fn : PyFunc) : BridgedFn :=
  if fn.depParams.isEmpty && fn.annDeps.isEmpty then
    ⟨fn.sig, fn.sig.map Prod.fst, fn.isCoroutineFn, true⟩
  else
    ⟨[("kwargs", .varKw)],
      ((fn.sig.filter fun pk => !(fn.depParams.map Prod.fst).contains pk.1).map Prod.fst),
      true, false⟩

/-- How many positional arguments a runtime signature can bind. -/
def maxPositional (sig : List (ParamName × PyParamKind)) : Nat :=
  (sig.filter fun pk => pk.2 = PyParamKind.posOrKw).length

/-- Python call binding raises TypeError when more positional arguments
are supplied than the signature can bind. -/
def positionalCallFails (b : BridgedFn) (npos : Nat) : Bool :=
  maxPositional b.runtimeSig < npos

/-!
Trace projections and elementary lemmas.
-/

/-- Project an event to the stack entry it acquired on stack `s`, if any. -/
def acqOf (s : ScopeTag) : Event → Option Entry
  | .acq s' e => if s' = s then some e else none
  | _ => none

/-- Project an event to the stack entry it released on stack `s`, if any. -/
def relOf (s : ScopeTag) : Event → Option Entry
  | .rel s' e => if s' = s then some e else none
  | _ => none

theorem countE_append (a b : List Event) (ev : Event) :
    countE (a ++ b) ev = countE a ev + countE b ev := by
  induction a with
  | nil => simp [countE]
  | cons x xs ih => simp [countE, ih, Nat.add_assoc]

theorem countE_eq_zero {tr : List Event} {ev : Event} (h : ev ∉ tr) :
    countE tr ev = 0 := by
  induction tr with
  | nil => simp [countE]
  | cons x xs ih =>
      simp only [List.mem_cons, not_or] at h
      have hne : ¬x = ev := fun hx => h.1 hx.symm
      simp [countE, ih h.2, hne]

theorem countE_singleton_ne {x ev : Event} (h : x ≠ ev) : countE [x] ev = 0 := by
  simp [countE, if_neg h]

theorem countE_singleton_self (ev : Event) : countE [ev] ev = 1 := by
  simp [countE]

theorem flookup_cons_self (c : List (FactoryId × PyVal)) (f : FactoryId) (v : PyVal) :
    flookup ((f, v) :: c) f = some v := by
  simp [flookup]

theorem flookup_cons_ne (c : List (FactoryId × PyVal)) {f g : FactoryId} (v : PyVal)
    (h : f ≠ g) : flookup ((g, v) :: c) f = flookup c f := by
  simp [flookup, if_neg h]

theorem alookup_cons_self {β : Type} (c : List (ParamName × β)) (p : ParamName) (v : β) :
    alookup ((p, v) :: c) p = some v := by
  simp [alookup]

theorem alookup_cons_ne {β : Type} (c : List (ParamName × β)) {p q : ParamName} (v : β)
    (h : p ≠ q) : alookup ((q, v) :: c) p = alookup c p := by
  simp [alookup, if_neg h]

/-!
State-evolution invariant bundles and their composition lemmas.  Each
engine run is summarised by a relation between the state before, the
state after and the trace emitted; sequential composition of runs
composes the relations.
-/

/-- Exit stacks only grow during resolution, in step with the `acq`
events of the trace (the head of the stack list is the newest entry). -/
def StackEv (st st' : St) (tr : List Event) : Prop :=
  st'.callStack = (tr.filterMap (acqOf .callS)).reverse ++ st.callStack
  ∧ st'.sharedStack = (tr.filterMap (acqOf .sharedS)).reverse ++ st.sharedStack

theorem StackEv.seRefl (st : St) : StackEv st st [] := by
  constructor <;> simp

theorem StackEv.seTrans {st₁ st₂ st₃ : St} {trA trB : List Event}
    (hA : StackEv st₁ st₂ trA) (hB : StackEv st₂ st₃ trB) :
    StackEv st₁ st₃ (trA ++ trB) := by
  obtain ⟨hA1, hA2⟩ := hA
  obtain ⟨hB1, hB2⟩ := hB
  constructor <;> simp [List.filterMap_append, hA1, hA2, hB1, hB2]

/-- Events emitted with no stack interaction leave the stacks alone. -/
theorem StackEv.seSilent {st : St} {tr : List Event}
    (h : ∀ ev ∈ tr, (∀ e, ev ≠ .acq .callS e) ∧ (∀ e, ev ≠ .acq .sharedS e)) :
    StackEv st st tr := by
  have hc : ∀ s : ScopeTag, (∀ ev ∈ tr, ∀ e, ev ≠ .acq s e) →
      tr.filterMap (acqOf s) = [] := by
    intro s hs
    rw [List.filterMap_eq_nil_iff]
    intro ev hev
    cases ev with
    | acq s' e =>
        have hne : s' ≠ s := fun hss => hs _ hev e (by rw [hss])
        simp [acqOf, hne]
    | invoke k f => rfl
    | resolveFailed k f => rfl
    | acquired k f v => rfl
    | enterParam p => rfl
    | bindAnn a p v => rfl
    | rel s' e => rfl
  constructor
  · rw [hc .callS (fun ev hev => (h ev hev).1)]; simp
  · rw [hc .sharedS (fun ev hev => (h ev hev).2)]; simp

/-- The cached binding for one factory in the call cache, once present,
never changes. -/
def ScopedStable (f : FactoryId) (st st' : St) : Prop :=
  ∀ v, flookup st.callCache f = some v → flookup st'.callCache f = some v

/-- The cached binding for one factory in the shared cache, once present,
never changes. -/
def SharedStable (f : FactoryId) (st st' : St) : Prop :=
  ∀ v, flookup st.sharedResolved f = some v → flookup st'.sharedResolved f = some v

theorem ScopedStable.ssRefl (f : FactoryId) (st : St) : ScopedStable f st st :=
  fun _ h => h

theorem ScopedStable.ssTrans {f : FactoryId} {st₁ st₂ st₃ : St}
    (hA : ScopedStable f st₁ st₂) (hB : ScopedStable f st₂ st₃) :
    ScopedStable f st₁ st₃ :=
  fun v h => hB v (hA v h)

theorem SharedStable.shRefl (f : FactoryId) (st : St) : SharedStable f st st :=
  fun _ h => h

theorem SharedStable.shTrans {f : FactoryId} {st₁ st₂ st₃ : St}
    (hA : SharedStable f st₁ st₂) (hB : SharedStable f st₂ st₃) :
    SharedStable f st₁ st₃ :=
  fun v h => hB v (hA v h)

/-- Every successful acquisition of a scoped descriptor for `f` records a
value that agrees with the call cache afterwards, and the cache is
stable for `f`. -/
def ScopedAcqP (f : FactoryId) (st st' : St) (tr : List Event) : Prop :=
  (∀ w, Event.acquired .scoped f w ∈ tr → flookup st'.callCache f = some w)
  ∧ ScopedStable f st st'

/-- Every successful acquisition of a shared descriptor for `f` records a
value that agrees with the shared cache afterwards, and the cache is
stable for `f`. -/
def SharedAcqP (f : FactoryId) (st st' : St) (tr : List Event) : Prop :=
  (∀ w, Event.acquired .sharedK f w ∈ tr → flookup st'.sharedResolved f = some w)
  ∧ SharedStable f st st'

theorem ScopedAcqP.aqTrans {f : FactoryId} {st₁ st₂ st₃ : St} {trA trB : List Event}
    (hA : ScopedAcqP f st₁ st₂ trA) (hB : ScopedAcqP f st₂ st₃ trB) :
    ScopedAcqP f st₁ st₃ (trA ++ trB) := by
  refine ⟨fun w hw => ?_, hA.2.ssTrans hB.2⟩
  rcases List.mem_append.mp hw with h | h
  · exact hB.2 w (hA.1 w h)
  · exact hB.1 w h

theorem SharedAcqP.saTrans {f : FactoryId} {st₁ st₂ st₃ : St} {trA trB : List Event}
    (hA : SharedAcqP f st₁ st₂ trA) (hB : SharedAcqP f st₂ st₃ trB) :
    SharedAcqP f st₁ st₃ (trA ++ trB) := by
  refine ⟨fun w hw => ?_, hA.2.shTrans hB.2⟩
  rcases List.mem_append.mp hw with h | h
  · exact hB.2 w (hA.1 w h)
  · exact hB.1 w h

theorem ScopedAcqP.aqSilent {f : FactoryId} {st st' : St} {tr : List Event}
    (hcc : st'.callCache = st.callCache)
    (h : ∀ w, Event.acquired .scoped f w ∉ tr) : ScopedAcqP f st st' tr := by
  exact ⟨fun w hw => absurd hw (h w), fun v hv => by rw [hcc]; exact hv⟩

theorem SharedAcqP.saSilent {f : FactoryId} {st st' : St} {tr : List Event}
    (hcc : st'.sharedResolved = st.sharedResolved)
    (h : ∀ w, Event.acquired .sharedK f w ∉ tr) : SharedAcqP f st st' tr := by
  exact ⟨fun w hw => absurd hw (h w), fun v hv => by rw [hcc]; exact hv⟩

/-- A run beginning with the scoped cache empty for `f` invokes `f`
through scoped descriptors exactly as many times as the final cache
state dictates (provided no scoped resolution of `f` failed), and a run
beginning with `f` cached performs no scoped invocation of `f` at all. -/
def ScopedCount (f : FactoryId) (st st' : St) (tr : List Event) : Prop :=
  (flookup st.callCache f = none → Event.resolveFailed .scoped f ∉ tr →
    countE tr (.invoke .scoped f)
      = (if flookup st'.callCache f = none then 0 else 1))
  ∧ (∀ v, flookup st.callCache f = some v →
      countE tr (.invoke .scoped f) = 0 ∧ flookup st'.callCache f = some v)

/-- The shared analogue of `ScopedCount`. -/
def SharedCount (f : FactoryId) (st st' : St) (tr : List Event) : Prop :=
  (flookup st.sharedResolved f = none → Event.resolveFailed .sharedK f ∉ tr →
    countE tr (.invoke .sharedK f)
      = (if flookup st'.sharedResolved f = none then 0 else 1))
  ∧ (∀ v, flookup st.sharedResolved f = some v →
      countE tr (.invoke .sharedK f) = 0 ∧ flookup st'.sharedResolved f = some v)

theorem ScopedCount.scTrans {f : FactoryId} {st₁ st₂ st₃ : St} {trA trB : List Event}
    (hA : ScopedCount f st₁ st₂ trA) (hB : ScopedCount f st₂ st₃ trB) :
    ScopedCount f st₁ st₃ (trA ++ trB) := by
  constructor
  · intro h0 hnf
    rw [List.mem_append, not_or] at hnf
    rw [countE_append]
    rcases hmid : flookup st₂.callCache f with _ | v
    · have cA := hA.1 h0 hnf.1
      rw [hmid, if_pos rfl] at cA
      have cB := hB.1 hmid hnf.2
      rw [cA, cB, Nat.zero_add]
    · have cA := hA.1 h0 hnf.1
      rw [hmid, if_neg (by simp)] at cA
      have cB := hB.2 v hmid
      rw [cA, cB.1, cB.2, if_neg (by simp)]
  · intro v hv
    have cA := hA.2 v hv
    have cB := hB.2 v cA.2
    rw [countE_append, cA.1, cB.1]
    exact ⟨rfl, cB.2⟩

theorem SharedCount.shcTrans {f : FactoryId} {st₁ st₂ st₃ : St} {trA trB : List Event}
    (hA : SharedCount f st₁ st₂ trA) (hB : SharedCount f st₂ st₃ trB) :
    SharedCount f st₁ st₃ (trA ++ trB) := by
  constructor
  · intro h0 hnf
    rw [List.mem_append, not_or] at hnf
    rw [countE_append]
    rcases hmid : flookup st₂.sharedResolved f with _ | v
    · have cA := hA.1 h0 hnf.1
      rw [hmid, if_pos rfl] at cA
      have cB := hB.1 hmid hnf.2
      rw [cA, cB, Nat.zero_add]
    · have cA := hA.1 h0 hnf.1
      rw [hmid, if_neg (by simp)] at cA
      have cB := hB.2 v hmid
      rw [cA, cB.1, cB.2, if_neg (by simp)]
  · intro v hv
    have cA := hA.2 v hv
    have cB := hB.2 v cA.2
    rw [countE_append, cA.1, cB.1]
    exact ⟨rfl, cB.2⟩

theorem ScopedCount.scSilent {f : FactoryId} {st st' : St} {tr : List Event}
    (hcc : st'.callCache = st.callCache)
    (h : Event.invoke .scoped f ∉ tr) : ScopedCount f st st' tr := by
  constructor
  · intro h0 _
    rw [countE_eq_zero h, hcc, h0, if_pos rfl]
  · intro v hv
    rw [hcc]
    exact ⟨countE_eq_zero h, hv⟩

theorem SharedCount.shcSilent {f : FactoryId} {st st' : St} {tr : List Event}
    (hcc : st'.sharedResolved = st.sharedResolved)
    (h : Event.invoke .sharedK f ∉ tr) : SharedCount f st st' tr := by
  constructor
  · intro h0 _
    rw [countE_eq_zero h, hcc, h0, if_pos rfl]
  · intro v hv
    rw [hcc]
    exact ⟨countE_eq_zero h, hv⟩

/-- In a stratified environment, a run rooted at a descriptor whose
factory lies below `b` neither touches the call-cache bindings of
factories at or above `b` nor emits scoped events about them. -/
def ScopedAbove (b : Nat) (st st' : St) (tr : List Event) : Prop :=
  ∀ g, b ≤ g →
    flookup st'.callCache g = flookup st.callCache g
    ∧ Event.invoke .scoped g ∉ tr
    ∧ Event.resolveFailed .scoped g ∉ tr
    ∧ ∀ w, Event.acquired .scoped g w ∉ tr

theorem ScopedAbove.abTrans {b : Nat} {st₁ st₂ st₃ : St} {trA trB : List Event}
    (hA : ScopedAbove b st₁ st₂ trA) (hB : ScopedAbove b st₂ st₃ trB) :
    ScopedAbove b st₁ st₃ (trA ++ trB) := by
  intro g hg
  obtain ⟨a1, a2, a3, a4⟩ := hA g hg
  obtain ⟨b1, b2, b3, b4⟩ := hB g hg
  refine ⟨by rw [b1, a1], ?_, ?_, ?_⟩
  · simp only [List.mem_append, not_or]; exact ⟨a2, b2⟩
  · simp only [List.mem_append, not_or]; exact ⟨a3, b3⟩
  · intro w; simp only [List.mem_append, not_or]; exact ⟨a4 w, b4 w⟩

theorem ScopedAbove.abMono {b b' : Nat} {st st' : St} {tr : List Event}
    (hbb : b ≤ b') (h : ScopedAbove b st st' tr) : ScopedAbove b' st st' tr :=
  fun g hg => h g (le_trans hbb hg)

theorem ScopedAbove.abSilent {b : Nat} {st st' : St} {tr : List Event}
    (hcc : st'.callCache = st.callCache)
    (h : ∀ ev ∈ tr, (∀ g, ev ≠ .invoke .scoped g) ∧ (∀ g, ev ≠ .resolveFailed .scoped g)
      ∧ ∀ g w, ev ≠ .acquired .scoped g w) : ScopedAbove b st st' tr := by
  intro g _
  refine ⟨by rw [hcc], fun hm => (h _ hm).1 g rfl, fun hm => (h _ hm).2.1 g rfl,
    fun w hm => (h _ hm).2.2 g w rfl⟩

/-!
Component lemmas for the pieces of the resolver, followed by the fuel
inductions over `enterDep`.
-/

/-- Events emitted by descriptor `__aenter__` bodies: factory invocations,
resolution failures, acquisitions and stack registrations. -/
def coreEv : Event → Bool
  | .invoke _ _ => true
  | .resolveFailed _ _ => true
  | .acquired _ _ _ => true
  | .acq _ _ => true
  | _ => false

theorem pushEntry_stack (s : ScopeTag) (e : Entry) (st : St) :
    StackEv st (pushEntry s e st) [.acq s e] := by
  cases s <;> simp [StackEv, pushEntry, acqOf]

theorem pushEntry_callCache (s : ScopeTag) (e : Entry) (st : St) :
    (pushEntry s e st).callCache = st.callCache := by
  cases s <;> rfl

theorem pushEntry_sharedResolved (s : ScopeTag) (e : Entry) (st : St) :
    (pushEntry s e st).sharedResolved = st.sharedResolved := by
  cases s <;> rfl

theorem rfv_spec (s : ScopeTag) (f : FactoryId) (raw : Raw) (st : St) :
    StackEv st (resolveFactoryValue s f raw st).2.1 (resolveFactoryValue s f raw st).2.2
    ∧ (resolveFactoryValue s f raw st).2.1.callCache = st.callCache
    ∧ (resolveFactoryValue s f raw st).2.1.sharedResolved = st.sharedResolved
    ∧ ∀ ev ∈ (resolveFactoryValue s f raw st).2.2,
        ev = .acq s (.facAsync f) ∨ ev = .acq s (.facSync f) := by
  unfold resolveFactoryValue
  split
  · exact ⟨pushEntry_stack s _ st, pushEntry_callCache s _ st,
      pushEntry_sharedResolved s _ st, by intro ev hev; simp at hev; exact .inl hev⟩
  · split
    · exact ⟨pushEntry_stack s _ st, pushEntry_callCache s _ st,
        pushEntry_sharedResolved s _ st, by intro ev hev; simp at hev; exact .inr hev⟩
    · split
      · exact ⟨StackEv.seRefl st, rfl, rfl, by intro ev hev; simp at hev⟩
      · exact ⟨StackEv.seRefl st, rfl, rfl, by intro ev hev; simp at hev⟩

theorem finishScoped_err_eq (env : List FactorySpec) (f : FactoryId) (e : Err)
    (st₁ : St) (tr₁ : List Event) :
    finishScoped env f ⟨.error e, st₁, tr₁⟩
      = ⟨.error e, st₁, tr₁ ++ [.resolveFailed .scoped f]⟩ := rfl

theorem finishScoped_runerr_eq (env : List FactorySpec) (f : FactoryId)
    (args : List (ParamName × PyVal)) (st₁ : St) (tr₁ : List Event) (e : Err)
    (h : (envGet env f).run args st₁.alloc = .error e) :
    finishScoped env f ⟨.ok args, st₁, tr₁⟩
      = ⟨.error e, { st₁ with alloc := st₁.alloc + 1 },
          tr₁ ++ [.invoke .scoped f, .resolveFailed .scoped f]⟩ := by
  simp only [finishScoped, h]

theorem finishScoped_ok_eq (env : List FactorySpec) (f : FactoryId)
    (args : List (ParamName × PyVal)) (st₁ : St) (tr₁ : List Event) (raw : Raw)
    (v : PyVal) (st₃ : St) (tr₂ : List Event)
    (h : (envGet env f).run args st₁.alloc = .ok raw)
    (h2 : resolveFactoryValue .callS f raw { st₁ with alloc := st₁.alloc + 1 } = (v, st₃, tr₂)) :
    finishScoped env f ⟨.ok args, st₁, tr₁⟩
      = ⟨.ok v, { st₃ with callCache := (f, v) :: st₃.callCache },
          tr₁ ++ [.invoke .scoped f] ++ tr₂ ++ [.acquired .scoped f v]⟩ := by
  simp only [finishScoped, h, h2]

theorem finishShared_err_eq (env : List FactorySpec) (f : FactoryId) (e : Err)
    (st₁ : St) (tr₁ : List Event) :
    finishShared env f ⟨.error e, st₁, tr₁⟩
      = ⟨.error e, st₁, tr₁ ++ [.resolveFailed .sharedK f]⟩ := rfl

theorem finishShared_hit_eq (env : List FactorySpec) (f : FactoryId)
    (args : List (ParamName × PyVal)) (st₁ : St) (tr₁ : List Event) (v : PyVal)
    (h : flookup st₁.sharedResolved f = some v) :
    finishShared env f ⟨.ok args, st₁, tr₁⟩
      = ⟨.ok v, st₁, tr₁ ++ [.acquired .sharedK f v]⟩ := by
  simp only [finishShared, h]

theorem finishShared_runerr_eq (env : List FactorySpec) (f : FactoryId)
    (args : List (ParamName × PyVal)) (st₁ : St) (tr₁ : List Event) (e : Err)
    (hlk : flookup st₁.sharedResolved f = none)
    (h : (envGet env f).run args st₁.alloc = .error e) :
    finishShared env f ⟨.ok args, st₁, tr₁⟩
      = ⟨.error e, { st₁ with alloc := st₁.alloc + 1 },
          tr₁ ++ [.invoke .sharedK f, .resolveFailed .sharedK f]⟩ := by
  simp only [finishShared, hlk, h]

theorem finishShared_ok_eq (env : List FactorySpec) (f : FactoryId)
    (args : List (ParamName × PyVal)) (st₁ : St) (tr₁ : List Event) (raw : Raw)
    (v : PyVal) (st₃ : St) (tr₂ : List Event)
    (hlk : flookup st₁.sharedResolved f = none)
    (h : (envGet env f).run args st₁.alloc = .ok raw)
    (h2 : resolveFactoryValue .sharedS f raw { st₁ with alloc := st₁.alloc + 1 } = (v, st₃, tr₂)) :
    finishShared env f ⟨.ok args, st₁, tr₁⟩
      = ⟨.ok v, { st₃ with sharedResolved := (f, v) :: st₃.sharedResolved },
          tr₁ ++ [.invoke .sharedK f] ++ tr₂ ++ [.acquired .sharedK f v]⟩ := by
  simp only [finishShared, hlk, h, h2]

/-- Outcome case analysis for the scoped miss path. -/
theorem finishScoped_cases (env : List FactorySpec) (f : FactoryId)
    (po : Out (List (ParamName × PyVal))) :
    (∃ e st₁ tr₁, po = ⟨.error e, st₁, tr₁⟩
      ∧ finishScoped env f po = ⟨.error e, st₁, tr₁ ++ [.resolveFailed .scoped f]⟩)
    ∨ (∃ args st₁ tr₁ e, po = ⟨.ok args, st₁, tr₁⟩
      ∧ (envGet env f).run args st₁.alloc = .error e
      ∧ finishScoped env f po
          = ⟨.error e, { st₁ with alloc := st₁.alloc + 1 },
              tr₁ ++ [.invoke .scoped f, .resolveFailed .scoped f]⟩)
    ∨ (∃ args st₁ tr₁ raw v st₃ tr₂, po = ⟨.ok args, st₁, tr₁⟩
      ∧ (envGet env f).run args st₁.alloc = .ok raw
      ∧ resolveFactoryValue .callS f raw { st₁ with alloc := st₁.alloc + 1 } = (v, st₃, tr₂)
      ∧ finishScoped env f po
          = ⟨.ok v, { st₃ with callCache := (f, v) :: st₃.callCache },
              tr₁ ++ [.invoke .scoped f] ++ tr₂ ++ [.acquired .scoped f v]⟩) := by
  obtain ⟨r, st₁, tr₁⟩ := po
  cases r with
  | error e => exact .inl ⟨e, st₁, tr₁, rfl, finishScoped_err_eq env f e st₁ tr₁⟩
  | ok args =>
      rcases hrun : (envGet env f).run args st₁.alloc with e | raw
      · exact .inr (.inl ⟨args, st₁, tr₁, e, rfl, hrun,
          finishScoped_runerr_eq env f args st₁ tr₁ e hrun⟩)
      · rcases hrfv : resolveFactoryValue .callS f raw { st₁ with alloc := st₁.alloc + 1 }
          with ⟨v, st₃, tr₂⟩
        exact .inr (.inr ⟨args, st₁, tr₁, raw, v, st₃, tr₂, rfl, hrun, hrfv,
          finishScoped_ok_eq env f args st₁ tr₁ raw v st₃ tr₂ hrun hrfv⟩)

/-- Outcome case analysis for the shared miss path. -/
theorem finishShared_cases (env : List FactorySpec) (f : FactoryId)
    (po : Out (List (ParamName × PyVal))) :
    (∃ e st₁ tr₁, po = ⟨.error e, st₁, tr₁⟩
      ∧ finishShared env f po = ⟨.error e, st₁, tr₁ ++ [.resolveFailed .sharedK f]⟩)
    ∨ (∃ args st₁ tr₁ v, po = ⟨.ok args, st₁, tr₁⟩
      ∧ flookup st₁.sharedResolved f = some v
      ∧ finishShared env f po = ⟨.ok v, st₁, tr₁ ++ [.acquired .sharedK f v]⟩)
    ∨ (∃ args st₁ tr₁ e, po = ⟨.ok args, st₁, tr₁⟩
      ∧ flookup st₁.sharedResolved f = none
      ∧ (envGet env f).run args st₁.alloc = .error e
      ∧ finishShared env f po
          = ⟨.error e, { st₁ with alloc := st₁.alloc + 1 },
              tr₁ ++ [.invoke .sharedK f, .resolveFailed .sharedK f]⟩)
    ∨ (∃ args st₁ tr₁ raw v st₃ tr₂, po = ⟨.ok args, st₁, tr₁⟩
      ∧ flookup st₁.sharedResolved f = none
      ∧ (envGet env f).run args st₁.alloc = .ok raw
      ∧ resolveFactoryValue .sharedS f raw { st₁ with alloc := st₁.alloc + 1 } = (v, st₃, tr₂)
      ∧ finishShared env f po
          = ⟨.ok v, { st₃ with sharedResolved := (f, v) :: st₃.sharedResolved },
              tr₁ ++ [.invoke .sharedK f] ++ tr₂ ++ [.acquired .sharedK f v]⟩) := by
  obtain ⟨r, st₁, tr₁⟩ := po
  cases r with
  | error e => exact .inl ⟨e, st₁, tr₁, rfl, finishShared_err_eq env f e st₁ tr₁⟩
  | ok args =>
      rcases hlk : flookup st₁.sharedResolved f with _ | v
      · rcases hrun : (envGet env f).run args st₁.alloc with e | raw
        · exact .inr (.inr (.inl ⟨args, st₁, tr₁, e, rfl, hlk, hrun,
            finishShared_runerr_eq env f args st₁ tr₁ e hlk hrun⟩))
        · rcases hrfv : resolveFactoryValue .sharedS f raw { st₁ with alloc := st₁.alloc + 1 }
            with ⟨v, st₃, tr₂⟩
          exact .inr (.inr (.inr ⟨args, st₁, tr₁, raw, v, st₃, tr₂, rfl, hlk, hrun, hrfv,
            finishShared_ok_eq env f args st₁ tr₁ raw v st₃ tr₂ hlk hrun hrfv⟩))
      · exact .inr (.inl ⟨args, st₁, tr₁, v, rfl, hlk,
          finishShared_hit_eq env f args st₁ tr₁ v hlk⟩)

theorem finishScoped_stack {env : List FactorySpec} {f : FactoryId}
    {st₀ : St} {po : Out (List (ParamName × PyVal))}
    (h : StackEv st₀ po.st po.tr) :
    StackEv st₀ (finishScoped env f po).st (finishScoped env f po).tr := by
  obtain ⟨r, st₁, tr₁⟩ := po
  cases r with
  | error e =>
      rw [finishScoped_err_eq]
      exact h.seTrans (StackEv.seSilent (by simp))
  | ok args =>
      rcases hrun : (envGet env f).run args st₁.alloc with e | raw
      · rw [finishScoped_runerr_eq env f args st₁ tr₁ e hrun]
        exact StackEv.seTrans h (StackEv.seSilent (by simp))
      · rcases hrfv : resolveFactoryValue .callS f raw { st₁ with alloc := st₁.alloc + 1 }
          with ⟨v, st₃, tr₂⟩
        rw [finishScoped_ok_eq env f args st₁ tr₁ raw v st₃ tr₂ hrun hrfv]
        have hr := rfv_spec .callS f raw { st₁ with alloc := st₁.alloc + 1 }
        rw [hrfv] at hr
        have h1 : StackEv st₀ st₁ (tr₁ ++ [.invoke .scoped f]) :=
          h.seTrans (StackEv.seSilent (by simp))
        have h2 : StackEv st₁ st₃ tr₂ := by
          refine ⟨by simpa using hr.1.1, by simpa using hr.1.2⟩
        have h3 := h1.seTrans h2
        have h4 : StackEv st₃ st₃ [Event.acquired .scoped f v] :=
          StackEv.seSilent (by simp)
        have h5 := h3.seTrans h4
        exact ⟨by simpa using h5.1, by simpa using h5.2⟩

theorem finishShared_stack {env : List FactorySpec} {f : FactoryId}
    {st₀ : St} {po : Out (List (ParamName × PyVal))}
    (h : StackEv st₀ po.st po.tr) :
    StackEv st₀ (finishShared env f po).st (finishShared env f po).tr := by
  obtain ⟨r, st₁, tr₁⟩ := po
  cases r with
  | error e =>
      rw [finishShared_err_eq]
      exact h.seTrans (StackEv.seSilent (by simp))
  | ok args =>
      rcases hlk : flookup st₁.sharedResolved f with _ | v
      · rcases hrun : (envGet env f).run args st₁.alloc with e | raw
        · rw [finishShared_runerr_eq env f args st₁ tr₁ e hlk hrun]
          exact StackEv.seTrans h (StackEv.seSilent (by simp))
        · rcases hrfv : resolveFactoryValue .sharedS f raw { st₁ with alloc := st₁.alloc + 1 }
            with ⟨v, st₃, tr₂⟩
          rw [finishShared_ok_eq env f args st₁ tr₁ raw v st₃ tr₂ hlk hrun hrfv]
          have hr := rfv_spec .sharedS f raw { st₁ with alloc := st₁.alloc + 1 }
          rw [hrfv] at hr
          have h1 : StackEv st₀ st₁ (tr₁ ++ [.invoke .sharedK f]) :=
            h.seTrans (StackEv.seSilent (by simp))
          have h2 : StackEv st₁ st₃ tr₂ := by
            refine ⟨by simpa using hr.1.1, by simpa using hr.1.2⟩
          have h3 := h1.seTrans h2
          have h4 : StackEv st₃ st₃ [Event.acquired .sharedK f v] :=
            StackEv.seSilent (by simp)
          have h5 := h3.seTrans h4
          exact ⟨by simpa using h5.1, by simpa using h5.2⟩
      · rw [finishShared_hit_eq env f args st₁ tr₁ v hlk]
        exact h.seTrans (StackEv.seSilent (by simp))

theorem enterCtxWith_err_eq (enter1 : Dep → St → Out PyVal) (s : ScopeTag) (d : Dep)
    (st : St) (e : Err) (st' : St) (tr : List Event)
    (he : enter1 d st = ⟨.error e, st', tr⟩) :
    enterCtxWith enter1 s d st = ⟨.error e, st', tr⟩ := by
  unfold enterCtxWith
  rw [he]

theorem enterCtxWith_ok_eq (enter1 : Dep → St → Out PyVal) (s : ScopeTag) (d : Dep)
    (st : St) (v : PyVal) (st' : St) (tr : List Event)
    (he : enter1 d st = ⟨.ok v, st', tr⟩) :
    enterCtxWith enter1 s d st
      = ⟨.ok v, pushEntry s (.descr d.kind d.fac) st',
          tr ++ [.acq s (.descr d.kind d.fac)]⟩ := by
  unfold enterCtxWith
  rw [he]

theorem enterDep_zero_eq (env : List FactorySpec) (d : Dep) (st : St) :
    enterDep env 0 d st = ⟨.error .recursionLimit, st, [.resolveFailed d.kind d.fac]⟩ := by
  simp [enterDep]

theorem enterDep_dep_hit_eq (env : List FactorySpec) (n : Nat) (f : FactoryId)
    (st : St) (v : PyVal) (h : flookup st.callCache f = some v) :
    enterDep env (n + 1) (.depends f) st = ⟨.ok v, st, [.acquired .scoped f v]⟩ := by
  simp [enterDep, h]

theorem enterDep_dep_miss_eq (env : List FactorySpec) (n : Nat) (f : FactoryId)
    (st : St) (h : flookup st.callCache f = none) :
    enterDep env (n + 1) (.depends f) st
      = finishScoped env f
          (paramsLoop (fun d' st' => enterDep env n d' st') .callS
            (envGet env f).params st) := by
  simp [enterDep, h]

theorem enterDep_shared_closed_eq (env : List FactorySpec) (n : Nat) (f : FactoryId)
    (st : St) (h : st.sharedOpen = false) :
    enterDep env (n + 1) (.shared f) st
      = ⟨.error .lookupErr, st, [.resolveFailed .sharedK f]⟩ := by
  simp [enterDep, h]

theorem enterDep_shared_hit_eq (env : List FactorySpec) (n : Nat) (f : FactoryId)
    (st : St) (v : PyVal) (hop : st.sharedOpen = true)
    (h : flookup st.sharedResolved f = some v) :
    enterDep env (n + 1) (.shared f) st = ⟨.ok v, st, [.acquired .sharedK f v]⟩ := by
  simp [enterDep, hop, h]

theorem enterDep_shared_miss_eq (env : List FactorySpec) (n : Nat) (f : FactoryId)
    (st : St) (hop : st.sharedOpen = true) (h : flookup st.sharedResolved f = none) :
    enterDep env (n + 1) (.shared f) st
      = finishShared env f
          (paramsLoop (fun d' st' => enterDep env n d' st') .sharedS
            (envGet env f).params st) := by
  simp [enterDep, hop, h]

/-- Outcome case analysis for one step of the parameter loop. -/
theorem paramsLoop_cons_cases (enter1 : Dep → St → Out PyVal) (s : ScopeTag)
    (p : ParamName) (d : Dep) (ps : List (ParamName × Dep)) (st : St) :
    (∃ e st₁ tr₁, enterCtxWith enter1 s d st = ⟨.error e, st₁, tr₁⟩
      ∧ paramsLoop enter1 s ((p, d) :: ps) st = ⟨.error e, st₁, tr₁⟩)
    ∨ (∃ v st₁ tr₁ e st₂ tr₂, enterCtxWith enter1 s d st = ⟨.ok v, st₁, tr₁⟩
      ∧ paramsLoop enter1 s ps st₁ = ⟨.error e, st₂, tr₂⟩
      ∧ paramsLoop enter1 s ((p, d) :: ps) st = ⟨.error e, st₂, tr₁ ++ tr₂⟩)
    ∨ (∃ v st₁ tr₁ rest st₂ tr₂, enterCtxWith enter1 s d st = ⟨.ok v, st₁, tr₁⟩
      ∧ paramsLoop enter1 s ps st₁ = ⟨.ok rest, st₂, tr₂⟩
      ∧ paramsLoop enter1 s ((p, d) :: ps) st
          = ⟨.ok ((p, v) :: rest), st₂, tr₁ ++ tr₂⟩) := by
  rcases hctx : enterCtxWith enter1 s d st with ⟨r, st₁, tr₁⟩
  cases r with
  | error e =>
      refine .inl ⟨e, st₁, tr₁, rfl, ?_⟩
      simp only [paramsLoop, hctx]
  | ok v =>
      rcases hrest : paramsLoop enter1 s ps st₁ with ⟨r₂, st₂, tr₂⟩
      cases r₂ with
      | error e =>
          refine .inr (.inl ⟨v, st₁, tr₁, e, st₂, tr₂, rfl, hrest, ?_⟩)
          simp only [paramsLoop, hctx, hrest]
      | ok rest =>
          refine .inr (.inr ⟨v, st₁, tr₁, rest, st₂, tr₂, rfl, hrest, ?_⟩)
          simp only [paramsLoop, hctx, hrest]

theorem enterCtxWith_stack {enter1 : Dep → St → Out PyVal} (s : ScopeTag)
    (h1 : ∀ d st, StackEv st (enter1 d st).st (enter1 d st).tr) (d : Dep) (st : St) :
    StackEv st (enterCtxWith enter1 s d st).st (enterCtxWith enter1 s d st).tr := by
  have h := h1 d st
  rcases he : enter1 d st with ⟨r, st', tr⟩
  rw [he] at h
  cases r with
  | error e =>
      rw [enterCtxWith_err_eq enter1 s d st e st' tr he]
      exact h
  | ok v =>
      rw [enterCtxWith_ok_eq enter1 s d st v st' tr he]
      exact h.seTrans (pushEntry_stack s _ st')

theorem paramsLoop_stack {enter1 : Dep → St → Out PyVal} {s : ScopeTag}
    (h1 : ∀ d st, StackEv st (enter1 d st).st (enter1 d st).tr) :
    ∀ (ps : List (ParamName × Dep)) (st : St),
      StackEv st (paramsLoop enter1 s ps st).st (paramsLoop enter1 s ps st).tr := by
  intro ps
  induction ps with
  | nil => intro st; exact StackEv.seRefl st
  | cons pd ps ih =>
      intro st
      obtain ⟨p, d⟩ := pd
      simp only [paramsLoop]
      rcases he : enterCtxWith enter1 s d st with ⟨r, st₁, tr₁⟩
      have hctx := enterCtxWith_stack s h1 d st
      rw [he] at hctx
      cases r with
      | error e => exact hctx
      | ok v =>
          simp only
          rcases hrest : paramsLoop enter1 s ps st₁ with ⟨r₂, st₂, tr₂⟩
          have hr := ih st₁
          rw [hrest] at hr
          cases r₂ with
          | error e => exact hctx.seTrans hr
          | ok rest => exact hctx.seTrans hr

theorem enterDep_stack (env : List FactorySpec) :
    ∀ (n : Nat) (d : Dep) (st : St),
      StackEv st (enterDep env n d st).st (enterDep env n d st).tr := by
  intro n
  induction n with
  | zero =>
      intro d st
      rw [enterDep_zero_eq]
      exact StackEv.seSilent (by simp)
  | succ n ih =>
      intro d st
      cases d with
      | depends f =>
          rcases hlk : flookup st.callCache f with _ | v
          · rw [enterDep_dep_miss_eq env n f st hlk]
            exact finishScoped_stack (paramsLoop_stack ih _ st)
          · rw [enterDep_dep_hit_eq env n f st v hlk]
            exact StackEv.seSilent (by simp)
      | shared f =>
          by_cases hop : st.sharedOpen
          · rcases hlk : flookup st.sharedResolved f with _ | v
            · rw [enterDep_shared_miss_eq env n f st hop hlk]
              exact finishShared_stack (paramsLoop_stack ih _ st)
            · rw [enterDep_shared_hit_eq env n f st v hop hlk]
              exact StackEv.seSilent (by simp)
          · rw [enterDep_shared_closed_eq env n f st (by simpa using hop)]
            exact StackEv.seSilent (by simp)

/-- Outcome case analysis for `enter_async_context` on a descriptor. -/
theorem enterCtxWith_cases (enter1 : Dep → St → Out PyVal) (s : ScopeTag) (d : Dep)
    (st : St) :
    (∃ e st' tr, enter1 d st = ⟨.error e, st', tr⟩
      ∧ enterCtxWith enter1 s d st = ⟨.error e, st', tr⟩)
    ∨ (∃ v st' tr, enter1 d st = ⟨.ok v, st', tr⟩
      ∧ enterCtxWith enter1 s d st
          = ⟨.ok v, pushEntry s (.descr d.kind d.fac) st',
              tr ++ [.acq s (.descr d.kind d.fac)]⟩) := by
  rcases he : enter1 d st with ⟨r, st', tr⟩
  cases r with
  | error e => exact .inl ⟨e, st', tr, rfl, enterCtxWith_err_eq enter1 s d st e st' tr he⟩
  | ok v => exact .inr ⟨v, st', tr, rfl, enterCtxWith_ok_eq enter1 s d st v st' tr he⟩

/-- A failing descriptor entry always leaves a `resolveFailed` event for
that descriptor's factory in its trace. -/
theorem enterDep_err_mem (env : List FactorySpec) (n : Nat) (d : Dep) (st : St)
    (e : Err) (h : (enterDep env n d st).res = .error e) :
    Event.resolveFailed d.kind d.fac ∈ (enterDep env n d st).tr := by
  cases n with
  | zero => rw [enterDep_zero_eq]; simp
  | succ n =>
      cases d with
      | depends f =>
          rcases hlk : flookup st.callCache f with _ | v
          · rw [enterDep_dep_miss_eq env n f st hlk] at h ⊢
            rcases finishScoped_cases env f (paramsLoop (fun d' st' => enterDep env n d' st')
                .callS (envGet env f).params st) with
              ⟨e', st₁, tr₁, _, heq⟩ | ⟨args, st₁, tr₁, e', _, _, heq⟩ |
              ⟨args, st₁, tr₁, raw, v, st₃, tr₂, _, _, _, heq⟩
            · rw [heq]; simp [Dep.kind, Dep.fac]
            · rw [heq]; simp [Dep.kind, Dep.fac]
            · rw [heq] at h; simp at h
          · rw [enterDep_dep_hit_eq env n f st v hlk] at h
            simp at h
      | shared f =>
          by_cases hop : st.sharedOpen
          · rcases hlk : flookup st.sharedResolved f with _ | v
            · rw [enterDep_shared_miss_eq env n f st hop hlk] at h ⊢
              rcases finishShared_cases env f (paramsLoop (fun d' st' => enterDep env n d' st')
                  .sharedS (envGet env f).params st) with
                ⟨e', st₁, tr₁, _, heq⟩ | ⟨args, st₁, tr₁, v, _, _, heq⟩ |
                ⟨args, st₁, tr₁, e', _, _, _, heq⟩ |
                ⟨args, st₁, tr₁, raw, v, st₃, tr₂, _, _, _, _, heq⟩
              · rw [heq]; simp [Dep.kind, Dep.fac]
              · rw [heq] at h; simp at h
              · rw [heq]; simp [Dep.kind, Dep.fac]
              · rw [heq] at h; simp at h
            · rw [enterDep_shared_hit_eq env n f st v hop hlk] at h
              simp at h
          · rw [enterDep_shared_closed_eq env n f st (by simpa using hop)]
            simp [Dep.kind, Dep.fac]

/-- A successful descriptor entry always records an `acquired` event with
the returned value. -/
theorem enterDep_ok_mem (env : List FactorySpec) (n : Nat) (d : Dep) (st : St)
    (v : PyVal) (h : (enterDep env n d st).res = .ok v) :
    Event.acquired d.kind d.fac v ∈ (enterDep env n d st).tr := by
  cases n with
  | zero => rw [enterDep_zero_eq] at h; simp at h
  | succ n =>
      cases d with
      | depends f =>
          rcases hlk : flookup st.callCache f with _ | w
          · rw [enterDep_dep_miss_eq env n f st hlk] at h ⊢
            rcases finishScoped_cases env f (paramsLoop (fun d' st' => enterDep env n d' st')
                .callS (envGet env f).params st) with
              ⟨e', st₁, tr₁, _, heq⟩ | ⟨args, st₁, tr₁, e', _, _, heq⟩ |
              ⟨args, st₁, tr₁, raw, w, st₃, tr₂, _, _, _, heq⟩
            · rw [heq] at h; simp at h
            · rw [heq] at h; simp at h
            · rw [heq] at h ⊢
              simp at h
              subst h
              simp [Dep.kind, Dep.fac]
          · rw [enterDep_dep_hit_eq env n f st w hlk] at h ⊢
            simp at h
            subst h
            simp [Dep.kind, Dep.fac]
      | shared f =>
          by_cases hop : st.sharedOpen
          · rcases hlk : flookup st.sharedResolved f with _ | w
            · rw [enterDep_shared_miss_eq env n f st hop hlk] at h ⊢
              rcases finishShared_cases env f (paramsLoop (fun d' st' => enterDep env n d' st')
                  .sharedS (envGet env f).params st) with
                ⟨e', st₁, tr₁, _, heq⟩ | ⟨args, st₁, tr₁, w, _, _, heq⟩ |
                ⟨args, st₁, tr₁, e', _, _, _, heq⟩ |
                ⟨args, st₁, tr₁, raw, w, st₃, tr₂, _, _, _, _, heq⟩
              · rw [heq] at h; simp at h
              · rw [heq] at h ⊢
                simp at h
                subst h
                simp [Dep.kind, Dep.fac]
              · rw [heq] at h; simp at h
              · rw [heq] at h ⊢
                simp at h
                subst h
                simp [Dep.kind, Dep.fac]
            · rw [enterDep_shared_hit_eq env n f st w hop hlk] at h ⊢
              simp at h
              subst h
              simp [Dep.kind, Dep.fac]
          · rw [enterDep_shared_closed_eq env n f st (by simpa using hop)] at h
            simp at h

/-- Only core events (invocations, failures, acquisitions, stack
registrations) are emitted by descriptor entry. -/
theorem enterDep_events (env : List FactorySpec) :
    ∀ (n : Nat) (d : Dep) (st : St),
      ∀ ev ∈ (enterDep env n d st).tr, coreEv ev = true := by
  have hfinS : ∀ f (po : Out (List (ParamName × PyVal))),
      (∀ ev ∈ po.tr, coreEv ev = true) →
      ∀ ev ∈ (finishScoped env f po).tr, coreEv ev = true := by
    intro f po hpo
    obtain ⟨r, st₁, tr₁⟩ := po
    cases r with
    | error e =>
        rw [finishScoped_err_eq]
        intro ev hev
        rcases List.mem_append.mp hev with h | h
        · exact hpo ev h
        · simp at h; simp [h, coreEv]
    | ok args =>
        rcases hrun : (envGet env f).run args st₁.alloc with e | raw
        · rw [finishScoped_runerr_eq env f args st₁ tr₁ e hrun]
          intro ev hev
          rcases List.mem_append.mp hev with h | h
          · exact hpo ev h
          · simp at h; rcases h with h | h <;> simp [h, coreEv]
        · rcases hrfv : resolveFactoryValue .callS f raw
            { st₁ with alloc := st₁.alloc + 1 } with ⟨v, st₃, tr₂⟩
          rw [finishScoped_ok_eq env f args st₁ tr₁ raw v st₃ tr₂ hrun hrfv]
          intro ev hev
          have hr := (rfv_spec .callS f raw { st₁ with alloc := st₁.alloc + 1 }).2.2.2
          rw [hrfv] at hr
          simp only [List.append_assoc, List.mem_append] at hev
          rcases hev with h | h | h | h
          · exact hpo ev h
          · simp at h; simp [h, coreEv]
          · rcases hr ev h with h' | h' <;> simp [h', coreEv]
          · simp at h; simp [h, coreEv]
  have hfinH : ∀ f (po : Out (List (ParamName × PyVal))),
      (∀ ev ∈ po.tr, coreEv ev = true) →
      ∀ ev ∈ (finishShared env f po).tr, coreEv ev = true := by
    intro f po hpo
    obtain ⟨r, st₁, tr₁⟩ := po
    cases r with
    | error e =>
        rw [finishShared_err_eq]
        intro ev hev
        rcases List.mem_append.mp hev with h | h
        · exact hpo ev h
        · simp at h; simp [h, coreEv]
    | ok args =>
        rcases hlk2 : flookup st₁.sharedResolved f with _ | v
        · rcases hrun : (envGet env f).run args st₁.alloc with e | raw
          · rw [finishShared_runerr_eq env f args st₁ tr₁ e hlk2 hrun]
            intro ev hev
            rcases List.mem_append.mp hev with h | h
            · exact hpo ev h
            · simp at h; rcases h with h | h <;> simp [h, coreEv]
          · rcases hrfv : resolveFactoryValue .sharedS f raw
              { st₁ with alloc := st₁.alloc + 1 } with ⟨v, st₃, tr₂⟩
            rw [finishShared_ok_eq env f args st₁ tr₁ raw v st₃ tr₂ hlk2 hrun hrfv]
            intro ev hev
            have hr := (rfv_spec .sharedS f raw { st₁ with alloc := st₁.alloc + 1 }).2.2.2
            rw [hrfv] at hr
            simp only [List.append_assoc, List.mem_append] at hev
            rcases hev with h | h | h | h
            · exact hpo ev h
            · simp at h; simp [h, coreEv]
            · rcases hr ev h with h' | h' <;> simp [h', coreEv]
            · simp at h; simp [h, coreEv]
        · rw [finishShared_hit_eq env f args st₁ tr₁ v hlk2]
          intro ev hev
          rcases List.mem_append.mp hev with h | h
          · exact hpo ev h
          · simp at h; simp [h, coreEv]
  intro n
  induction n with
  | zero =>
      intro d st ev hev
      rw [enterDep_zero_eq] at hev
      simp at hev
      simp [hev, coreEv]
  | succ n ih =>
      have hctxE : ∀ (s : ScopeTag) (d : Dep) (st : St),
          ∀ ev ∈ (enterCtxWith (fun d' st' => enterDep env n d' st') s d st).tr,
            coreEv ev = true := by
        intro s d st ev hev
        rcases enterCtxWith_cases (fun d' st' => enterDep env n d' st') s d st with
          ⟨e, st', tr, he, heq⟩ | ⟨v, st', tr, he, heq⟩
        · rw [heq] at hev
          have hd := ih d st
          rw [he] at hd
          exact hd ev hev
        · rw [heq] at hev
          have hd := ih d st
          rw [he] at hd
          simp only [List.mem_append] at hev
          rcases hev with h | h
          · exact hd ev h
          · simp at h; simp [h, coreEv]
      have hloop : ∀ (s : ScopeTag) (ps : List (ParamName × Dep)) (st : St),
          ∀ ev ∈ (paramsLoop (fun d' st' => enterDep env n d' st') s ps st).tr,
            coreEv ev = true := by
        intro s ps
        induction ps with
        | nil => intro st ev hev; simp [paramsLoop] at hev
        | cons pd ps ihp =>
            intro st ev hev
            obtain ⟨p, d⟩ := pd
            rcases paramsLoop_cons_cases (fun d' st' => enterDep env n d' st') s p d ps st with
              ⟨e, st₁, tr₁, hctx, heq⟩ | ⟨v, st₁, tr₁, e, st₂, tr₂, hctx, hrest, heq⟩ |
              ⟨v, st₁, tr₁, rest, st₂, tr₂, hctx, hrest, heq⟩
            · rw [heq] at hev
              have := hctxE s d st
              rw [hctx] at this
              exact this ev hev
            · rw [heq] at hev
              have h1 := hctxE s d st
              rw [hctx] at h1
              have h2 := ihp st₁
              rw [hrest] at h2
              rcases List.mem_append.mp hev with h | h
              · exact h1 ev h
              · exact h2 ev h
            · rw [heq] at hev
              have h1 := hctxE s d st
              rw [hctx] at h1
              have h2 := ihp st₁
              rw [hrest] at h2
              rcases List.mem_append.mp hev with h | h
              · exact h1 ev h
              · exact h2 ev h
      intro d st ev hev
      cases d with
      | depends f =>
          rcases hlk : flookup st.callCache f with _ | v
          · rw [enterDep_dep_miss_eq env n f st hlk] at hev
            exact hfinS f _ (hloop .callS (envGet env f).params st) ev hev
          · rw [enterDep_dep_hit_eq env n f st v hlk] at hev
            simp at hev; simp [hev, coreEv]
      | shared f =>
          by_cases hop : st.sharedOpen
          · rcases hlk : flookup st.sharedResolved f with _ | v
            · rw [enterDep_shared_miss_eq env n f st hop hlk] at hev
              exact hfinH f _ (hloop .sharedS (envGet env f).params st) ev hev
            · rw [enterDep_shared_hit_eq env n f st v hop hlk] at hev
              simp at hev; simp [hev, coreEv]
          · rw [enterDep_shared_closed_eq env n f st (by simpa using hop)] at hev
            simp at hev; simp [hev, coreEv]

/-!
Generic lifting of composable run-invariants through the engine's loops.
-/

theorem enterCtxWith_lift {P : St → St → List Event → Prop}
    {enter1 : Dep → St → Out PyVal} {s : ScopeTag}
    (htrans : ∀ {a b c : St} {trA trB : List Event}, P a b trA → P b c trB → P a c (trA ++ trB))
    (hpush : ∀ (e : Entry) (st : St), P st (pushEntry s e st) [Event.acq s e])
    {d : Dep} (h1 : ∀ st, P st (enter1 d st).st (enter1 d st).tr) (st : St) :
    P st (enterCtxWith enter1 s d st).st (enterCtxWith enter1 s d st).tr := by
  rcases enterCtxWith_cases enter1 s d st with
    ⟨e, st', tr, he, heq⟩ | ⟨v, st', tr, he, heq⟩
  · rw [heq]
    have h := h1 st
    rw [he] at h
    exact h
  · rw [heq]
    have h := h1 st
    rw [he] at h
    exact htrans h (hpush _ st')

theorem paramsLoop_lift {P : St → St → List Event → Prop}
    {enter1 : Dep → St → Out PyVal} {s : ScopeTag}
    (htrans : ∀ {a b c : St} {trA trB : List Event}, P a b trA → P b c trB → P a c (trA ++ trB))
    (hnil : ∀ st, P st st [])
    (hpush : ∀ (e : Entry) (st : St), P st (pushEntry s e st) [Event.acq s e]) :
    ∀ (ps : List (ParamName × Dep)),
      (∀ pd ∈ ps, ∀ st, P st (enter1 pd.2 st).st (enter1 pd.2 st).tr) →
      ∀ st, P st (paramsLoop enter1 s ps st).st (paramsLoop enter1 s ps st).tr := by
  intro ps
  induction ps with
  | nil => intro _ st; simpa [paramsLoop] using hnil st
  | cons pd ps ihp =>
      intro hps st
      obtain ⟨p, d⟩ := pd
      have hd : ∀ st, P st (enter1 d st).st (enter1 d st).tr :=
        fun st => hps (p, d) (by simp) st
      have htail : ∀ pd ∈ ps, ∀ st, P st (enter1 pd.2 st).st (enter1 pd.2 st).tr :=
        fun pd hpd st => hps pd (by simp [hpd]) st
      rcases paramsLoop_cons_cases enter1 s p d ps st with
        ⟨e, st₁, tr₁, hctx, heq⟩ | ⟨v, st₁, tr₁, e, st₂, tr₂, hctx, hrest, heq⟩ |
        ⟨v, st₁, tr₁, rest, st₂, tr₂, hctx, hrest, heq⟩
      · rw [heq]
        have h := enterCtxWith_lift htrans hpush hd st
        rw [hctx] at h
        exact h
      · rw [heq]
        have h := enterCtxWith_lift htrans hpush hd st
        rw [hctx] at h
        have h2 := ihp htail st₁
        rw [hrest] at h2
        exact htrans h h2
      · rw [heq]
        have h := enterCtxWith_lift htrans hpush hd st
        rw [hctx] at h
        have h2 := ihp htail st₁
        rw [hrest] at h2
        exact htrans h h2

/-- Stratification gives factory-wise bounds on declared dependencies. -/
theorem stratified_params_aux :
    ∀ (env : List FactorySpec) (i f : Nat), stratifiedFrom i env = true →
      ∀ pd ∈ (env.getD f defaultFactory).params, pd.2.fac < i + f := by
  intro env
  induction env with
  | nil =>
      intro i f _ pd hpd
      simp [List.getD, defaultFactory] at hpd
  | cons sp rest ih =>
      intro i f hs pd hpd
      simp only [stratifiedFrom, Bool.and_eq_true] at hs
      cases f with
      | zero =>
          simp only [List.getD_cons_zero] at hpd
          have := (List.all_eq_true.mp hs.1) pd hpd
          simpa using this
      | succ f =>
          simp only [List.getD_cons_succ] at hpd
          have h9 := ih (i + 1) f hs.2 pd hpd
          have h10 : i + 1 + f = i + (f + 1) := by
            rw [Nat.add_assoc, Nat.add_comm 1 f]
          rw [h10] at h9
          exact h9

theorem stratified_params {env : List FactorySpec} (hs : stratifiedEnv env = true)
    (f : FactoryId) : ∀ pd ∈ (envGet env f).params, pd.2.fac < f := by
  intro pd hpd
  have := stratified_params_aux env 0 f hs pd hpd
  simpa using this

/-- In a stratified environment a descriptor entry touches only factories
at or below its own factory, as far as the call cache and scoped events
are concerned. -/
theorem enterDep_scopedAbove (env : List FactorySpec) (hs : stratifiedEnv env = true) :
    ∀ (n : Nat) (d : Dep) (st : St),
      ScopedAbove (d.fac + 1) st (enterDep env n d st).st (enterDep env n d st).tr := by
  intro n
  induction n with
  | zero =>
      intro d st
      rw [enterDep_zero_eq]
      intro g hg
      have hne : g ≠ d.fac := by omega
      exact ⟨rfl, by simp, by simp [hne], by simp⟩
  | succ n ih =>
      have hpush : ∀ (s : ScopeTag) (b : Nat) (e : Entry) (st : St),
          ScopedAbove b st (pushEntry s e st) [Event.acq s e] := by
        intro s b e st
        exact ScopedAbove.abSilent (by cases s <;> rfl) (by simp)
      have hnil : ∀ (b : Nat) (st : St), ScopedAbove b st st ([] : List Event) :=
        fun b st => ScopedAbove.abSilent rfl (by simp)
      have hloop : ∀ (s : ScopeTag) (f : FactoryId) (st : St),
          ScopedAbove f st
            ((paramsLoop (fun d' st' => enterDep env n d' st') s (envGet env f).params st).st)
            ((paramsLoop (fun d' st' => enterDep env n d' st') s (envGet env f).params st).tr) := by
        intro s f st
        refine paramsLoop_lift (fun hA hB => hA.abTrans hB) (hnil f) (hpush s f)
          (envGet env f).params ?_ st
        intro pd hpd st'
        have hb := stratified_params hs f pd hpd
        exact (ih pd.2 st').abMono hb
      have hrfvAbove : ∀ (s : ScopeTag) (b : Nat) (f : FactoryId) (raw : Raw) (st : St),
          ScopedAbove b st (resolveFactoryValue s f raw st).2.1
            (resolveFactoryValue s f raw st).2.2 := by
        intro s b f raw st
        have hr := rfv_spec s f raw st
        refine ScopedAbove.abSilent hr.2.1 ?_
        intro ev hev
        rcases hr.2.2.2 ev hev with h | h <;> simp [h]
      intro d st
      cases d with
      | depends f =>
          simp only [Dep.fac]
          rcases hlk : flookup st.callCache f with _ | v
          · rw [enterDep_dep_miss_eq env n f st hlk]
            rcases finishScoped_cases env f (paramsLoop (fun d' st' => enterDep env n d' st')
                .callS (envGet env f).params st) with
              ⟨e, st₁, tr₁, hpo, heq⟩ | ⟨args, st₁, tr₁, e, hpo, hrun, heq⟩ |
              ⟨args, st₁, tr₁, raw, v, st₃, tr₂, hpo, hrun, hrfv, heq⟩
            · rw [heq]
              have h1 := hloop .callS f st
              rw [hpo] at h1
              refine (h1.abMono (Nat.le_succ f)).abTrans ?_
              intro g hg
              have hne : g ≠ f := by omega
              exact ⟨rfl, by simp, by simp [hne], by simp⟩
            · rw [heq]
              have h1 := hloop .callS f st
              rw [hpo] at h1
              refine (h1.abMono (Nat.le_succ f)).abTrans ?_
              intro g hg
              have hne : g ≠ f := by omega
              exact ⟨rfl, by simp [hne], by simp [hne], by simp⟩
            · rw [heq]
              have h1 := hloop .callS f st
              rw [hpo] at h1
              have h2 : ScopedAbove (f + 1) st₁
                  { st₁ with alloc := st₁.alloc + 1 } [Event.invoke .scoped f] := by
                intro g hg
                have hne : g ≠ f := by omega
                exact ⟨rfl, by simp [hne], by simp, by simp⟩
              have h3 := hrfvAbove .callS (f + 1) f raw { st₁ with alloc := st₁.alloc + 1 }
              rw [hrfv] at h3
              have h4 : ScopedAbove (f + 1) st₃
                  { st₃ with callCache := (f, v) :: st₃.callCache }
                  [Event.acquired .scoped f v] := by
                intro g hg
                have hne : g ≠ f := by omega
                exact ⟨flookup_cons_ne st₃.callCache v hne, by simp, by simp,
                  fun w => by simp [hne]⟩
              have hall := ((h1.abMono (Nat.le_succ f)).abTrans h2).abTrans (h3.abTrans h4)
              intro g hg
              have hthis := hall g hg
              refine ⟨hthis.1, ?_, ?_, ?_⟩
              · have h6 := hthis.2.1
                simpa [List.append_assoc] using h6
              · have h6 := hthis.2.2.1
                simpa [List.append_assoc] using h6
              · intro w
                have h6 := hthis.2.2.2 w
                simpa [List.append_assoc] using h6
          · rw [enterDep_dep_hit_eq env n f st v hlk]
            intro g hg
            have hne : g ≠ f := by omega
            exact ⟨rfl, by simp, by simp, fun w => by simp [hne]⟩
      | shared f =>
          simp only [Dep.fac]
          by_cases hop : st.sharedOpen
          · rcases hlk : flookup st.sharedResolved f with _ | v
            · rw [enterDep_shared_miss_eq env n f st hop hlk]
              rcases finishShared_cases env f (paramsLoop (fun d' st' => enterDep env n d' st')
                  .sharedS (envGet env f).params st) with
                ⟨e, st₁, tr₁, hpo, heq⟩ | ⟨args, st₁, tr₁, v, hpo, hlk2, heq⟩ |
                ⟨args, st₁, tr₁, e, hpo, hlk2, hrun, heq⟩ |
                ⟨args, st₁, tr₁, raw, v, st₃, tr₂, hpo, hlk2, hrun, hrfv, heq⟩
              · rw [heq]
                have h1 := hloop .sharedS f st
                rw [hpo] at h1
                exact (h1.abMono (Nat.le_succ f)).abTrans (ScopedAbove.abSilent rfl (by simp))
              · rw [heq]
                have h1 := hloop .sharedS f st
                rw [hpo] at h1
                exact (h1.abMono (Nat.le_succ f)).abTrans (ScopedAbove.abSilent rfl (by simp))
              · rw [heq]
                have h1 := hloop .sharedS f st
                rw [hpo] at h1
                exact (h1.abMono (Nat.le_succ f)).abTrans (ScopedAbove.abSilent rfl (by simp))
              · rw [heq]
                have h1 := hloop .sharedS f st
                rw [hpo] at h1
                have h3 := hrfvAbove .sharedS (f + 1) f raw { st₁ with alloc := st₁.alloc + 1 }
                rw [hrfv] at h3
                have h2 : ScopedAbove (f + 1) st₁
                    { st₁ with alloc := st₁.alloc + 1 } [Event.invoke .sharedK f] :=
                  ScopedAbove.abSilent rfl (by simp)
                have h4 : ScopedAbove (f + 1) st₃
                    { st₃ with sharedResolved := (f, v) :: st₃.sharedResolved }
                    [Event.acquired .sharedK f v] :=
                  ScopedAbove.abSilent rfl (by simp)
                have hall := ((h1.abMono (Nat.le_succ f)).abTrans h2).abTrans (h3.abTrans h4)
                intro g hg
                have hthis := hall g hg
                refine ⟨hthis.1, ?_, ?_, ?_⟩
                · have h6 := hthis.2.1
                  simpa [List.append_assoc] using h6
                · have h6 := hthis.2.2.1
                  simpa [List.append_assoc] using h6
                · intro w
                  have h6 := hthis.2.2.2 w
                  simpa [List.append_assoc] using h6
            · rw [enterDep_shared_hit_eq env n f st v hop hlk]
              exact ScopedAbove.abSilent rfl (by simp)
          · rw [enterDep_shared_closed_eq env n f st (by simpa using hop)]
            exact ScopedAbove.abSilent rfl (by simp)

/-- The parameter resolution of a factory's own dependencies stays below
that factory in a stratified environment. -/
theorem paramsLoop_scopedAbove (env : List FactorySpec) (hs : stratifiedEnv env = true)
    (n : Nat) (s : ScopeTag) (f : FactoryId) (st : St) :
    ScopedAbove f st
      (paramsLoop (fun d' st' => enterDep env n d' st') s (envGet env f).params st).st
      (paramsLoop (fun d' st' => enterDep env n d' st') s (envGet env f).params st).tr := by
  refine paramsLoop_lift (fun hA hB => hA.abTrans hB)
    (fun st => ScopedAbove.abSilent rfl (by simp))
    (fun e st => ScopedAbove.abSilent (pushEntry_callCache s e st) (by simp))
    (envGet env f).params ?_ st
  intro pd hpd st'
  exact (enterDep_scopedAbove env hs n pd.2 st').abMono (stratified_params hs f pd hpd)

/-- Every recorded scoped acquisition agrees with the final call cache,
and call-cache bindings are stable (stratified environments). -/
theorem enterDep_scopedAcq (env : List FactorySpec) (hs : stratifiedEnv env = true)
    (f₀ : FactoryId) :
    ∀ (n : Nat) (d : Dep) (st : St),
      ScopedAcqP f₀ st (enterDep env n d st).st (enterDep env n d st).tr := by
  intro n
  induction n with
  | zero =>
      intro d st
      rw [enterDep_zero_eq]
      exact ScopedAcqP.aqSilent rfl (by simp)
  | succ n ih =>
      have hloop : ∀ (s : ScopeTag) (ps : List (ParamName × Dep)) (st : St),
          ScopedAcqP f₀ st
            (paramsLoop (fun d' st' => enterDep env n d' st') s ps st).st
            (paramsLoop (fun d' st' => enterDep env n d' st') s ps st).tr := by
        intro s ps st
        refine paramsLoop_lift (fun hA hB => hA.aqTrans hB)
          (fun st => ScopedAcqP.aqSilent rfl (by simp))
          (fun e st => ScopedAcqP.aqSilent (pushEntry_callCache s e st) (by simp))
          ps (fun pd _ st => ih pd.2 st) st
      intro d st
      cases d with
      | depends f =>
          rcases hlk : flookup st.callCache f with _ | v
          · rw [enterDep_dep_miss_eq env n f st hlk]
            rcases finishScoped_cases env f (paramsLoop (fun d' st' => enterDep env n d' st')
                .callS (envGet env f).params st) with
              ⟨e, st₁, tr₁, hpo, heq⟩ | ⟨args, st₁, tr₁, e, hpo, hrun, heq⟩ |
              ⟨args, st₁, tr₁, raw, v, st₃, tr₂, hpo, hrun, hrfv, heq⟩
            · rw [heq]
              have h1 := hloop .callS (envGet env f).params st
              rw [hpo] at h1
              exact h1.aqTrans (ScopedAcqP.aqSilent rfl (by simp))
            · rw [heq]
              have h1 := hloop .callS (envGet env f).params st
              rw [hpo] at h1
              exact h1.aqTrans (ScopedAcqP.aqSilent rfl (by simp))
            · rw [heq]
              have h1 := hloop .callS (envGet env f).params st
              rw [hpo] at h1
              have hrfvS := rfv_spec .callS f raw { st₁ with alloc := st₁.alloc + 1 }
              rw [hrfv] at hrfvS
              by_cases hf : f₀ = f
              · subst hf
                have habove := paramsLoop_scopedAbove env hs n .callS f₀ st
                rw [hpo] at habove
                have hnone := (habove f₀ (le_refl f₀)).2.2.2
                constructor
                · intro w hw
                  simp only [List.append_assoc, List.mem_append, List.mem_singleton] at hw
                  rcases hw with hw | hw | hw | hw
                  · exact absurd hw (hnone w)
                  · simp at hw
                  · rcases hrfvS.2.2.2 _ hw with h | h <;> simp at h
                  · injection hw with h1 h2 h3
                    rw [h3]
                    exact flookup_cons_self st₃.callCache f₀ v
                · intro v' hv'
                  rw [hlk] at hv'
                  exact absurd hv' (by simp)
              · have hext : ScopedAcqP f₀ st₁
                    { st₃ with callCache := (f, v) :: st₃.callCache }
                    ([Event.invoke .scoped f] ++ tr₂ ++ [Event.acquired .scoped f v]) := by
                  constructor
                  · intro w hw
                    simp only [List.append_assoc, List.mem_append, List.mem_singleton] at hw
                    rcases hw with hw | hw | hw
                    · simp at hw
                    · rcases hrfvS.2.2.2 _ hw with h | h <;> simp at h
                    · injection hw with h1 h2 h3
                      exact absurd h2 hf
                  · intro v' hv'
                    have : flookup st₃.callCache f₀ = some v' := by
                      rw [hrfvS.2.1]
                      exact hv'
                    rw [flookup_cons_ne st₃.callCache v hf]
                    exact this
                have := h1.aqTrans hext
                simpa [List.append_assoc] using this
          · rw [enterDep_dep_hit_eq env n f st v hlk]
            constructor
            · intro w hw
              simp only [List.mem_singleton] at hw
              injection hw with h1 h2 h3
              subst h2
              subst h3
              exact hlk
            · intro v' hv'
              exact hv'
      | shared f =>
          by_cases hop : st.sharedOpen
          · rcases hlk : flookup st.sharedResolved f with _ | v
            · rw [enterDep_shared_miss_eq env n f st hop hlk]
              rcases finishShared_cases env f (paramsLoop (fun d' st' => enterDep env n d' st')
                  .sharedS (envGet env f).params st) with
                ⟨e, st₁, tr₁, hpo, heq⟩ | ⟨args, st₁, tr₁, v, hpo, hlk2, heq⟩ |
                ⟨args, st₁, tr₁, e, hpo, hlk2, hrun, heq⟩ |
                ⟨args, st₁, tr₁, raw, v, st₃, tr₂, hpo, hlk2, hrun, hrfv, heq⟩
              · rw [heq]
                have h1 := hloop .sharedS (envGet env f).params st
                rw [hpo] at h1
                exact h1.aqTrans (ScopedAcqP.aqSilent rfl (by simp))
              · rw [heq]
                have h1 := hloop .sharedS (envGet env f).params st
                rw [hpo] at h1
                exact h1.aqTrans (ScopedAcqP.aqSilent rfl (by simp))
              · rw [heq]
                have h1 := hloop .sharedS (envGet env f).params st
                rw [hpo] at h1
                exact h1.aqTrans (ScopedAcqP.aqSilent rfl (by simp))
              · rw [heq]
                have h1 := hloop .sharedS (envGet env f).params st
                rw [hpo] at h1
                have hrfvS := rfv_spec .sharedS f raw { st₁ with alloc := st₁.alloc + 1 }
                rw [hrfv] at hrfvS
                have hext : ScopedAcqP f₀ st₁
                    { st₃ with sharedResolved := (f, v) :: st₃.sharedResolved }
                    ([Event.invoke .sharedK f] ++ tr₂ ++ [Event.acquired .sharedK f v]) := by
                  refine ScopedAcqP.aqSilent ?_ ?_
                  · show st₃.callCache = st₁.callCache
                    exact hrfvS.2.1
                  · intro w
                    simp only [List.append_assoc, List.mem_append, List.mem_singleton]
                    rintro (hw | hw | hw)
                    · simp at hw
                    · rcases hrfvS.2.2.2 _ hw with h | h <;> simp at h
                    · simp at hw
                have := h1.aqTrans hext
                simpa [List.append_assoc] using this
            · rw [enterDep_shared_hit_eq env n f st v hop hlk]
              exact ScopedAcqP.aqSilent rfl (by simp)
          · rw [enterDep_shared_closed_eq env n f st (by simpa using hop)]
            exact ScopedAcqP.aqSilent rfl (by simp)

/-- Every recorded shared acquisition agrees with the final shared cache,
and shared-cache bindings are stable (no stratification needed: the
double-checked insert re-reads the cache immediately before writing). -/
theorem enterDep_sharedAcq (env : List FactorySpec) (f₀ : FactoryId) :
    ∀ (n : Nat) (d : Dep) (st : St),
      SharedAcqP f₀ st (enterDep env n d st).st (enterDep env n d st).tr := by
  intro n
  induction n with
  | zero =>
      intro d st
      rw [enterDep_zero_eq]
      exact SharedAcqP.saSilent rfl (by simp)
  | succ n ih =>
      have hloop : ∀ (s : ScopeTag) (ps : List (ParamName × Dep)) (st : St),
          SharedAcqP f₀ st
            (paramsLoop (fun d' st' => enterDep env n d' st') s ps st).st
            (paramsLoop (fun d' st' => enterDep env n d' st') s ps st).tr := by
        intro s ps st
        refine paramsLoop_lift (fun hA hB => hA.saTrans hB)
          (fun st => SharedAcqP.saSilent rfl (by simp))
          (fun e st => SharedAcqP.saSilent (pushEntry_sharedResolved s e st) (by simp))
          ps (fun pd _ st => ih pd.2 st) st
      intro d st
      cases d with
      | depends f =>
          rcases hlk : flookup st.callCache f with _ | v
          · rw [enterDep_dep_miss_eq env n f st hlk]
            rcases finishScoped_cases env f (paramsLoop (fun d' st' => enterDep env n d' st')
                .callS (envGet env f).params st) with
              ⟨e, st₁, tr₁, hpo, heq⟩ | ⟨args, st₁, tr₁, e, hpo, hrun, heq⟩ |
              ⟨args, st₁, tr₁, raw, v, st₃, tr₂, hpo, hrun, hrfv, heq⟩
            · rw [heq]
              have h1 := hloop .callS (envGet env f).params st
              rw [hpo] at h1
              exact h1.saTrans (SharedAcqP.saSilent rfl (by simp))
            · rw [heq]
              have h1 := hloop .callS (envGet env f).params st
              rw [hpo] at h1
              exact h1.saTrans (SharedAcqP.saSilent rfl (by simp))
            · rw [heq]
              have h1 := hloop .callS (envGet env f).params st
              rw [hpo] at h1
              have hrfvS := rfv_spec .callS f raw { st₁ with alloc := st₁.alloc + 1 }
              rw [hrfv] at hrfvS
              have hext : SharedAcqP f₀ st₁
                  { st₃ with callCache := (f, v) :: st₃.callCache }
                  ([Event.invoke .scoped f] ++ tr₂ ++ [Event.acquired .scoped f v]) := by
                refine SharedAcqP.saSilent ?_ ?_
                · show st₃.sharedResolved = st₁.sharedResolved
                  exact hrfvS.2.2.1
                · intro w
                  simp only [List.append_assoc, List.mem_append, List.mem_singleton]
                  rintro (hw | hw | hw)
                  · simp at hw
                  · rcases hrfvS.2.2.2 _ hw with h | h <;> simp at h
                  · simp at hw
              have := h1.saTrans hext
              simpa [List.append_assoc] using this
          · rw [enterDep_dep_hit_eq env n f st v hlk]
            exact SharedAcqP.saSilent rfl (by simp)
      | shared f =>
          by_cases hop : st.sharedOpen
          · rcases hlk : flookup st.sharedResolved f with _ | v
            · rw [enterDep_shared_miss_eq env n f st hop hlk]
              rcases finishShared_cases env f (paramsLoop (fun d' st' => enterDep env n d' st')
                  .sharedS (envGet env f).params st) with
                ⟨e, st₁, tr₁, hpo, heq⟩ | ⟨args, st₁, tr₁, v, hpo, hlk2, heq⟩ |
                ⟨args, st₁, tr₁, e, hpo, hlk2, hrun, heq⟩ |
                ⟨args, st₁, tr₁, raw, v, st₃, tr₂, hpo, hlk2, hrun, hrfv, heq⟩
              · rw [heq]
                have h1 := hloop .sharedS (envGet env f).params st
                rw [hpo] at h1
                exact h1.saTrans (SharedAcqP.saSilent rfl (by simp))
              · rw [heq]
                have h1 := hloop .sharedS (envGet env f).params st
                rw [hpo] at h1
                constructor
                · intro w hw
                  simp only [List.mem_append, List.mem_singleton] at hw
                  rcases hw with hw | hw
                  · exact h1.1 w hw
                  · injection hw with h1' h2' h3'
                    subst h2'
                    subst h3'
                    exact hlk2
                · intro v' hv'
                  exact h1.2 v' hv'
              · rw [heq]
                have h1 := hloop .sharedS (envGet env f).params st
                rw [hpo] at h1
                exact h1.saTrans (SharedAcqP.saSilent rfl (by simp))
              · rw [heq]
                have h1 := hloop .sharedS (envGet env f).params st
                rw [hpo] at h1
                have hrfvS := rfv_spec .sharedS f raw { st₁ with alloc := st₁.alloc + 1 }
                rw [hrfv] at hrfvS
                by_cases hf : f₀ = f
                · subst hf
                  constructor
                  · intro w hw
                    simp only [List.append_assoc, List.mem_append, List.mem_singleton] at hw
                    rcases hw with hw | hw | hw | hw
                    · have := h1.1 w hw
                      rw [hlk2] at this
                      exact absurd this (by simp)
                    · simp at hw
                    · rcases hrfvS.2.2.2 _ hw with h | h <;> simp at h
                    · injection hw with h1' h2' h3'
                      rw [h3']
                      exact flookup_cons_self st₃.sharedResolved f₀ v
                  · intro v' hv'
                    rw [hlk] at hv'
                    exact absurd hv' (by simp)
                · have hext : SharedAcqP f₀ st₁
                      { st₃ with sharedResolved := (f, v) :: st₃.sharedResolved }
                      ([Event.invoke .sharedK f] ++ tr₂ ++ [Event.acquired .sharedK f v]) := by
                    constructor
                    · intro w hw
                      simp only [List.append_assoc, List.mem_append, List.mem_singleton] at hw
                      rcases hw with hw | hw | hw
                      · simp at hw
                      · rcases hrfvS.2.2.2 _ hw with h | h <;> simp at h
                      · injection hw with h1' h2' h3'
                        exact absurd h2' hf
                    · intro v' hv'
                      have : flookup st₃.sharedResolved f₀ = some v' := by
                        rw [hrfvS.2.2.1]
                        exact hv'
                      rw [flookup_cons_ne st₃.sharedResolved v hf]
                      exact this
                  have := h1.saTrans hext
                  simpa [List.append_assoc] using this
            · rw [enterDep_shared_hit_eq env n f st v hop hlk]
              constructor
              · intro w hw
                simp only [List.mem_singleton] at hw
                injection hw with h1 h2 h3
                subst h2
                subst h3
                exact hlk
              · intro v' hv'
                exact hv'
          · rw [enterDep_shared_closed_eq env n f st (by simpa using hop)]
            exact SharedAcqP.saSilent rfl (by simp)

/-- With an acyclic (stratified) dependency graph, a scoped factory whose
resolutions never fail is invoked at most once per call scope: the cache
state determines the invocation count exactly. -/
theorem enterDep_scopedCount (env : List FactorySpec) (hs : stratifiedEnv env = true)
    (f₀ : FactoryId) :
    ∀ (n : Nat) (d : Dep) (st : St),
      ScopedCount f₀ st (enterDep env n d st).st (enterDep env n d st).tr := by
  intro n
  induction n with
  | zero =>
      intro d st
      rw [enterDep_zero_eq]
      exact ScopedCount.scSilent rfl (by simp)
  | succ n ih =>
      have hloop : ∀ (s : ScopeTag) (ps : List (ParamName × Dep)) (st : St),
          ScopedCount f₀ st
            (paramsLoop (fun d' st' => enterDep env n d' st') s ps st).st
            (paramsLoop (fun d' st' => enterDep env n d' st') s ps st).tr := by
        intro s ps st
        refine paramsLoop_lift (fun hA hB => hA.scTrans hB)
          (fun st => ScopedCount.scSilent rfl (by simp))
          (fun e st => ScopedCount.scSilent (pushEntry_callCache s e st) (by simp))
          ps (fun pd _ st => ih pd.2 st) st
      intro d st
      cases d with
      | depends f =>
          rcases hlk : flookup st.callCache f with _ | v
          · rw [enterDep_dep_miss_eq env n f st hlk]
            rcases finishScoped_cases env f (paramsLoop (fun d' st' => enterDep env n d' st')
                .callS (envGet env f).params st) with
              ⟨e, st₁, tr₁, hpo, heq⟩ | ⟨args, st₁, tr₁, e, hpo, hrun, heq⟩ |
              ⟨args, st₁, tr₁, raw, v, st₃, tr₂, hpo, hrun, hrfv, heq⟩
            · rw [heq]
              have h1 := hloop .callS (envGet env f).params st
              rw [hpo] at h1
              exact h1.scTrans (ScopedCount.scSilent rfl (by simp))
            · rw [heq]
              have h1 := hloop .callS (envGet env f).params st
              rw [hpo] at h1
              by_cases hf : f₀ = f
              · subst hf
                constructor
                · intro h0 hnf
                  exfalso
                  exact hnf (List.mem_append.mpr (.inr (by simp)))
                · intro v' hv'
                  rw [hlk] at hv'
                  exact absurd hv' (by simp)
              · have hf' : Event.invoke .scoped f₀
                    ∉ [Event.invoke .scoped f, Event.resolveFailed .scoped f] := by
                  simp [hf]
                exact h1.scTrans (ScopedCount.scSilent rfl hf')
            · rw [heq]
              have hrfvS := rfv_spec .callS f raw { st₁ with alloc := st₁.alloc + 1 }
              rw [hrfv] at hrfvS
              have hnotr₂ : Event.invoke .scoped f₀ ∉ tr₂ := by
                intro hx
                rcases hrfvS.2.2.2 _ hx with h | h <;> simp at h
              by_cases hf : f₀ = f
              · subst hf
                have habove := paramsLoop_scopedAbove env hs n .callS f₀ st
                rw [hpo] at habove
                have hfacts := habove f₀ (le_refl f₀)
                constructor
                · intro h0 hnf
                  rw [flookup_cons_self st₃.callCache f₀ v, if_neg (by simp)]
                  rw [countE_append, countE_append, countE_append]
                  rw [countE_eq_zero hfacts.2.1, countE_eq_zero hnotr₂,
                    countE_singleton_self, countE_singleton_ne (by simp)]
                · intro v' hv'
                  rw [hlk] at hv'
                  exact absurd hv' (by simp)
              · have h1 := hloop .callS (envGet env f).params st
                rw [hpo] at h1
                have hext : ScopedCount f₀ st₁
                    { st₃ with callCache := (f, v) :: st₃.callCache }
                    ([Event.invoke .scoped f] ++ tr₂ ++ [Event.acquired .scoped f v]) := by
                  have hfin : flookup ((f, v) :: st₃.callCache) f₀ = flookup st₁.callCache f₀ := by
                    rw [flookup_cons_ne st₃.callCache v hf, hrfvS.2.1]
                  have hcount : countE ([Event.invoke .scoped f] ++ tr₂
                      ++ [Event.acquired .scoped f v]) (.invoke .scoped f₀) = 0 := by
                    rw [countE_append, countE_append]
                    rw [countE_singleton_ne (by simp [Ne.symm hf]), countE_eq_zero hnotr₂,
                      countE_singleton_ne (by simp)]
                  constructor
                  · intro h0 _
                    rw [hcount]
                    show (0 : Nat) = if flookup ((f, v) :: st₃.callCache) f₀ = none then 0 else 1
                    rw [hfin, h0, if_pos rfl]
                  · intro v' hv'
                    refine ⟨hcount, ?_⟩
                    rw [hfin]
                    exact hv'
                have := h1.scTrans hext
                simpa [List.append_assoc] using this
          · rw [enterDep_dep_hit_eq env n f st v hlk]
            exact ScopedCount.scSilent rfl (by simp)
      | shared f =>
          by_cases hop : st.sharedOpen
          · rcases hlk : flookup st.sharedResolved f with _ | v
            · rw [enterDep_shared_miss_eq env n f st hop hlk]
              rcases finishShared_cases env f (paramsLoop (fun d' st' => enterDep env n d' st')
                  .sharedS (envGet env f).params st) with
                ⟨e, st₁, tr₁, hpo, heq⟩ | ⟨args, st₁, tr₁, v, hpo, hlk2, heq⟩ |
                ⟨args, st₁, tr₁, e, hpo, hlk2, hrun, heq⟩ |
                ⟨args, st₁, tr₁, raw, v, st₃, tr₂, hpo, hlk2, hrun, hrfv, heq⟩
              · rw [heq]
                have h1 := hloop .sharedS (envGet env f).params st
                rw [hpo] at h1
                exact h1.scTrans (ScopedCount.scSilent rfl (by simp))
              · rw [heq]
                have h1 := hloop .sharedS (envGet env f).params st
                rw [hpo] at h1
                exact h1.scTrans (ScopedCount.scSilent rfl (by simp))
              · rw [heq]
                have h1 := hloop .sharedS (envGet env f).params st
                rw [hpo] at h1
                exact h1.scTrans (ScopedCount.scSilent rfl (by simp))
              · rw [heq]
                have h1 := hloop .sharedS (envGet env f).params st
                rw [hpo] at h1
                have hrfvS := rfv_spec .sharedS f raw { st₁ with alloc := st₁.alloc + 1 }
                rw [hrfv] at hrfvS
                have hcc : ({ st₃ with sharedResolved := (f, v) :: st₃.sharedResolved } : St).callCache
                    = st₁.callCache := hrfvS.2.1
                have hnotr₂ : Event.invoke .scoped f₀ ∉ tr₂ := by
                  intro hx
                  rcases hrfvS.2.2.2 _ hx with h | h <;> simp at h
                have hext : ScopedCount f₀ st₁
                    { st₃ with sharedResolved := (f, v) :: st₃.sharedResolved }
                    ([Event.invoke .sharedK f] ++ tr₂ ++ [Event.acquired .sharedK f v]) := by
                  refine ScopedCount.scSilent hcc ?_
                  intro hx
                  simp only [List.append_assoc, List.mem_append, List.mem_singleton] at hx
                  rcases hx with hx | hx | hx
                  · simp at hx
                  · exact hnotr₂ hx
                  · simp at hx
                have := h1.scTrans hext
                simpa [List.append_assoc] using this
            · rw [enterDep_shared_hit_eq env n f st v hop hlk]
              exact ScopedCount.scSilent rfl (by simp)
          · rw [enterDep_shared_closed_eq env n f st (by simpa using hop)]
            exact ScopedCount.scSilent rfl (by simp)

/-- A shared factory whose resolutions never fail is invoked at most once
per shared scope: the cache state determines the invocation count.  No
acyclicity assumption is needed because the double-checked pattern
re-reads the cache immediately before invoking and inserting. -/
theorem enterDep_sharedCount (env : List FactorySpec) (f₀ : FactoryId) :
    ∀ (n : Nat) (d : Dep) (st : St),
      SharedCount f₀ st (enterDep env n d st).st (enterDep env n d st).tr := by
  intro n
  induction n with
  | zero =>
      intro d st
      rw [enterDep_zero_eq]
      exact SharedCount.shcSilent rfl (by simp)
  | succ n ih =>
      have hloop : ∀ (s : ScopeTag) (ps : List (ParamName × Dep)) (st : St),
          SharedCount f₀ st
            (paramsLoop (fun d' st' => enterDep env n d' st') s ps st).st
            (paramsLoop (fun d' st' => enterDep env n d' st') s ps st).tr := by
        intro s ps st
        refine paramsLoop_lift (fun hA hB => hA.shcTrans hB)
          (fun st => SharedCount.shcSilent rfl (by simp))
          (fun e st => SharedCount.shcSilent (pushEntry_sharedResolved s e st) (by simp))
          ps (fun pd _ st => ih pd.2 st) st
      intro d st
      cases d with
      | depends f =>
          rcases hlk : flookup st.callCache f with _ | v
          · rw [enterDep_dep_miss_eq env n f st hlk]
            rcases finishScoped_cases env f (paramsLoop (fun d' st' => enterDep env n d' st')
                .callS (envGet env f).params st) with
              ⟨e, st₁, tr₁, hpo, heq⟩ | ⟨args, st₁, tr₁, e, hpo, hrun, heq⟩ |
              ⟨args, st₁, tr₁, raw, v, st₃, tr₂, hpo, hrun, hrfv, heq⟩
            · rw [heq]
              have h1 := hloop .callS (envGet env f).params st
              rw [hpo] at h1
              exact h1.shcTrans (SharedCount.shcSilent rfl (by simp))
            · rw [heq]
              have h1 := hloop .callS (envGet env f).params st
              rw [hpo] at h1
              exact h1.shcTrans (SharedCount.shcSilent rfl (by simp))
            · rw [heq]
              have h1 := hloop .callS (envGet env f).params st
              rw [hpo] at h1
              have hrfvS := rfv_spec .callS f raw { st₁ with alloc := st₁.alloc + 1 }
              rw [hrfv] at hrfvS
              have hsr : ({ st₃ with callCache := (f, v) :: st₃.callCache } : St).sharedResolved
                  = st₁.sharedResolved := hrfvS.2.2.1
              have hext : SharedCount f₀ st₁
                  { st₃ with callCache := (f, v) :: st₃.callCache }
                  ([Event.invoke .scoped f] ++ tr₂ ++ [Event.acquired .scoped f v]) := by
                refine SharedCount.shcSilent hsr ?_
                intro hx
                simp only [List.append_assoc, List.mem_append, List.mem_singleton] at hx
                rcases hx with hx | hx | hx
                · simp at hx
                · rcases hrfvS.2.2.2 _ hx with h | h <;> simp at h
                · simp at hx
              have := h1.shcTrans hext
              simpa [List.append_assoc] using this
          · rw [enterDep_dep_hit_eq env n f st v hlk]
            exact SharedCount.shcSilent rfl (by simp)
      | shared f =>
          by_cases hop : st.sharedOpen
          · rcases hlk : flookup st.sharedResolved f with _ | v
            · rw [enterDep_shared_miss_eq env n f st hop hlk]
              rcases finishShared_cases env f (paramsLoop (fun d' st' => enterDep env n d' st')
                  .sharedS (envGet env f).params st) with
                ⟨e, st₁, tr₁, hpo, heq⟩ | ⟨args, st₁, tr₁, v, hpo, hlk2, heq⟩ |
                ⟨args, st₁, tr₁, e, hpo, hlk2, hrun, heq⟩ |
                ⟨args, st₁, tr₁, raw, v, st₃, tr₂, hpo, hlk2, hrun, hrfv, heq⟩
              · rw [heq]
                have h1 := hloop .sharedS (envGet env f).params st
                rw [hpo] at h1
                exact h1.shcTrans (SharedCount.shcSilent rfl (by simp))
              · rw [heq]
                have h1 := hloop .sharedS (envGet env f).params st
                rw [hpo] at h1
                exact h1.shcTrans (SharedCount.shcSilent rfl (by simp))
              · rw [heq]
                have h1 := hloop .sharedS (envGet env f).params st
                rw [hpo] at h1
                by_cases hf : f₀ = f
                · subst hf
                  constructor
                  · intro h0 hnf
                    exfalso
                    exact hnf (List.mem_append.mpr (.inr (by simp)))
                  · intro v' hv'
                    have hc := h1.2 v' hv'
                    rw [hlk2] at hc
                    exact absurd hc.2 (by simp)
                · have hf' : Event.invoke .sharedK f₀
                      ∉ [Event.invoke .sharedK f, Event.resolveFailed .sharedK f] := by
                    simp [hf]
                  exact h1.shcTrans (SharedCount.shcSilent rfl hf')
              · rw [heq]
                have h1 := hloop .sharedS (envGet env f).params st
                rw [hpo] at h1
                have hrfvS := rfv_spec .sharedS f raw { st₁ with alloc := st₁.alloc + 1 }
                rw [hrfv] at hrfvS
                have hnotr₂ : Event.invoke .sharedK f₀ ∉ tr₂ := by
                  intro hx
                  rcases hrfvS.2.2.2 _ hx with h | h <;> simp at h
                by_cases hf : f₀ = f
                · subst hf
                  constructor
                  · intro h0 hnf
                    have hnf₁ : Event.resolveFailed .sharedK f₀ ∉ tr₁ := by
                      intro hx
                      exact hnf (by simp [List.mem_append, hx])
                    have hc := h1.1 h0 hnf₁
                    rw [hlk2, if_pos rfl] at hc
                    rw [flookup_cons_self st₃.sharedResolved f₀ v, if_neg (by simp)]
                    rw [countE_append, countE_append, countE_append]
                    rw [hc, countE_eq_zero hnotr₂, countE_singleton_self,
                      countE_singleton_ne (by simp)]
                  · intro v' hv'
                    have hc := h1.2 v' hv'
                    rw [hlk2] at hc
                    exact absurd hc.2 (by simp)
                · have hfin : flookup ((f, v) :: st₃.sharedResolved) f₀
                      = flookup st₁.sharedResolved f₀ := by
                    rw [flookup_cons_ne st₃.sharedResolved v hf, hrfvS.2.2.1]
                  have hcount : countE ([Event.invoke .sharedK f] ++ tr₂
                      ++ [Event.acquired .sharedK f v]) (.invoke .sharedK f₀) = 0 := by
                    rw [countE_append, countE_append]
                    rw [countE_singleton_ne (by simp [Ne.symm hf]), countE_eq_zero hnotr₂,
                      countE_singleton_ne (by simp)]
                  have hext : SharedCount f₀ st₁
                      { st₃ with sharedResolved := (f, v) :: st₃.sharedResolved }
                      ([Event.invoke .sharedK f] ++ tr₂ ++ [Event.acquired .sharedK f v]) := by
                    constructor
                    · intro h0 _
                      rw [hcount]
                      show (0 : Nat) = if flookup ((f, v) :: st₃.sharedResolved) f₀ = none
                        then 0 else 1
                      rw [hfin, h0, if_pos rfl]
                    · intro v' hv'
                      refine ⟨hcount, ?_⟩
                      rw [hfin]
                      exact hv'
                  have := h1.shcTrans hext
                  simpa [List.append_assoc] using this
            · rw [enterDep_shared_hit_eq env n f st v hop hlk]
              exact SharedCount.shcSilent rfl (by simp)
          · rw [enterDep_shared_closed_eq env n f st (by simpa using hop)]
            exact SharedCount.shcSilent rfl (by simp)

/-- Does any factory of the environment declare a dependency on `g`? -/
def envMentionsFac (env : List FactorySpec) (g : FactoryId) : Bool :=
  env.any fun sp => sp.params.any fun pd => pd.2.fac = g

theorem envGet_mem_params_mentions :
    ∀ (env : List FactorySpec) (h : Nat) (pd : ParamName × Dep),
      pd ∈ (env.getD h defaultFactory).params → envMentionsFac env pd.2.fac = true := by
  intro env
  induction env with
  | nil =>
      intro h pd hpd
      simp [List.getD, defaultFactory] at hpd
  | cons sp rest ih =>
      intro h pd hpd
      cases h with
      | zero =>
          simp only [List.getD_cons_zero] at hpd
          simp only [envMentionsFac, List.any_cons, Bool.or_eq_true]
          exact .inl (List.any_eq_true.mpr ⟨pd, hpd, by simp⟩)
      | succ h =>
          simp only [List.getD_cons_succ] at hpd
          simp only [envMentionsFac, List.any_cons, Bool.or_eq_true]
          exact .inr (ih h pd hpd)

/-- A factory invocation is attributable: either it is the entered
descriptor's own factory, or some factory of the environment declares a
dependency wrapping the invoked factory. -/
theorem enterDep_invoke_src (env : List FactorySpec) :
    ∀ (n : Nat) (d : Dep) (st : St) (k : DepKind) (g : FactoryId),
      Event.invoke k g ∈ (enterDep env n d st).tr →
      g = d.fac ∨ envMentionsFac env g = true := by
  intro n
  induction n with
  | zero =>
      intro d st k g hmem
      rw [enterDep_zero_eq] at hmem
      simp at hmem
  | succ n ih =>
      have hloop : ∀ (s : ScopeTag) (ps : List (ParamName × Dep)) (st : St) (k : DepKind)
          (g : FactoryId),
          Event.invoke k g ∈ (paramsLoop (fun d' st' => enterDep env n d' st') s ps st).tr →
          (∃ pd ∈ ps, g = pd.2.fac) ∨ envMentionsFac env g = true := by
        intro s ps
        induction ps with
        | nil => intro st k g hmem; simp [paramsLoop] at hmem
        | cons pd ps ihp =>
            intro st k g hmem
            obtain ⟨p, d⟩ := pd
            rcases paramsLoop_cons_cases (fun d' st' => enterDep env n d' st') s p d ps st with
              ⟨e, st₁, tr₁, hctx, heq⟩ | ⟨v, st₁, tr₁, e, st₂, tr₂, hctx, hrest, heq⟩ |
              ⟨v, st₁, tr₁, rest, st₂, tr₂, hctx, hrest, heq⟩
            · rw [heq] at hmem
              rcases enterCtxWith_cases (fun d' st' => enterDep env n d' st') s d st with
                ⟨e', st', tr', he, heq2⟩ | ⟨v', st', tr', he, heq2⟩
              · rw [heq2] at hctx
                injection hctx with hr hst htr
                subst hst
                subst htr
                have h2 := ih d st k g (by rw [he]; exact hmem)
                rcases h2 with h2 | h2
                · exact .inl ⟨(p, d), by simp, h2⟩
                · exact .inr h2
              · rw [heq2] at hctx
                injection hctx with hr
                simp at hr
            · rw [heq] at hmem
              rcases List.mem_append.mp hmem with hmem | hmem
              · rcases enterCtxWith_cases (fun d' st' => enterDep env n d' st') s d st with
                  ⟨e', st', tr', he, heq2⟩ | ⟨v', st', tr', he, heq2⟩
                · rw [heq2] at hctx
                  injection hctx with hr
                  simp at hr
                · rw [heq2] at hctx
                  injection hctx with hr hst htr
                  subst htr
                  simp only [List.mem_append, List.mem_singleton] at hmem
                  rcases hmem with hmem | hmem
                  · have h2 := ih d st k g (by rw [he]; exact hmem)
                    rcases h2 with h2 | h2
                    · exact .inl ⟨(p, d), by simp, h2⟩
                    · exact .inr h2
                  · simp at hmem
              · have h2 := ihp st₁ k g (by rw [hrest]; exact hmem)
                rcases h2 with ⟨pd', hpd', h2⟩ | h2
                · exact .inl ⟨pd', by simp [hpd'], h2⟩
                · exact .inr h2
            · rw [heq] at hmem
              rcases List.mem_append.mp hmem with hmem | hmem
              · rcases enterCtxWith_cases (fun d' st' => enterDep env n d' st') s d st with
                  ⟨e', st', tr', he, heq2⟩ | ⟨v', st', tr', he, heq2⟩
                · rw [heq2] at hctx
                  injection hctx with hr
                  simp at hr
                · rw [heq2] at hctx
                  injection hctx with hr hst htr
                  subst htr
                  simp only [List.mem_append, List.mem_singleton] at hmem
                  rcases hmem with hmem | hmem
                  · have h2 := ih d st k g (by rw [he]; exact hmem)
                    rcases h2 with h2 | h2
                    · exact .inl ⟨(p, d), by simp, h2⟩
                    · exact .inr h2
                  · simp at hmem
              · have h2 := ihp st₁ k g (by rw [hrest]; exact hmem)
                rcases h2 with ⟨pd', hpd', h2⟩ | h2
                · exact .inl ⟨pd', by simp [hpd'], h2⟩
                · exact .inr h2
      have hparams : ∀ (s : ScopeTag) (f : FactoryId) (st : St) (k : DepKind) (g : FactoryId),
          Event.invoke k g
            ∈ (paramsLoop (fun d' st' => enterDep env n d' st') s (envGet env f).params st).tr →
          envMentionsFac env g = true := by
        intro s f st k g hmem
        rcases hloop s (envGet env f).params st k g hmem with ⟨pd, hpd, h2⟩ | h2
        · rw [h2]
          exact envGet_mem_params_mentions env f pd hpd
        · exact h2
      intro d st k g hmem
      cases d with
      | depends f =>
          rcases hlk : flookup st.callCache f with _ | v
          · rw [enterDep_dep_miss_eq env n f st hlk] at hmem
            rcases finishScoped_cases env f (paramsLoop (fun d' st' => enterDep env n d' st')
                .callS (envGet env f).params st) with
              ⟨e, st₁, tr₁, hpo, heq⟩ | ⟨args, st₁, tr₁, e, hpo, hrun, heq⟩ |
              ⟨args, st₁, tr₁, raw, v, st₃, tr₂, hpo, hrun, hrfv, heq⟩
            · rw [heq] at hmem
              simp only [List.mem_append, List.mem_singleton] at hmem
              rcases hmem with hmem | hmem
              · exact .inr (hparams .callS f st k g (by rw [hpo]; exact hmem))
              · simp at hmem
            · rw [heq] at hmem
              simp only [List.mem_append, List.mem_cons, List.mem_singleton] at hmem
              rcases hmem with hmem | hmem | hmem
              · exact .inr (hparams .callS f st k g (by rw [hpo]; exact hmem))
              · injection hmem with h1 h2
                exact .inl (by rw [h2]; rfl)
              · simp at hmem
            · rw [heq] at hmem
              have hrfvS := rfv_spec .callS f raw { st₁ with alloc := st₁.alloc + 1 }
              rw [hrfv] at hrfvS
              simp only [List.append_assoc, List.mem_append, List.mem_singleton] at hmem
              rcases hmem with hmem | hmem | hmem | hmem
              · exact .inr (hparams .callS f st k g (by rw [hpo]; exact hmem))
              · injection hmem with h1 h2
                exact .inl (by rw [h2]; rfl)
              · rcases hrfvS.2.2.2 _ hmem with h | h <;> simp at h
              · simp at hmem
          · rw [enterDep_dep_hit_eq env n f st v hlk] at hmem
            simp at hmem
      | shared f =>
          by_cases hop : st.sharedOpen
          · rcases hlk : flookup st.sharedResolved f with _ | v
            · rw [enterDep_shared_miss_eq env n f st hop hlk] at hmem
              rcases finishShared_cases env f (paramsLoop (fun d' st' => enterDep env n d' st')
                  .sharedS (envGet env f).params st) with
                ⟨e, st₁, tr₁, hpo, heq⟩ | ⟨args, st₁, tr₁, v, hpo, hlk2, heq⟩ |
                ⟨args, st₁, tr₁, e, hpo, hlk2, hrun, heq⟩ |
                ⟨args, st₁, tr₁, raw, v, st₃, tr₂, hpo, hlk2, hrun, hrfv, heq⟩
              · rw [heq] at hmem
                simp only [List.mem_append, List.mem_singleton] at hmem
                rcases hmem with hmem | hmem
                · exact .inr (hparams .sharedS f st k g (by rw [hpo]; exact hmem))
                · simp at hmem
              · rw [heq] at hmem
                simp only [List.mem_append, List.mem_singleton] at hmem
                rcases hmem with hmem | hmem
                · exact .inr (hparams .sharedS f st k g (by rw [hpo]; exact hmem))
                · simp at hmem
              · rw [heq] at hmem
                simp only [List.mem_append, List.mem_cons, List.mem_singleton] at hmem
                rcases hmem with hmem | hmem | hmem
                · exact .inr (hparams .sharedS f st k g (by rw [hpo]; exact hmem))
                · injection hmem with h1 h2
                  exact .inl (by rw [h2]; rfl)
                · simp at hmem
              · rw [heq] at hmem
                have hrfvS := rfv_spec .sharedS f raw { st₁ with alloc := st₁.alloc + 1 }
                rw [hrfv] at hrfvS
                simp only [List.append_assoc, List.mem_append, List.mem_singleton] at hmem
                rcases hmem with hmem | hmem | hmem | hmem
                · exact .inr (hparams .sharedS f st k g (by rw [hpo]; exact hmem))
                · injection hmem with h1 h2
                  exact .inl (by rw [h2]; rfl)
                · rcases hrfvS.2.2.2 _ hmem with h | h <;> simp at h
                · simp at hmem
            · rw [enterDep_shared_hit_eq env n f st v hop hlk] at hmem
              simp at hmem
          · rw [enterDep_shared_closed_eq env n f st (by simpa using hop)] at hmem
            simp at hmem

/-- The call cache stays free of a factory across a run. -/
def CCNone (f₀ : FactoryId) (a b : St) (_ : List Event) : Prop :=
  flookup a.callCache f₀ = none → flookup b.callCache f₀ = none

/-- A factory that always raises is never cached in the call scope. -/
theorem enterDep_noInsertFail (env : List FactorySpec) (f₀ : FactoryId) (e₀ : Err)
    (hfail : ∀ args a, (envGet env f₀).run args a = .error e₀) :
    ∀ (n : Nat) (d : Dep) (st : St),
      flookup st.callCache f₀ = none →
      flookup (enterDep env n d st).st.callCache f₀ = none := by
  intro n
  induction n with
  | zero =>
      intro d st h0
      rw [enterDep_zero_eq]
      exact h0
  | succ n ih =>
      have hloop : ∀ (s : ScopeTag) (ps : List (ParamName × Dep)) (st : St),
          flookup st.callCache f₀ = none →
          flookup (paramsLoop (fun d' st' => enterDep env n d' st') s ps st).st.callCache f₀
            = none := by
        intro s ps st h0
        revert h0
        show CCNone f₀ st (paramsLoop (fun d' st' => enterDep env n d' st') s ps st).st
          (paramsLoop (fun d' st' => enterDep env n d' st') s ps st).tr
        refine paramsLoop_lift (fun hA hB h => hB (hA h)) (fun _ h => h)
          (fun e st h => ?_) ps (fun pd _ st h => ih pd.2 st h) st
        rw [pushEntry_callCache]
        exact h
      intro d st h0
      cases d with
      | depends f =>
          rcases hlk : flookup st.callCache f with _ | v
          · rw [enterDep_dep_miss_eq env n f st hlk]
            rcases finishScoped_cases env f (paramsLoop (fun d' st' => enterDep env n d' st')
                .callS (envGet env f).params st) with
              ⟨e, st₁, tr₁, hpo, heq⟩ | ⟨args, st₁, tr₁, e, hpo, hrun, heq⟩ |
              ⟨args, st₁, tr₁, raw, v, st₃, tr₂, hpo, hrun, hrfv, heq⟩
            · rw [heq]
              have h1 := hloop .callS (envGet env f).params st h0
              rw [hpo] at h1
              exact h1
            · rw [heq]
              have h1 := hloop .callS (envGet env f).params st h0
              rw [hpo] at h1
              exact h1
            · rw [heq]
              have h1 := hloop .callS (envGet env f).params st h0
              rw [hpo] at h1
              have hrfvS := rfv_spec .callS f raw { st₁ with alloc := st₁.alloc + 1 }
              rw [hrfv] at hrfvS
              by_cases hf : f₀ = f
              · subst hf
                rw [hfail args st₁.alloc] at hrun
                exact absurd hrun (by simp)
              · show flookup ((f, v) :: st₃.callCache) f₀ = none
                rw [flookup_cons_ne st₃.callCache v hf, hrfvS.2.1]
                exact h1
          · rw [enterDep_dep_hit_eq env n f st v hlk]
            exact h0
      | shared f =>
          by_cases hop : st.sharedOpen
          · rcases hlk : flookup st.sharedResolved f with _ | v
            · rw [enterDep_shared_miss_eq env n f st hop hlk]
              rcases finishShared_cases env f (paramsLoop (fun d' st' => enterDep env n d' st')
                  .sharedS (envGet env f).params st) with
                ⟨e, st₁, tr₁, hpo, heq⟩ | ⟨args, st₁, tr₁, v, hpo, hlk2, heq⟩ |
                ⟨args, st₁, tr₁, e, hpo, hlk2, hrun, heq⟩ |
                ⟨args, st₁, tr₁, raw, v, st₃, tr₂, hpo, hlk2, hrun, hrfv, heq⟩
              · rw [heq]
                have h1 := hloop .sharedS (envGet env f).params st h0
                rw [hpo] at h1
                exact h1
              · rw [heq]
                have h1 := hloop .sharedS (envGet env f).params st h0
                rw [hpo] at h1
                exact h1
              · rw [heq]
                have h1 := hloop .sharedS (envGet env f).params st h0
                rw [hpo] at h1
                exact h1
              · rw [heq]
                have h1 := hloop .sharedS (envGet env f).params st h0
                rw [hpo] at h1
                have hrfvS := rfv_spec .sharedS f raw { st₁ with alloc := st₁.alloc + 1 }
                rw [hrfv] at hrfvS
                show flookup ({ st₃ with
                  sharedResolved := (f, v) :: st₃.sharedResolved } : St).callCache f₀ = none
                rw [show ({ st₃ with sharedResolved := (f, v) :: st₃.sharedResolved } : St).callCache
                  = st₃.callCache from rfl, hrfvS.2.1]
                exact h1
            · rw [enterDep_shared_hit_eq env n f st v hop hlk]
              exact h0
          · rw [enterDep_shared_closed_eq env n f st (by simpa using hop)]
            exact h0

/-!
Lemmas about the annotation phase.
-/

theorem filterMap_eq_nil_of_none {f : Event → Option Entry} {tr : List Event}
    (h : ∀ ev ∈ tr, f ev = none) : tr.filterMap f = [] :=
  List.filterMap_eq_nil_iff.mpr h

theorem relOf_unwind (s : ScopeTag) (stack : List Entry) :
    (unwindTrace s stack).filterMap (relOf s) = stack := by
  induction stack with
  | nil => rfl
  | cons e es ih => simp [unwindTrace, relOf, List.filterMap_cons] at ih ⊢; exact ih

theorem acqOf_unwind (s s' : ScopeTag) (stack : List Entry) :
    (unwindTrace s stack).filterMap (acqOf s') = [] := by
  apply filterMap_eq_nil_of_none
  intro ev hev
  simp only [unwindTrace, List.mem_map] at hev
  obtain ⟨e, _, he⟩ := hev
  rw [← he]
  rfl

theorem relOf_unwind_other (s s' : ScopeTag) (hne : s ≠ s') (stack : List Entry) :
    (unwindTrace s stack).filterMap (relOf s') = [] := by
  apply filterMap_eq_nil_of_none
  intro ev hev
  simp only [unwindTrace, List.mem_map] at hev
  obtain ⟨e, _, he⟩ := hev
  rw [← he]
  simp [relOf, hne]

/-- The annotation loop of one parameter: state summary.  Only the call
stack changes (descriptors that enter successfully are pushed), and only
`bindAnn` and call-stack `acq` events are emitted; every `bindAnn` event
carries this parameter and the supplied final value. -/
theorem annBindList_spec (anns : List AnnSpec) (p : ParamName) (v : Option PyVal) :
    ∀ (ds : List Nat) (st : St),
      StackEv st (annBindList anns p v ds st).st (annBindList anns p v ds st).tr
      ∧ (annBindList anns p v ds st).st.callCache = st.callCache
      ∧ (annBindList anns p v ds st).st.sharedResolved = st.sharedResolved
      ∧ (annBindList anns p v ds st).st.alloc = st.alloc
      ∧ (∀ ev ∈ (annBindList anns p v ds st).tr,
          (∃ a, ev = .bindAnn a p v) ∨ ∃ a, ev = .acq .callS (.annE a)) := by
  intro ds
  induction ds with
  | nil =>
      intro st
      exact ⟨StackEv.seRefl st, rfl, rfl, rfl, by intro ev hev; simp [annBindList] at hev⟩
  | cons a as ih =>
      intro st
      rcases hen : (annGet anns a).aenter v with e | u
      · have heq : annBindList anns p v (a :: as) st = ⟨.error e, st, [.bindAnn a p v]⟩ := by
          simp only [annBindList, hen]
        rw [heq]
        refine ⟨StackEv.seSilent (by simp), rfl, rfl, rfl, ?_⟩
        intro ev hev
        simp at hev
        exact .inl ⟨a, hev⟩
      · rcases hrest : annBindList anns p v as (pushEntry .callS (.annE a) st)
          with ⟨r, st', tr⟩
        have heq : annBindList anns p v (a :: as) st
            = ⟨r, st', .bindAnn a p v :: .acq .callS (.annE a) :: tr⟩ := by
          simp only [annBindList, hen, hrest]
        rw [heq]
        have hih := ih (pushEntry .callS (.annE a) st)
        rw [hrest] at hih
        have hstack : StackEv st st' (Event.bindAnn a p v
            :: Event.acq .callS (.annE a) :: tr) := by
          have h1 : StackEv st st [Event.bindAnn a p v] := StackEv.seSilent (by simp)
          have h2 := pushEntry_stack .callS (.annE a) st
          have h3 := (h1.seTrans h2).seTrans hih.1
          simpa using h3
        refine ⟨hstack, ?_, ?_, ?_, ?_⟩
        · rw [hih.2.1, pushEntry_callCache]
        · rw [hih.2.2.1, pushEntry_sharedResolved]
        · rw [hih.2.2.2.1]
          rfl
        · intro ev hev
          simp only [List.mem_cons] at hev
          rcases hev with hev | hev | hev
          · exact .inl ⟨a, hev⟩
          · exact .inr ⟨a, hev⟩
          · exact hih.2.2.2.2 ev hev

/-- The annotation phase: state summary and trace characterisation. -/
theorem annPhase_spec (anns : List AnnSpec) (provided args : List (ParamName × PyVal)) :
    ∀ (fnA : List (ParamName × List Nat)) (st : St),
      StackEv st (annPhase anns provided args fnA st).st (annPhase anns provided args fnA st).tr
      ∧ (annPhase anns provided args fnA st).st.callCache = st.callCache
      ∧ (annPhase anns provided args fnA st).st.sharedResolved = st.sharedResolved
      ∧ (∀ ev ∈ (annPhase anns provided args fnA st).tr,
          (∃ a p, ev = .bindAnn a p (firstSome (alookup provided p) (alookup args p)))
          ∨ ∃ a, ev = .acq .callS (.annE a)) := by
  intro fnA
  induction fnA with
  | nil =>
      intro st
      exact ⟨StackEv.seRefl st, rfl, rfl, by intro ev hev; simp [annPhase] at hev⟩
  | cons pds rest ih =>
      intro st
      obtain ⟨p, ds⟩ := pds
      rcases hbl : annBindList anns p (firstSome (alookup provided p) (alookup args p)) ds st
        with ⟨r, st₁, tr₁⟩
      have hspec := annBindList_spec anns p (firstSome (alookup provided p) (alookup args p)) ds st
      rw [hbl] at hspec
      cases r with
      | error e =>
          have heq : annPhase anns provided args ((p, ds) :: rest) st = ⟨.error e, st₁, tr₁⟩ := by
            simp only [annPhase, hbl]
          rw [heq]
          refine ⟨hspec.1, hspec.2.1, hspec.2.2.1, ?_⟩
          intro ev hev
          rcases hspec.2.2.2.2 ev hev with ⟨a, ha⟩ | ⟨a, ha⟩
          · exact .inl ⟨a, p, ha⟩
          · exact .inr ⟨a, ha⟩
      | ok u =>
          rcases hre : annPhase anns provided args rest st₁ with ⟨r₂, st₂, tr₂⟩
          have heq : annPhase anns provided args ((p, ds) :: rest) st
              = ⟨r₂, st₂, tr₁ ++ tr₂⟩ := by
            simp only [annPhase, hbl, hre]
          rw [heq]
          have hih := ih st₁
          rw [hre] at hih
          refine ⟨hspec.1.seTrans hih.1, ?_, ?_, ?_⟩
          · rw [hih.2.1, hspec.2.1]
          · rw [hih.2.2.1, hspec.2.2.1]
          · intro ev hev
            rcases List.mem_append.mp hev with hev | hev
            · rcases hspec.2.2.2.2 ev hev with ⟨a, ha⟩ | ⟨a, ha⟩
              · exact .inl ⟨a, p, ha⟩
              · exact .inr ⟨a, ha⟩
            · exact hih.2.2.2 ev hev

/-- When every bound annotation descriptor enters successfully, the
annotation phase succeeds. -/
theorem annPhase_all_ok (anns : List AnnSpec)
    (hok : ∀ (a : Nat) (v : Option PyVal), (annGet anns a).aenter v = .ok ())
    (provided args : List (ParamName × PyVal)) :
    ∀ (fnA : List (ParamName × List Nat)) (st : St),
      ∃ st' tr, annPhase anns provided args fnA st = ⟨.ok (), st', tr⟩ := by
  have hbl : ∀ (p : ParamName) (v : Option PyVal) (ds : List Nat) (st : St),
      ∃ st' tr, annBindList anns p v ds st = ⟨.ok (), st', tr⟩ := by
    intro p v ds
    induction ds with
    | nil => intro st; exact ⟨st, [], rfl⟩
    | cons a as ih =>
        intro st
        obtain ⟨st', tr, hih⟩ := ih (pushEntry .callS (.annE a) st)
        refine ⟨st', .bindAnn a p v :: .acq .callS (.annE a) :: tr, ?_⟩
        simp only [annBindList, hok a v, hih]
  intro fnA
  induction fnA with
  | nil => intro st; exact ⟨st, [], rfl⟩
  | cons pds rest ih =>
      intro st
      obtain ⟨p, ds⟩ := pds
      obtain ⟨st₁, tr₁, h1⟩ := hbl p (firstSome (alookup provided p) (alookup args p)) ds st
      obtain ⟨st₂, tr₂, h2⟩ := ih st₁
      refine ⟨st₂, tr₁ ++ tr₂, ?_⟩
      simp only [annPhase, h1, h2]

/-!
Lemmas about the scoped phase of `resolved_dependencies`.
-/

theorem scopedPhase_cons_cases (env : List FactorySpec) (fuel : Nat)
    (provided : List (ParamName × PyVal)) (p : ParamName) (d : Dep)
    (ps : List (ParamName × Dep)) (st : St) :
    (∃ w args₂ st₂ tr₂, alookup provided p = some w
      ∧ scopedPhase env fuel provided ps st = (args₂, st₂, tr₂)
      ∧ scopedPhase env fuel provided ((p, d) :: ps) st = ((p, w) :: args₂, st₂, tr₂))
    ∨ (∃ v st₁ tr₁ args₂ st₂ tr₂, alookup provided p = none
      ∧ enterCtxWith (fun d' st' => enterDep env fuel d' st') .callS d st = ⟨.ok v, st₁, tr₁⟩
      ∧ scopedPhase env fuel provided ps st₁ = (args₂, st₂, tr₂)
      ∧ scopedPhase env fuel provided ((p, d) :: ps) st
          = ((p, v) :: args₂, st₂, .enterParam p :: (tr₁ ++ tr₂)))
    ∨ (∃ e st₁ tr₁ args₂ st₂ tr₂, alookup provided p = none
      ∧ enterCtxWith (fun d' st' => enterDep env fuel d' st') .callS d st = ⟨.error e, st₁, tr₁⟩
      ∧ scopedPhase env fuel provided ps st₁ = (args₂, st₂, tr₂)
      ∧ scopedPhase env fuel provided ((p, d) :: ps) st
          = ((p, .failedDep p e) :: args₂, st₂, .enterParam p :: (tr₁ ++ tr₂))) := by
  rcases hpr : alookup provided p with _ | w
  · rcases hctx : enterCtxWith (fun d' st' => enterDep env fuel d' st') .callS d st
      with ⟨r, st₁, tr₁⟩
    cases r with
    | ok v =>
        rcases hrest : scopedPhase env fuel provided ps st₁ with ⟨args₂, st₂, tr₂⟩
        refine .inr (.inl ⟨v, st₁, tr₁, args₂, st₂, tr₂, rfl, rfl, hrest, ?_⟩)
        simp only [scopedPhase, hpr, hctx, hrest]
    | error e =>
        rcases hrest : scopedPhase env fuel provided ps st₁ with ⟨args₂, st₂, tr₂⟩
        refine .inr (.inr ⟨e, st₁, tr₁, args₂, st₂, tr₂, rfl, rfl, hrest, ?_⟩)
        simp only [scopedPhase, hpr, hctx, hrest]
  · rcases hrest : scopedPhase env fuel provided ps st with ⟨args₂, st₂, tr₂⟩
    refine .inl ⟨w, args₂, st₂, tr₂, rfl, rfl, ?_⟩
    simp only [scopedPhase, hpr, hrest]

theorem scopedPhase_lift {P : St → St → List Event → Prop}
    {env : List FactorySpec} {fuel : Nat} {provided : List (ParamName × PyVal)}
    (htrans : ∀ {a b c : St} {trA trB : List Event}, P a b trA → P b c trB → P a c (trA ++ trB))
    (hnil : ∀ st, P st st [])
    (hpush : ∀ (e : Entry) (st : St), P st (pushEntry .callS e st) [Event.acq .callS e])
    (henterP : ∀ (p : ParamName) (st : St), P st st [.enterParam p])
    (h1 : ∀ (d : Dep) (st : St), P st (enterDep env fuel d st).st (enterDep env fuel d st).tr) :
    ∀ (fnP : List (ParamName × Dep)) (st : St),
      P st (scopedPhase env fuel provided fnP st).2.1
        (scopedPhase env fuel provided fnP st).2.2 := by
  intro fnP
  induction fnP with
  | nil => intro st; simpa [scopedPhase] using hnil st
  | cons pd ps ihp =>
      intro st
      obtain ⟨p, d⟩ := pd
      have hctxP : ∀ st, P st
          (enterCtxWith (fun d' st' => enterDep env fuel d' st') .callS d st).st
          (enterCtxWith (fun d' st' => enterDep env fuel d' st') .callS d st).tr :=
        fun st => enterCtxWith_lift htrans hpush (fun st => h1 d st) st
      rcases scopedPhase_cons_cases env fuel provided p d ps st with
        ⟨w, args₂, st₂, tr₂, hpr, hrest, heq⟩ |
        ⟨v, st₁, tr₁, args₂, st₂, tr₂, hpr, hctx, hrest, heq⟩ |
        ⟨e, st₁, tr₁, args₂, st₂, tr₂, hpr, hctx, hrest, heq⟩
      · rw [heq]
        have h2 := ihp st
        rw [hrest] at h2
        exact h2
      · rw [heq]
        have hc := hctxP st
        rw [hctx] at hc
        have h2 := ihp st₁
        rw [hrest] at h2
        have := htrans (henterP p st) (htrans hc h2)
        simpa using this
      · rw [heq]
        have hc := hctxP st
        rw [hctx] at hc
        have h2 := ihp st₁
        rw [hrest] at h2
        have := htrans (henterP p st) (htrans hc h2)
        simpa using this

/-- Every event of the scoped phase is a core event or an `enterParam`
marker. -/
theorem scopedPhase_events (env : List FactorySpec) (fuel : Nat)
    (provided : List (ParamName × PyVal)) :
    ∀ (fnP : List (ParamName × Dep)) (st : St),
      ∀ ev ∈ (scopedPhase env fuel provided fnP st).2.2,
        coreEv ev = true ∨ ∃ p, ev = .enterParam p := by
  intro fnP
  induction fnP with
  | nil => intro st ev hev; simp [scopedPhase] at hev
  | cons pd ps ihp =>
      intro st ev hev
      obtain ⟨p, d⟩ := pd
      have hctxE : ∀ st', ∀ ev ∈ (enterCtxWith (fun d' st' => enterDep env fuel d' st')
          .callS d st').tr, coreEv ev = true := by
        intro st' ev hev
        rcases enterCtxWith_cases (fun d' st'' => enterDep env fuel d' st'') .callS d st' with
          ⟨e, stx, trx, he, heq⟩ | ⟨v, stx, trx, he, heq⟩
        · rw [heq] at hev
          have hd := enterDep_events env fuel d st'
          rw [he] at hd
          exact hd ev hev
        · rw [heq] at hev
          have hd := enterDep_events env fuel d st'
          rw [he] at hd
          rcases List.mem_append.mp hev with h | h
          · exact hd ev h
          · simp at h; simp [h, coreEv]
      rcases scopedPhase_cons_cases env fuel provided p d ps st with
        ⟨w, args₂, st₂, tr₂, hpr, hrest, heq⟩ |
        ⟨v, st₁, tr₁, args₂, st₂, tr₂, hpr, hctx, hrest, heq⟩ |
        ⟨e, st₁, tr₁, args₂, st₂, tr₂, hpr, hctx, hrest, heq⟩
      · rw [heq] at hev
        have h2 := ihp st
        rw [hrest] at h2
        exact h2 ev hev
      · rw [heq] at hev
        simp only [List.mem_cons, List.mem_append] at hev
        rcases hev with hev | hev | hev
        · exact .inr ⟨p, hev⟩
        · have hc := hctxE st
          rw [hctx] at hc
          exact .inl (hc ev hev)
        · have h2 := ihp st₁
          rw [hrest] at h2
          exact h2 ev hev
      · rw [heq] at hev
        simp only [List.mem_cons, List.mem_append] at hev
        rcases hev with hev | hev | hev
        · exact .inr ⟨p, hev⟩
        · have hc := hctxE st
          rw [hctx] at hc
          exact .inl (hc ev hev)
        · have h2 := ihp st₁
          rw [hrest] at h2
          exact h2 ev hev

/-- The resolved-arguments map has an entry for every dependency-bearing
parameter: resolution always continues to the end of the loop. -/
theorem scopedPhase_args_isSome (env : List FactorySpec) (fuel : Nat)
    (provided : List (ParamName × PyVal)) :
    ∀ (fnP : List (ParamName × Dep)) (st : St) (x : ParamName) (d : Dep),
      (x, d) ∈ fnP → (alookup (scopedPhase env fuel provided fnP st).1 x).isSome := by
  intro fnP
  induction fnP with
  | nil => intro st x d hx; simp at hx
  | cons pd ps ihp =>
      intro st x d hx
      obtain ⟨p, d0⟩ := pd
      rcases scopedPhase_cons_cases env fuel provided p d0 ps st with
        ⟨w, args₂, st₂, tr₂, hpr, hrest, heq⟩ |
        ⟨v, st₁, tr₁, args₂, st₂, tr₂, hpr, hctx, hrest, heq⟩ |
        ⟨e, st₁, tr₁, args₂, st₂, tr₂, hpr, hctx, hrest, heq⟩
      all_goals (
        rw [heq]
        by_cases hxp : x = p
        · subst hxp
          simp [alookup_cons_self]
        · simp only
          rw [alookup_cons_ne _ _ hxp]
          have hxps : (x, d) ∈ ps := by
            rcases List.mem_cons.mp hx with h | h
            · exact absurd (congrArg Prod.fst h) hxp
            · exact h
          first
            | (have h2 := ihp st x d hxps
               rw [hrest] at h2
               exact h2)
            | (have h2 := ihp st₁ x d hxps
               rw [hrest] at h2
               exact h2))

/-- `enterParam` markers identify exactly the dependency parameters whose
descriptor the loop actually entered. -/
theorem scopedPhase_enterParam_src (env : List FactorySpec) (fuel : Nat)
    (provided : List (ParamName × PyVal)) :
    ∀ (fnP : List (ParamName × Dep)) (st : St) (x : ParamName),
      Event.enterParam x ∈ (scopedPhase env fuel provided fnP st).2.2 →
      x ∈ fnP.map Prod.fst ∧ alookup provided x = none := by
  intro fnP
  induction fnP with
  | nil => intro st x hx; simp [scopedPhase] at hx
  | cons pd ps ihp =>
      intro st x hx
      obtain ⟨p, d0⟩ := pd
      have hctxNo : ∀ st', Event.enterParam x
          ∉ (enterCtxWith (fun d' st' => enterDep env fuel d' st') .callS d0 st').tr := by
        intro st' hmem
        rcases enterCtxWith_cases (fun d' st'' => enterDep env fuel d' st'') .callS d0 st' with
          ⟨e, stx, trx, he, heq⟩ | ⟨v, stx, trx, he, heq⟩
        · rw [heq] at hmem
          have hd := enterDep_events env fuel d0 st'
          rw [he] at hd
          have := hd _ hmem
          simp [coreEv] at this
        · rw [heq] at hmem
          have hd := enterDep_events env fuel d0 st'
          rw [he] at hd
          rcases List.mem_append.mp hmem with h | h
          · have := hd _ h
            simp [coreEv] at this
          · simp at h
      rcases scopedPhase_cons_cases env fuel provided p d0 ps st with
        ⟨w, args₂, st₂, tr₂, hpr, hrest, heq⟩ |
        ⟨v, st₁, tr₁, args₂, st₂, tr₂, hpr, hctx, hrest, heq⟩ |
        ⟨e, st₁, tr₁, args₂, st₂, tr₂, hpr, hctx, hrest, heq⟩
      · rw [heq] at hx
        have h2 := ihp st x
        rw [hrest] at h2
        have := h2 hx
        exact ⟨by simp [this.1], this.2⟩
      · rw [heq] at hx
        simp only [List.mem_cons, List.mem_append] at hx
        rcases hx with hx | hx | hx
        · injection hx with h1
          subst h1
          exact ⟨by simp, hpr⟩
        · exact absurd hx (by have := hctxNo st; rw [hctx] at this; exact this)
        · have h2 := ihp st₁ x
          rw [hrest] at h2
          have := h2 hx
          exact ⟨by simp [this.1], this.2⟩
      · rw [heq] at hx
        simp only [List.mem_cons, List.mem_append] at hx
        rcases hx with hx | hx | hx
        · injection hx with h1
          subst h1
          exact ⟨by simp, hpr⟩
        · exact absurd hx (by have := hctxNo st; rw [hctx] at this; exact this)
        · have h2 := ihp st₁ x
          rw [hrest] at h2
          have := h2 hx
          exact ⟨by simp [this.1], this.2⟩

/-- A caller-supplied value short-circuits: the map holds the override
and the parameter's descriptor is never entered. -/
theorem scopedPhase_provided (env : List FactorySpec) (fuel : Nat)
    (provided : List (ParamName × PyVal)) (p : ParamName) (w : PyVal)
    (hpr : alookup provided p = some w) :
    ∀ (fnP : List (ParamName × Dep)) (st : St) (d : Dep),
      (p, d) ∈ fnP →
      alookup (scopedPhase env fuel provided fnP st).1 p = some w
      ∧ Event.enterParam p ∉ (scopedPhase env fuel provided fnP st).2.2 := by
  intro fnP st d hmem
  constructor
  · induction fnP generalizing st with
    | nil => simp at hmem
    | cons pd ps ihp =>
        obtain ⟨q, d0⟩ := pd
        rcases scopedPhase_cons_cases env fuel provided q d0 ps st with
          ⟨w', args₂, st₂, tr₂, hpr', hrest, heq⟩ |
          ⟨v, st₁, tr₁, args₂, st₂, tr₂, hpr', hctx, hrest, heq⟩ |
          ⟨e, st₁, tr₁, args₂, st₂, tr₂, hpr', hctx, hrest, heq⟩
        · rw [heq]
          by_cases hq : p = q
          · subst hq
            rw [hpr] at hpr'
            injection hpr' with hw
            subst hw
            exact alookup_cons_self args₂ p w
          · simp only
            rw [alookup_cons_ne _ _ hq]
            have hmem' : (p, d) ∈ ps := by
              rcases List.mem_cons.mp hmem with h | h
              · exact absurd (congrArg Prod.fst h) hq
              · exact h
            have h2 := ihp st hmem'
            rw [hrest] at h2
            exact h2
        · by_cases hq : p = q
          · subst hq
            rw [hpr] at hpr'
            simp at hpr'
          · rw [heq]
            simp only
            rw [alookup_cons_ne _ _ hq]
            have hmem' : (p, d) ∈ ps := by
              rcases List.mem_cons.mp hmem with h | h
              · exact absurd (congrArg Prod.fst h) hq
              · exact h
            have h2 := ihp st₁ hmem'
            rw [hrest] at h2
            exact h2
        · by_cases hq : p = q
          · subst hq
            rw [hpr] at hpr'
            simp at hpr'
          · rw [heq]
            simp only
            rw [alookup_cons_ne _ _ hq]
            have hmem' : (p, d) ∈ ps := by
              rcases List.mem_cons.mp hmem with h | h
              · exact absurd (congrArg Prod.fst h) hq
              · exact h
            have h2 := ihp st₁ hmem'
            rw [hrest] at h2
            exact h2
  · intro hx
    have := scopedPhase_enterParam_src env fuel provided fnP st p hx
    rw [hpr] at this
    exact absurd this.2 (by simp)

/-- A non-overridden scoped parameter either records a failure marker
(with the descriptor's failure witnessed in the trace) or records a value
whose acquisition is witnessed in the trace. -/
theorem scopedPhase_depends_mem (env : List FactorySpec) (fuel : Nat)
    (provided : List (ParamName × PyVal)) (p : ParamName) (f : FactoryId) :
    ∀ (fnP : List (ParamName × Dep)) (st : St),
      (p, Dep.depends f) ∈ fnP →
      alookup provided p = none →
      (fnP.map Prod.fst).Nodup →
      (∃ e, alookup (scopedPhase env fuel provided fnP st).1 p = some (.failedDep p e)
        ∧ Event.resolveFailed .scoped f ∈ (scopedPhase env fuel provided fnP st).2.2)
      ∨ (∃ v, alookup (scopedPhase env fuel provided fnP st).1 p = some v
        ∧ Event.acquired .scoped f v ∈ (scopedPhase env fuel provided fnP st).2.2) := by
  intro fnP
  induction fnP with
  | nil => intro st hmem; simp at hmem
  | cons pd ps ihp =>
      intro st hmem hpr hnd
      obtain ⟨q, d0⟩ := pd
      by_cases hq : p = q
      · subst hq
        have hd0 : d0 = Dep.depends f := by
          rcases List.mem_cons.mp hmem with h | h
          · injection h with h1 h2
            exact h2.symm
          · exfalso
            have : p ∈ ps.map Prod.fst := by
              simp only [List.map_cons] at hnd
              exact List.mem_map.mpr ⟨(p, Dep.depends f), h, rfl⟩
            simp only [List.map_cons, List.nodup_cons] at hnd
            exact hnd.1 this
        subst hd0
        rcases scopedPhase_cons_cases env fuel provided p (Dep.depends f) ps st with
          ⟨w, args₂, st₂, tr₂, hpr', hrest, heq⟩ |
          ⟨v, st₁, tr₁, args₂, st₂, tr₂, hpr', hctx, hrest, heq⟩ |
          ⟨e, st₁, tr₁, args₂, st₂, tr₂, hpr', hctx, hrest, heq⟩
        · rw [hpr] at hpr'
          simp at hpr'
        · rw [heq]
          refine .inr ⟨v, alookup_cons_self args₂ p v, ?_⟩
          rcases enterCtxWith_cases (fun d' st' => enterDep env fuel d' st')
              .callS (Dep.depends f) st with
            ⟨e', stx, trx, he, heq2⟩ | ⟨v', stx, trx, he, heq2⟩
          · rw [heq2] at hctx
            injection hctx with hr
            simp at hr
          · rw [heq2] at hctx
            injection hctx with hr hst htr
            injection hr with hv
            subst htr
            have hm := enterDep_ok_mem env fuel (Dep.depends f) st v' (by rw [he])
            rw [he] at hm
            simp only [Dep.kind, Dep.fac] at hm
            rw [hv] at hm
            simp only [List.mem_cons, List.mem_append]
            exact .inr (.inl (.inl hm))
        · rw [heq]
          refine .inl ⟨e, alookup_cons_self args₂ p _, ?_⟩
          rcases enterCtxWith_cases (fun d' st' => enterDep env fuel d' st')
              .callS (Dep.depends f) st with
            ⟨e', stx, trx, he, heq2⟩ | ⟨v', stx, trx, he, heq2⟩
          · rw [heq2] at hctx
            injection hctx with hr hst htr
            subst htr
            have hm := enterDep_err_mem env fuel (Dep.depends f) st e' (by rw [he])
            rw [he] at hm
            simp only [Dep.kind, Dep.fac] at hm
            simp only [List.mem_cons, List.mem_append]
            exact .inr (.inl hm)
          · rw [heq2] at hctx
            injection hctx with hr
            simp at hr
      · have hmem' : (p, Dep.depends f) ∈ ps := by
          rcases List.mem_cons.mp hmem with h | h
          · exact absurd (congrArg Prod.fst h) hq
          · exact h
        have hnd' : (ps.map Prod.fst).Nodup := by
          simp only [List.map_cons, List.nodup_cons] at hnd
          exact hnd.2
        rcases scopedPhase_cons_cases env fuel provided q d0 ps st with
          ⟨w, args₂, st₂, tr₂, hpr', hrest, heq⟩ |
          ⟨v, st₁, tr₁, args₂, st₂, tr₂, hpr', hctx, hrest, heq⟩ |
          ⟨e, st₁, tr₁, args₂, st₂, tr₂, hpr', hctx, hrest, heq⟩
        · rw [heq]
          have h2 := ihp st hmem' hpr hnd'
          rw [hrest] at h2
          simp only
          rw [alookup_cons_ne _ _ hq]
          exact h2
        · rw [heq]
          have h2 := ihp st₁ hmem' hpr hnd'
          rw [hrest] at h2
          simp only
          rw [alookup_cons_ne _ _ hq]
          rcases h2 with ⟨e, h2a, h2b⟩ | ⟨v', h2a, h2b⟩
          · exact .inl ⟨e, h2a, by
              simp only [List.mem_cons, List.mem_append]
              exact .inr (.inr h2b)⟩
          · exact .inr ⟨v', h2a, by
              simp only [List.mem_cons, List.mem_append]
              exact .inr (.inr h2b)⟩
        · rw [heq]
          have h2 := ihp st₁ hmem' hpr hnd'
          rw [hrest] at h2
          simp only
          rw [alookup_cons_ne _ _ hq]
          rcases h2 with ⟨e', h2a, h2b⟩ | ⟨v', h2a, h2b⟩
          · exact .inl ⟨e', h2a, by
              simp only [List.mem_cons, List.mem_append]
              exact .inr (.inr h2b)⟩
          · exact .inr ⟨v', h2a, by
              simp only [List.mem_cons, List.mem_append]
              exact .inr (.inr h2b)⟩

/-- Every factory invocation during the scoped phase is attributable to a
non-overridden dependency parameter of the call or to a dependency
declared by some factory of the environment. -/
theorem scopedPhase_invoke_src (env : List FactorySpec) (fuel : Nat)
    (provided : List (ParamName × PyVal)) :
    ∀ (fnP : List (ParamName × Dep)) (st : St) (k : DepKind) (g : FactoryId),
      Event.invoke k g ∈ (scopedPhase env fuel provided fnP st).2.2 →
      ∃ x d, (x, d) ∈ fnP ∧ alookup provided x = none
        ∧ (g = d.fac ∨ envMentionsFac env g = true) := by
  intro fnP
  induction fnP with
  | nil => intro st k g hmem; simp [scopedPhase] at hmem
  | cons pd ps ihp =>
      intro st k g hmem
      obtain ⟨p, d0⟩ := pd
      have hctxI : ∀ st', Event.invoke k g ∈ (enterCtxWith (fun d' st' => enterDep env fuel d' st')
          .callS d0 st').tr → g = d0.fac ∨ envMentionsFac env g = true := by
        intro st' hm
        rcases enterCtxWith_cases (fun d' st'' => enterDep env fuel d' st'') .callS d0 st' with
          ⟨e, stx, trx, he, heq2⟩ | ⟨v, stx, trx, he, heq2⟩
        · rw [heq2] at hm
          exact enterDep_invoke_src env fuel d0 st' k g (by rw [he]; exact hm)
        · rw [heq2] at hm
          rcases List.mem_append.mp hm with h | h
          · exact enterDep_invoke_src env fuel d0 st' k g (by rw [he]; exact h)
          · simp at h
      rcases scopedPhase_cons_cases env fuel provided p d0 ps st with
        ⟨w, args₂, st₂, tr₂, hpr, hrest, heq⟩ |
        ⟨v, st₁, tr₁, args₂, st₂, tr₂, hpr, hctx, hrest, heq⟩ |
        ⟨e, st₁, tr₁, args₂, st₂, tr₂, hpr, hctx, hrest, heq⟩
      · rw [heq] at hmem
        have h2 := ihp st k g (by rw [hrest]; exact hmem)
        obtain ⟨x, d, hx, hprx, hsrc⟩ := h2
        exact ⟨x, d, by simp [hx], hprx, hsrc⟩
      · rw [heq] at hmem
        simp only [List.mem_cons, List.mem_append] at hmem
        rcases hmem with hmem | hmem | hmem
        · simp at hmem
        · have := hctxI st (by rw [hctx]; exact hmem)
          exact ⟨p, d0, by simp, hpr, this⟩
        · have h2 := ihp st₁ k g (by rw [hrest]; exact hmem)
          obtain ⟨x, d, hx, hprx, hsrc⟩ := h2
          exact ⟨x, d, by simp [hx], hprx, hsrc⟩
      · rw [heq] at hmem
        simp only [List.mem_cons, List.mem_append] at hmem
        rcases hmem with hmem | hmem | hmem
        · simp at hmem
        · have := hctxI st (by rw [hctx]; exact hmem)
          exact ⟨p, d0, by simp, hpr, this⟩
        · have h2 := ihp st₁ k g (by rw [hrest]; exact hmem)
          obtain ⟨x, d, hx, hprx, hsrc⟩ := h2
          exact ⟨x, d, by simp [hx], hprx, hsrc⟩

/-- When a parameter's factory always raises one exception and declares
no dependencies of its own, the scoped phase records exactly the failure
marker made of the parameter name and that exception. -/
theorem scopedPhase_failmarker (env : List FactorySpec) (fuel : Nat)
    (provided : List (ParamName × PyVal)) (p : ParamName) (f : FactoryId) (e₀ : Err)
    (hfail : ∀ args a, (envGet env f).run args a = .error e₀)
    (hparams : (envGet env f).params = [])
    (hfuel : 1 ≤ fuel) :
    ∀ (fnP : List (ParamName × Dep)) (st : St),
      (p, Dep.depends f) ∈ fnP →
      alookup provided p = none →
      (fnP.map Prod.fst).Nodup →
      flookup st.callCache f = none →
      alookup (scopedPhase env fuel provided fnP st).1 p = some (.failedDep p e₀) := by
  obtain ⟨m, rfl⟩ : ∃ m, fuel = m + 1 := ⟨fuel - 1, by omega⟩
  intro fnP
  induction fnP with
  | nil => intro st hmem; simp at hmem
  | cons pd ps ihp =>
      intro st hmem hpr hnd hcc
      obtain ⟨q, d0⟩ := pd
      by_cases hq : p = q
      · subst hq
        have hd0 : d0 = Dep.depends f := by
          rcases List.mem_cons.mp hmem with h | h
          · injection h with h1 h2
            exact h2.symm
          · exfalso
            have : p ∈ ps.map Prod.fst := List.mem_map.mpr ⟨(p, Dep.depends f), h, rfl⟩
            simp only [List.map_cons, List.nodup_cons] at hnd
            exact hnd.1 this
        subst hd0
        have hdep : enterDep env (m + 1) (.depends f) st
            = ⟨.error e₀, { st with alloc := st.alloc + 1 },
                [] ++ [.invoke .scoped f, .resolveFailed .scoped f]⟩ := by
          rw [enterDep_dep_miss_eq env m f st hcc, hparams]
          rw [show paramsLoop (fun d' st' => enterDep env m d' st') .callS [] st
            = ⟨.ok [], st, []⟩ from rfl]
          exact finishScoped_runerr_eq env f [] st [] e₀ (hfail [] st.alloc)
        have hctxE := enterCtxWith_err_eq (fun d' st' => enterDep env (m + 1) d' st')
          .callS (.depends f) st e₀ { st with alloc := st.alloc + 1 }
          ([] ++ [.invoke .scoped f, .resolveFailed .scoped f]) hdep
        rcases scopedPhase_cons_cases env (m + 1) provided p (Dep.depends f) ps st with
          ⟨w, args₂, st₂, tr₂, hpr', hrest, heq⟩ |
          ⟨v, st₁, tr₁, args₂, st₂, tr₂, hpr', hctx, hrest, heq⟩ |
          ⟨e, st₁, tr₁, args₂, st₂, tr₂, hpr', hctx, hrest, heq⟩
        · rw [hpr] at hpr'
          simp at hpr'
        · rw [hctxE] at hctx
          injection hctx with hr
          simp at hr
        · rw [hctxE] at hctx
          injection hctx with hr hst htr
          injection hr with he'
          rw [heq]
          simp only
          rw [he']
          exact alookup_cons_self args₂ p _
      · have hmem' : (p, Dep.depends f) ∈ ps := by
          rcases List.mem_cons.mp hmem with h | h
          · exact absurd (congrArg Prod.fst h) hq
          · exact h
        have hnd' : (ps.map Prod.fst).Nodup := by
          simp only [List.map_cons, List.nodup_cons] at hnd
          exact hnd.2
        rcases scopedPhase_cons_cases env (m + 1) provided q d0 ps st with
          ⟨w, args₂, st₂, tr₂, hpr', hrest, heq⟩ |
          ⟨v, st₁, tr₁, args₂, st₂, tr₂, hpr', hctx, hrest, heq⟩ |
          ⟨e, st₁, tr₁, args₂, st₂, tr₂, hpr', hctx, hrest, heq⟩
        · rw [heq]
          simp only
          rw [alookup_cons_ne _ _ hq]
          have h2 := ihp st hmem' hpr hnd' hcc
          rw [hrest] at h2
          exact h2
        · have hcc₁ : flookup st₁.callCache f = none := by
            rcases enterCtxWith_cases (fun d' st' => enterDep env (m + 1) d' st')
                .callS d0 st with
              ⟨e', stx, trx, he, heq2⟩ | ⟨v', stx, trx, he, heq2⟩
            · rw [heq2] at hctx
              injection hctx with hr
              simp at hr
            · rw [heq2] at hctx
              injection hctx with hr hst htr
              rw [← hst, pushEntry_callCache]
              have := enterDep_noInsertFail env f e₀ hfail (m + 1) d0 st hcc
              rw [he] at this
              exact this
          rw [heq]
          simp only
          rw [alookup_cons_ne _ _ hq]
          have h2 := ihp st₁ hmem' hpr hnd' hcc₁
          rw [hrest] at h2
          exact h2
        · have hcc₁ : flookup st₁.callCache f = none := by
            rcases enterCtxWith_cases (fun d' st' => enterDep env (m + 1) d' st')
                .callS d0 st with
              ⟨e', stx, trx, he, heq2⟩ | ⟨v', stx, trx, he, heq2⟩
            · rw [heq2] at hctx
              injection hctx with hr hst htr
              rw [← hst]
              have := enterDep_noInsertFail env f e₀ hfail (m + 1) d0 st hcc
              rw [he] at this
              exact this
            · rw [heq2] at hctx
              injection hctx with hr
              simp at hr
          rw [heq]
          simp only
          rw [alookup_cons_ne _ _ hq]
          have h2 := ihp st₁ hmem' hpr hnd' hcc₁
          rw [hrest] at h2
          exact h2

/-!
Lemmas about the full `resolved_dependencies` lifecycle and the shared
scope around it.
-/

theorem relOf_none_of_core (s : ScopeTag) (ev : Event)
    (h : coreEv ev = true ∨ ∃ p, ev = Event.enterParam p) : relOf s ev = none := by
  cases ev with
  | rel s' e =>
      rcases h with h | ⟨p, hp⟩
      · simp [coreEv] at h
      · simp at hp
  | invoke k f => rfl
  | resolveFailed k f => rfl
  | acquired k f v => rfl
  | enterParam p => rfl
  | bindAnn a p v => rfl
  | acq s' e => rfl

theorem unwind_mem {s : ScopeTag} {stack : List Entry} {ev : Event}
    (h : ev ∈ unwindTrace s stack) : ∃ e, ev = Event.rel s e := by
  simp only [unwindTrace, List.mem_map] at h
  obtain ⟨e, _, he⟩ := h
  exact ⟨e, he.symm⟩

theorem scopedPhase_stackEv (env : List FactorySpec) (fuel : Nat)
    (provided : List (ParamName × PyVal)) (fnP : List (ParamName × Dep)) (st : St) :
    StackEv st (scopedPhase env fuel provided fnP st).2.1
      (scopedPhase env fuel provided fnP st).2.2 := by
  exact @scopedPhase_lift StackEv env fuel provided
    (fun hA hB => hA.seTrans hB)
    (fun st => StackEv.seRefl st)
    (fun e st => pushEntry_stack .callS e st)
    (fun p st => StackEv.seSilent (by simp))
    (fun d st => enterDep_stack env fuel d st) fnP st

theorem scopedPhase_scopedCount (env : List FactorySpec) (hs : stratifiedEnv env = true)
    (f₀ : FactoryId) (fuel : Nat) (provided : List (ParamName × PyVal))
    (fnP : List (ParamName × Dep)) (st : St) :
    ScopedCount f₀ st (scopedPhase env fuel provided fnP st).2.1
      (scopedPhase env fuel provided fnP st).2.2 := by
  exact @scopedPhase_lift (ScopedCount f₀) env fuel provided
    (fun hA hB => hA.scTrans hB)
    (fun st => ScopedCount.scSilent rfl (by simp))
    (fun e st => ScopedCount.scSilent (pushEntry_callCache .callS e st) (by simp))
    (fun p st => ScopedCount.scSilent rfl (by simp))
    (fun d st => enterDep_scopedCount env hs f₀ fuel d st) fnP st

theorem scopedPhase_scopedAcq (env : List FactorySpec) (hs : stratifiedEnv env = true)
    (f₀ : FactoryId) (fuel : Nat) (provided : List (ParamName × PyVal))
    (fnP : List (ParamName × Dep)) (st : St) :
    ScopedAcqP f₀ st (scopedPhase env fuel provided fnP st).2.1
      (scopedPhase env fuel provided fnP st).2.2 := by
  exact @scopedPhase_lift (ScopedAcqP f₀) env fuel provided
    (fun hA hB => hA.aqTrans hB)
    (fun st => ScopedAcqP.aqSilent rfl (by intro w; simp))
    (fun e st => ScopedAcqP.aqSilent (pushEntry_callCache .callS e st) (by intro w; simp))
    (fun p st => ScopedAcqP.aqSilent rfl (by intro w; simp))
    (fun d st => enterDep_scopedAcq env hs f₀ fuel d st) fnP st

theorem scopedPhase_sharedCount (env : List FactorySpec) (f₀ : FactoryId) (fuel : Nat)
    (provided : List (ParamName × PyVal)) (fnP : List (ParamName × Dep)) (st : St) :
    SharedCount f₀ st (scopedPhase env fuel provided fnP st).2.1
      (scopedPhase env fuel provided fnP st).2.2 := by
  exact @scopedPhase_lift (SharedCount f₀) env fuel provided
    (fun hA hB => hA.shcTrans hB)
    (fun st => SharedCount.shcSilent rfl (by simp))
    (fun e st => SharedCount.shcSilent (pushEntry_sharedResolved .callS e st) (by simp))
    (fun p st => SharedCount.shcSilent rfl (by simp))
    (fun d st => enterDep_sharedCount env f₀ fuel d st) fnP st

theorem scopedPhase_sharedAcq (env : List FactorySpec) (f₀ : FactoryId) (fuel : Nat)
    (provided : List (ParamName × PyVal)) (fnP : List (ParamName × Dep)) (st : St) :
    SharedAcqP f₀ st (scopedPhase env fuel provided fnP st).2.1
      (scopedPhase env fuel provided fnP st).2.2 := by
  exact @scopedPhase_lift (SharedAcqP f₀) env fuel provided
    (fun hA hB => hA.saTrans hB)
    (fun st => SharedAcqP.saSilent rfl (by intro w; simp))
    (fun e st => SharedAcqP.saSilent (pushEntry_sharedResolved .callS e st) (by intro w; simp))
    (fun p st => SharedAcqP.saSilent rfl (by intro w; simp))
    (fun d st => enterDep_sharedAcq env f₀ fuel d st) fnP st

/-- Characterisation of one `resolved_dependencies` lifecycle in terms of
its scoped phase and its annotation phase. -/
theorem runResolved_eq (env : List FactorySpec) (anns : List AnnSpec) (fuel : Nat)
    (fnP : List (ParamName × Dep)) (fnA : List (ParamName × List Nat))
    (provided : List (ParamName × PyVal)) (st : St)
    (args₁ : List (ParamName × PyVal)) (st₁ : St) (tr₁ : List Event)
    (r : Except Err Unit) (st₂ : St) (tr₂ : List Event)
    (h1 : scopedPhase env fuel provided fnP { st with callCache := [], callStack := [] }
      = (args₁, st₁, tr₁))
    (h2 : annPhase anns provided args₁ fnA st₁ = ⟨r, st₂, tr₂⟩) :
    runResolved env anns fuel fnP fnA provided st
      = ⟨match r with | .ok _ => .ok args₁ | .error e => .error e,
         { st₂ with callCache := st.callCache, callStack := st.callStack },
         tr₁ ++ tr₂ ++ unwindTrace .callS st₂.callStack⟩ := by
  cases r with
  | ok u => simp only [runResolved, h1, h2]
  | error e => simp only [runResolved, h1, h2]

/-- A full lifecycle's trace is the scoped phase's trace followed by
annotation-phase events and the unwinding of the call stack, and a
successful lifecycle yields exactly the scoped phase's argument map. -/
theorem runResolved_decomp (env : List FactorySpec) (anns : List AnnSpec) (fuel : Nat)
    (fnP : List (ParamName × Dep)) (fnA : List (ParamName × List Nat))
    (provided : List (ParamName × PyVal)) (st : St) :
    ∃ trR,
      (runResolved env anns fuel fnP fnA provided st).tr
        = (scopedPhase env fuel provided fnP
            { st with callCache := [], callStack := [] }).2.2 ++ trR
      ∧ (∀ ev ∈ trR,
          (∃ a p, ev = Event.bindAnn a p (firstSome (alookup provided p)
            (alookup (scopedPhase env fuel provided fnP
              { st with callCache := [], callStack := [] }).1 p)))
          ∨ (∃ a, ev = Event.acq .callS (.annE a))
          ∨ (∃ e, ev = Event.rel .callS e))
      ∧ (∀ args, (runResolved env anns fuel fnP fnA provided st).res = .ok args →
          args = (scopedPhase env fuel provided fnP
            { st with callCache := [], callStack := [] }).1) := by
  rcases h1 : scopedPhase env fuel provided fnP { st with callCache := [], callStack := [] }
    with ⟨args₁, st₁, tr₁⟩
  rcases h2 : annPhase anns provided args₁ fnA st₁ with ⟨r, st₂, tr₂⟩
  have heq := runResolved_eq env anns fuel fnP fnA provided st args₁ st₁ tr₁ r st₂ tr₂ h1 h2
  have hann := annPhase_spec anns provided args₁ fnA st₁
  rw [h2] at hann
  refine ⟨tr₂ ++ unwindTrace .callS st₂.callStack, ?_, ?_, ?_⟩
  · rw [heq]
    simp [List.append_assoc]
  · intro ev hev
    rcases List.mem_append.mp hev with hev | hev
    · rcases hann.2.2.2 ev hev with ⟨a, p, ha⟩ | ⟨a, ha⟩
      · exact .inl ⟨a, p, ha⟩
      · exact .inr (.inl ⟨a, ha⟩)
    · obtain ⟨e, he⟩ := unwind_mem hev
      exact .inr (.inr ⟨e, he⟩)
  · intro args hres
    rw [heq] at hres
    cases r with
    | ok u =>
        simp only at hres
        injection hres with hres
        exact hres.symm
    | error e => simp at hres

/-- The shared cache and the shared invocation count behave across one
full `resolved_dependencies` lifecycle as across its parts. -/
theorem runResolved_sharedCount (env : List FactorySpec) (anns : List AnnSpec)
    (fuel : Nat) (fnP : List (ParamName × Dep)) (fnA : List (ParamName × List Nat))
    (provided : List (ParamName × PyVal)) (st : St) (f₀ : FactoryId) :
    SharedCount f₀ st (runResolved env anns fuel fnP fnA provided st).st
      (runResolved env anns fuel fnP fnA provided st).tr := by
  rcases h1 : scopedPhase env fuel provided fnP { st with callCache := [], callStack := [] }
    with ⟨args₁, st₁, tr₁⟩
  rcases h2 : annPhase anns provided args₁ fnA st₁ with ⟨r, st₂, tr₂⟩
  rw [runResolved_eq env anns fuel fnP fnA provided st args₁ st₁ tr₁ r st₂ tr₂ h1 h2]
  have hann := annPhase_spec anns provided args₁ fnA st₁
  rw [h2] at hann
  have hA : SharedCount f₀ st st₁ tr₁ := by
    have h := scopedPhase_sharedCount env f₀ fuel provided fnP
      { st with callCache := [], callStack := [] }
    rw [h1] at h
    exact h
  have hB : SharedCount f₀ st₁ st₂ tr₂ := by
    refine SharedCount.shcSilent hann.2.2.1 ?_
    intro hmem
    rcases hann.2.2.2 _ hmem with ⟨a, p, ha⟩ | ⟨a, ha⟩ <;> simp at ha
  have hU : SharedCount f₀ st₂
      ({ st₂ with callCache := st.callCache, callStack := st.callStack } : St)
      (unwindTrace .callS st₂.callStack) := by
    refine SharedCount.shcSilent rfl ?_
    intro hmem
    obtain ⟨e, he⟩ := unwind_mem hmem
    simp at he
  exact (hA.shcTrans hB).shcTrans hU

/-- Every successful shared acquisition across one lifecycle agrees with
the shared cache afterwards, which is stable. -/
theorem runResolved_sharedAcq (env : List FactorySpec) (anns : List AnnSpec)
    (fuel : Nat) (fnP : List (ParamName × Dep)) (fnA : List (ParamName × List Nat))
    (provided : List (ParamName × PyVal)) (st : St) (f₀ : FactoryId) :
    SharedAcqP f₀ st (runResolved env anns fuel fnP fnA provided st).st
      (runResolved env anns fuel fnP fnA provided st).tr := by
  rcases h1 : scopedPhase env fuel provided fnP { st with callCache := [], callStack := [] }
    with ⟨args₁, st₁, tr₁⟩
  rcases h2 : annPhase anns provided args₁ fnA st₁ with ⟨r, st₂, tr₂⟩
  rw [runResolved_eq env anns fuel fnP fnA provided st args₁ st₁ tr₁ r st₂ tr₂ h1 h2]
  have hann := annPhase_spec anns provided args₁ fnA st₁
  rw [h2] at hann
  have hA : SharedAcqP f₀ st st₁ tr₁ := by
    have h := scopedPhase_sharedAcq env f₀ fuel provided fnP
      { st with callCache := [], callStack := [] }
    rw [h1] at h
    exact h
  have hB : SharedAcqP f₀ st₁ st₂ tr₂ := by
    refine SharedAcqP.saSilent hann.2.2.1 ?_
    intro w hmem
    rcases hann.2.2.2 _ hmem with ⟨a, p, ha⟩ | ⟨a, ha⟩ <;> simp at ha
  have hU : SharedAcqP f₀ st₂
      ({ st₂ with callCache := st.callCache, callStack := st.callStack } : St)
      (unwindTrace .callS st₂.callStack) := by
    refine SharedAcqP.saSilent rfl ?_
    intro w hmem
    obtain ⟨e, he⟩ := unwind_mem hmem
    simp at he
  exact (hA.saTrans hB).saTrans hU

/-- Across one lifecycle the per-call exits run in exact reverse order of
the per-call acquisitions, and the prior call cache and call stack are
restored. -/
theorem runResolved_unwind_callS (env : List FactorySpec) (anns : List AnnSpec)
    (fuel : Nat) (fnP : List (ParamName × Dep)) (fnA : List (ParamName × List Nat))
    (provided : List (ParamName × PyVal)) (st : St) :
    ((runResolved env anns fuel fnP fnA provided st).tr.filterMap (relOf .callS))
      = ((runResolved env anns fuel fnP fnA provided st).tr.filterMap (acqOf .callS)).reverse
    ∧ (runResolved env anns fuel fnP fnA provided st).st.callStack = st.callStack
    ∧ (runResolved env anns fuel fnP fnA provided st).st.callCache = st.callCache := by
  rcases h1 : scopedPhase env fuel provided fnP { st with callCache := [], callStack := [] }
    with ⟨args₁, st₁, tr₁⟩
  rcases h2 : annPhase anns provided args₁ fnA st₁ with ⟨r, st₂, tr₂⟩
  rw [runResolved_eq env anns fuel fnP fnA provided st args₁ st₁ tr₁ r st₂ tr₂ h1 h2]
  have hann := annPhase_spec anns provided args₁ fnA st₁
  rw [h2] at hann
  have hsp := scopedPhase_stackEv env fuel provided fnP
    { st with callCache := [], callStack := [] }
  rw [h1] at hsp
  have hstk : st₂.callStack = ((tr₁ ++ tr₂).filterMap (acqOf .callS)).reverse := by
    have h := (hsp.seTrans hann.1).1
    simpa [List.filterMap_append] using h
  have hrel₁ : tr₁.filterMap (relOf .callS) = [] := by
    apply filterMap_eq_nil_of_none
    intro ev hev
    have h := scopedPhase_events env fuel provided fnP
      { st with callCache := [], callStack := [] } ev (by rw [h1]; exact hev)
    exact relOf_none_of_core .callS ev h
  have hrel₂ : tr₂.filterMap (relOf .callS) = [] := by
    apply filterMap_eq_nil_of_none
    intro ev hev
    rcases hann.2.2.2 ev hev with ⟨a, p, ha⟩ | ⟨a, ha⟩ <;> rw [ha] <;> rfl
  refine ⟨?_, rfl, rfl⟩
  simp only [List.filterMap_append, hrel₁, hrel₂, relOf_unwind,
    acqOf_unwind, List.append_nil, List.nil_append, List.reverse_append]
  rw [hstk]
  simp [List.filterMap_append, List.reverse_append]

/-- Across one lifecycle the shared stack grows by exactly the reversed
shared acquisitions of the trace, and no shared release is emitted. -/
theorem runResolved_shared_stack (env : List FactorySpec) (anns : List AnnSpec)
    (fuel : Nat) (fnP : List (ParamName × Dep)) (fnA : List (ParamName × List Nat))
    (provided : List (ParamName × PyVal)) (st : St) :
    (runResolved env anns fuel fnP fnA provided st).st.sharedStack
      = ((runResolved env anns fuel fnP fnA provided st).tr.filterMap
          (acqOf .sharedS)).reverse ++ st.sharedStack
    ∧ ∀ ev ∈ (runResolved env anns fuel fnP fnA provided st).tr,
        relOf .sharedS ev = none := by
  rcases h1 : scopedPhase env fuel provided fnP { st with callCache := [], callStack := [] }
    with ⟨args₁, st₁, tr₁⟩
  rcases h2 : annPhase anns provided args₁ fnA st₁ with ⟨r, st₂, tr₂⟩
  rw [runResolved_eq env anns fuel fnP fnA provided st args₁ st₁ tr₁ r st₂ tr₂ h1 h2]
  have hann := annPhase_spec anns provided args₁ fnA st₁
  rw [h2] at hann
  have hsp := scopedPhase_stackEv env fuel provided fnP
    { st with callCache := [], callStack := [] }
  rw [h1] at hsp
  have hstk : st₂.sharedStack
      = ((tr₁ ++ tr₂).filterMap (acqOf .sharedS)).reverse ++ st.sharedStack := by
    have h := (hsp.seTrans hann.1).2
    simpa [List.filterMap_append] using h
  constructor
  · show st₂.sharedStack = _
    rw [hstk]
    simp [List.filterMap_append, acqOf_unwind]
  · intro ev hev
    simp only [List.append_assoc, List.mem_append] at hev
    rcases hev with hev | hev | hev
    · have h := scopedPhase_events env fuel provided fnP
        { st with callCache := [], callStack := [] } ev (by rw [h1]; exact hev)
      exact relOf_none_of_core .sharedS ev h
    · rcases hann.2.2.2 ev hev with ⟨a, p, ha⟩ | ⟨a, ha⟩ <;> rw [ha] <;> rfl
    · obtain ⟨e, he⟩ := unwind_mem hev
      rw [he]
      rfl

theorem runCalls_cons_eq (env : List FactorySpec) (anns : List AnnSpec) (fuel : Nat)
    (c : CallSpec) (cs : List CallSpec) (st : St)
    (r : Except Err (List (ParamName × PyVal))) (st₁ : St) (tr₁ : List Event)
    (rs : List (Except Err (List (ParamName × PyVal)))) (st₂ : St) (tr₂ : List Event)
    (h1 : runResolved env anns fuel c.fnP c.fnA c.provided st = ⟨r, st₁, tr₁⟩)
    (h2 : runCalls env anns fuel cs st₁ = (rs, st₂, tr₂)) :
    runCalls env anns fuel (c :: cs) st = (r :: rs, st₂, tr₁ ++ tr₂) := by
  simp only [runCalls, h1, h2]

theorem runCalls_sharedCount (env : List FactorySpec) (anns : List AnnSpec) (fuel : Nat)
    (f₀ : FactoryId) :
    ∀ (calls : List CallSpec) (st : St),
      SharedCount f₀ st (runCalls env anns fuel calls st).2.1
        (runCalls env anns fuel calls st).2.2 := by
  intro calls
  induction calls with
  | nil =>
      intro st
      simp only [runCalls]
      exact SharedCount.shcSilent rfl (by simp)
  | cons c cs ih =>
      intro st
      rcases h1 : runResolved env anns fuel c.fnP c.fnA c.provided st with ⟨r, st₁, tr₁⟩
      rcases h2 : runCalls env anns fuel cs st₁ with ⟨rs, st₂, tr₂⟩
      rw [runCalls_cons_eq env anns fuel c cs st r st₁ tr₁ rs st₂ tr₂ h1 h2]
      have hA := runResolved_sharedCount env anns fuel c.fnP c.fnA c.provided st f₀
      rw [h1] at hA
      have hB := ih st₁
      rw [h2] at hB
      exact hA.shcTrans hB

theorem runCalls_sharedAcq (env : List FactorySpec) (anns : List AnnSpec) (fuel : Nat)
    (f₀ : FactoryId) :
    ∀ (calls : List CallSpec) (st : St),
      SharedAcqP f₀ st (runCalls env anns fuel calls st).2.1
        (runCalls env anns fuel calls st).2.2 := by
  intro calls
  induction calls with
  | nil =>
      intro st
      simp only [runCalls]
      exact SharedAcqP.saSilent rfl (by intro w; simp)
  | cons c cs ih =>
      intro st
      rcases h1 : runResolved env anns fuel c.fnP c.fnA c.provided st with ⟨r, st₁, tr₁⟩
      rcases h2 : runCalls env anns fuel cs st₁ with ⟨rs, st₂, tr₂⟩
      rw [runCalls_cons_eq env anns fuel c cs st r st₁ tr₁ rs st₂ tr₂ h1 h2]
      have hA := runResolved_sharedAcq env anns fuel c.fnP c.fnA c.provided st f₀
      rw [h1] at hA
      have hB := ih st₁
      rw [h2] at hB
      exact hA.saTrans hB

theorem runCalls_shared_stack (env : List FactorySpec) (anns : List AnnSpec) (fuel : Nat) :
    ∀ (calls : List CallSpec) (st : St),
      (runCalls env anns fuel calls st).2.1.sharedStack
        = ((runCalls env anns fuel calls st).2.2.filterMap (acqOf .sharedS)).reverse
          ++ st.sharedStack
      ∧ ∀ ev ∈ (runCalls env anns fuel calls st).2.2, relOf .sharedS ev = none := by
  intro calls
  induction calls with
  | nil =>
      intro st
      simp only [runCalls]
      exact ⟨by simp, by simp⟩
  | cons c cs ih =>
      intro st
      rcases h1 : runResolved env anns fuel c.fnP c.fnA c.provided st with ⟨r, st₁, tr₁⟩
      rcases h2 : runCalls env anns fuel cs st₁ with ⟨rs, st₂, tr₂⟩
      rw [runCalls_cons_eq env anns fuel c cs st r st₁ tr₁ rs st₂ tr₂ h1 h2]
      have hA := runResolved_shared_stack env anns fuel c.fnP c.fnA c.provided st
      rw [h1] at hA
      have hB := ih st₁
      rw [h2] at hB
      constructor
      · show st₂.sharedStack = _
        rw [hB.1, hA.1]
        simp [List.filterMap_append, List.reverse_append, List.append_assoc]
      · intro ev hev
        rcases List.mem_append.mp hev with hev | hev
        · exact hA.2 ev hev
        · exact hB.2 ev hev

/-- Characterisation of a shared scope around a sequence of calls. -/
theorem runSharedScope_eq (env : List FactorySpec) (anns : List AnnSpec) (fuel : Nat)
    (calls : List CallSpec) (st : St)
    (rs : List (Except Err (List (ParamName × PyVal)))) (st₁ : St) (trC : List Event)
    (h : runCalls env anns fuel calls
      { st with sharedOpen := true, sharedResolved := [], sharedStack := [] }
      = (rs, st₁, trC)) :
    runSharedScope env anns fuel calls st
      = (rs,
         { st₁ with sharedOpen := st.sharedOpen, sharedResolved := st.sharedResolved,
                    sharedStack := st.sharedStack },
         trC ++ unwindTrace .sharedS st₁.sharedStack) := by
  simp only [runSharedScope, h]

/-- Within a shared scope, shared releases run in exact reverse order of
shared acquisitions. -/
theorem runSharedScope_unwind (env : List FactorySpec) (anns : List AnnSpec) (fuel : Nat)
    (calls : List CallSpec) (st : St) :
    (runSharedScope env anns fuel calls st).2.2.filterMap (relOf .sharedS)
      = ((runSharedScope env anns fuel calls st).2.2.filterMap (acqOf .sharedS)).reverse := by
  rcases h : runCalls env anns fuel calls
    { st with sharedOpen := true, sharedResolved := [], sharedStack := [] }
    with ⟨rs, st₁, trC⟩
  rw [runSharedScope_eq env anns fuel calls st rs st₁ trC h]
  have hst := runCalls_shared_stack env anns fuel calls
    { st with sharedOpen := true, sharedResolved := [], sharedStack := [] }
  rw [h] at hst
  have hstk : st₁.sharedStack = (trC.filterMap (acqOf .sharedS)).reverse := by
    have h1 := hst.1
    simpa using h1
  simp only [List.filterMap_append, filterMap_eq_nil_of_none hst.2, relOf_unwind,
    acqOf_unwind, List.nil_append, List.append_nil]
  rw [hstk]

/-!
Support lemmas for the validators.
-/

theorem mem_foldl_dedup :
    ∀ (l acc : List Nat) (t : Nat),
      t ∈ l.foldl (fun acc t => if t ∈ acc then acc else acc ++ [t]) acc
        ↔ t ∈ acc ∨ t ∈ l := by
  intro l
  induction l with
  | nil => intro acc t; simp
  | cons x xs ih =>
      intro acc t
      simp only [List.foldl_cons]
      by_cases hx : x ∈ acc
      · rw [if_pos hx, ih]
        simp only [List.mem_cons]
        constructor
        · rintro (h | h)
          · exact .inl h
          · exact .inr (.inr h)
        · rintro (h | h | h)
          · exact .inl h
          · exact .inl (h ▸ hx)
          · exact .inr h
      · rw [if_neg hx, ih]
        simp only [List.mem_append, List.mem_singleton, List.mem_cons]
        tauto

theorem mem_dedupFirst {l : List Nat} {t : Nat} : t ∈ dedupFirst l ↔ t ∈ l := by
  rw [dedupFirst, mem_foldl_dedup]
  simp

theorem natCount_pos_mem : ∀ {l : List Nat} {t : Nat}, 1 ≤ natCount l t → t ∈ l := by
  intro l
  induction l with
  | nil => intro t h; simp [natCount] at h
  | cons x xs ih =>
      intro t h
      by_cases hx : x = t
      · simp [hx]
      · simp only [natCount, if_neg hx, Nat.zero_add] at h
        exact List.mem_cons_of_mem x (ih h)

/-- The per-parameter phase fires whenever some parameter's tag-bound
descriptor list repeats an exclusive-flagged exact type. -/
theorem phaseAnn_ne_none (tys : List TypeInfo) :
    ∀ (annDeps : List (ParamName × List Nat)) (p : ParamName) (ts : List Nat) (t : Nat),
      (p, ts) ∈ annDeps → getSingle tys t = true → 1 < natCount ts t →
      phaseAnn tys annDeps ≠ none := by
  intro annDeps
  induction annDeps with
  | nil => intro p ts t h; simp at h
  | cons qds rest ih =>
      intro p ts t hmem hsingle hcount
      obtain ⟨q, ds⟩ := qds
      rcases List.mem_cons.mp hmem with h | h
      · have hts : ts = ds := congrArg Prod.snd h
        rcases hf : (dedupFirst ds).find?
            (fun u => getSingle tys u && decide (1 < natCount ds u)) with _ | u
        · exfalso
          rw [← hts] at hf
          have hsome : ((dedupFirst ts).find?
              (fun u => getSingle tys u && decide (1 < natCount ts u))).isSome := by
            rw [List.find?_isSome]
            exact ⟨t, mem_dedupFirst.mpr (natCount_pos_mem (Nat.le_of_lt hcount)),
              by simp [hsingle, hcount]⟩
          rw [hf] at hsome
          simp at hsome
        · have heq : phaseAnn tys ((q, ds) :: rest)
              = some (.dupAnn u (natCount ds u) q) := by
            simp only [phaseAnn, hf]
          rw [heq]
          simp
      · rcases hf : (dedupFirst ds).find?
            (fun u => getSingle tys u && decide (1 < natCount ds u)) with _ | u
        · have heq : phaseAnn tys ((q, ds) :: rest) = phaseAnn tys rest := by
            simp only [phaseAnn, hf]
          rw [heq]
          exact ih p ts t h hsingle hcount
        · have heq : phaseAnn tys ((q, ds) :: rest)
              = some (.dupAnn u (natCount ds u) q) := by
            simp only [phaseAnn, hf]
          rw [heq]
          simp

/-!
Concrete instances used to witness and to refute claims.
-/

/-- An environment with a single factory that always raises. -/
def envFail : List FactorySpec := [⟨[], fun _ _ => .error (.userErr 7)⟩]

/-- A raw result satisfying none of the resource protocols. -/
def rawBox (a : Nat) : Raw := ⟨false, false, false, .box 0, .box 0, .box a⟩

/-- An environment with a single factory returning a plain fresh value. -/
def envBox : List FactorySpec := [⟨[], fun _ a => .ok (rawBox a)⟩]

/-- A single tag-bound descriptor whose acquisition always raises. -/
def annsFail : List AnnSpec := [⟨fun _ => .error (.userErr 9)⟩]

/-- A single tag-bound descriptor whose acquisition always succeeds. -/
def annsOk : List AnnSpec := [⟨fun _ => .ok ()⟩]

/-- One dependency type with `single = True` declared on itself. -/
def tysW : List TypeInfo := [⟨[0], some true⟩]

/-- A raw result that is both an async context manager and awaitable. -/
def rawBoth : Raw := ⟨true, false, true, .box 1, .box 2, .box 3⟩

/-- A callable with one positional-or-keyword parameter declaring one
dependency. -/
def fnDemo : PyFunc := ⟨[("x", .posOrKw)], [("x", Dep.depends 0)], [], false⟩

/-!
The claims.
-/

/-- C1, counterexample: a producer that raises is invoked once per wrapping
scoped descriptor, not exactly once — with two parameters wrapping an
always-raising factory in one resolution scope the factory is invoked
twice, because `_Depends.__aenter__` caches only successful values. -/
theorem c1_scoped_dedup_refuted :
    countE (runResolved envFail [] 3 [("a", Dep.depends 0), ("b", Dep.depends 0)] [] []
      St.init).tr (Event.invoke .scoped 0) = 2 := by
  decide

/-- C1, amended: in an acyclic (stratified) environment, when no scoped
resolution of the producer fails during the lifecycle, a producer wrapped
by two scoped descriptors in one resolution scope is invoked exactly once
and both parameters receive the identical cached value. -/
theorem c1_scoped_dedup_amended
    (env : List FactorySpec) (anns : List AnnSpec) (fuel : Nat)
    (fnP : List (ParamName × Dep)) (fnA : List (ParamName × List Nat))
    (provided : List (ParamName × PyVal)) (st : St)
    (p₁ p₂ : ParamName) (f : FactoryId) (args : List (ParamName × PyVal))
    (hs : stratifiedEnv env = true)
    (h1 : (p₁, Dep.depends f) ∈ fnP) (h2 : (p₂, Dep.depends f) ∈ fnP)
    (hpr1 : alookup provided p₁ = none) (hpr2 : alookup provided p₂ = none)
    (hnd : (fnP.map Prod.fst).Nodup)
    (hres : (runResolved env anns fuel fnP fnA provided st).res = .ok args)
    (hnf : Event.resolveFailed .scoped f
      ∉ (runResolved env anns fuel fnP fnA provided st).tr) :
    countE (runResolved env anns fuel fnP fnA provided st).tr (Event.invoke .scoped f) = 1
    ∧ ∃ v, alookup args p₁ = some v ∧ alookup args p₂ = some v := by
  obtain ⟨trR, htr, hclass, hargs⟩ := runResolved_decomp env anns fuel fnP fnA provided st
  have hargs₂ := hargs args hres
  have hnf₁ : Event.resolveFailed .scoped f
      ∉ (scopedPhase env fuel provided fnP
          { st with callCache := [], callStack := [] }).2.2 := by
    intro hm
    exact hnf (by rw [htr]; exact List.mem_append_left _ hm)
  have hd1 := scopedPhase_depends_mem env fuel provided p₁ f fnP
    { st with callCache := [], callStack := [] } h1 hpr1 hnd
  have hd2 := scopedPhase_depends_mem env fuel provided p₂ f fnP
    { st with callCache := [], callStack := [] } h2 hpr2 hnd
  rcases hd1 with ⟨e, _, hfl⟩ | ⟨v₁, hv1, hacq1⟩
  · exact absurd hfl hnf₁
  rcases hd2 with ⟨e, _, hfl⟩ | ⟨v₂, hv2, hacq2⟩
  · exact absurd hfl hnf₁
  have hacqP := scopedPhase_scopedAcq env hs f fuel provided fnP
    { st with callCache := [], callStack := [] }
  have hc1 := hacqP.1 v₁ hacq1
  have hc2 := hacqP.1 v₂ hacq2
  have hvv : v₁ = v₂ := by
    rw [hc1] at hc2
    exact Option.some.inj hc2
  have hcount := (scopedPhase_scopedCount env hs f fuel provided fnP
    { st with callCache := [], callStack := [] }).1 rfl hnf₁
  rw [hc1, if_neg (by simp)] at hcount
  constructor
  · have hR : countE trR (Event.invoke .scoped f) = 0 := by
      apply countE_eq_zero
      intro hm
      rcases hclass _ hm with ⟨a, p, ha⟩ | ⟨a, ha⟩ | ⟨e, ha⟩ <;> simp at ha
    rw [htr, countE_append, hcount, hR]
  · exact ⟨v₁, by rw [hargs₂]; exact hv1, by rw [hargs₂, hvv]; exact hv2⟩

/-- C1, witness: two scoped descriptors for one succeeding factory in one
resolution scope; it is invoked once and both parameters see the value. -/
theorem c1_scoped_dedup_witness :
    countE (runResolved envBox [] 2 [("a", Dep.depends 0), ("b", Dep.depends 0)] [] []
      St.init).tr (Event.invoke .scoped 0) = 1
    ∧ ∃ v, alookup [("a", PyVal.box 0), ("b", PyVal.box 0)] "a" = some v
        ∧ alookup [("a", PyVal.box 0), ("b", PyVal.box 0)] "b" = some v :=
  c1_scoped_dedup_amended envBox [] 2 [("a", Dep.depends 0), ("b", Dep.depends 0)] [] []
    St.init "a" "b" 0 [("a", PyVal.box 0), ("b", PyVal.box 0)]
    (by decide) (by decide) (by decide) (by decide) (by decide) (by decide)
    (by rfl) (by decide)

/-- C2: for every resolution scope and every shared scope, the releases
recorded on that scope's stack are exactly the reverse of its
acquisitions, whatever the outcome of the runs inside. -/
theorem c2_release_reverse_order (env : List FactorySpec) (anns : List AnnSpec)
    (fuel : Nat) (fnP : List (ParamName × Dep)) (fnA : List (ParamName × List Nat))
    (provided : List (ParamName × PyVal)) (st : St) (calls : List CallSpec) (st₂ : St) :
    (runResolved env anns fuel fnP fnA provided st).tr.filterMap (relOf .callS)
      = ((runResolved env anns fuel fnP fnA provided st).tr.filterMap (acqOf .callS)).reverse
    ∧ (runSharedScope env anns fuel calls st₂).2.2.filterMap (relOf .sharedS)
      = ((runSharedScope env anns fuel calls st₂).2.2.filterMap (acqOf .sharedS)).reverse :=
  ⟨(runResolved_unwind_callS env anns fuel fnP fnA provided st).1,
   runSharedScope_unwind env anns fuel calls st₂⟩

/-- C3, counterexample: a shared producer that raises is re-invoked on the
next acquisition within the same shared scope — two resolution scopes each
acquiring an always-raising shared factory invoke it twice, because
`_Shared.__aenter__` stores only successful values. -/
theorem c3_shared_once_refuted :
    countE (runSharedScope envFail [] 3 [⟨[("a", Dep.shared 0)], [], []⟩,
      ⟨[("a", Dep.shared 0)], [], []⟩] St.init).2.2 (Event.invoke .sharedK 0) = 2 := by
  decide

/-- C3, amended: within one shared scope, if no shared resolution of the
producer fails, the producer is invoked at most once across all resolution
scopes, and all successful acquisitions return the identical cached
value. -/
theorem c3_shared_once_amended (env : List FactorySpec) (anns : List AnnSpec)
    (fuel : Nat) (calls : List CallSpec) (st : St) (f : FactoryId)
    (hnf : Event.resolveFailed .sharedK f
      ∉ (runSharedScope env anns fuel calls st).2.2) :
    countE (runSharedScope env anns fuel calls st).2.2 (Event.invoke .sharedK f) ≤ 1
    ∧ ∀ w w', Event.acquired .sharedK f w ∈ (runSharedScope env anns fuel calls st).2.2 →
        Event.acquired .sharedK f w' ∈ (runSharedScope env anns fuel calls st).2.2 →
        w = w' := by
  rcases h : runCalls env anns fuel calls
    { st with sharedOpen := true, sharedResolved := [], sharedStack := [] }
    with ⟨rs, st₁, trC⟩
  have heq := runSharedScope_eq env anns fuel calls st rs st₁ trC h
  rw [heq] at hnf ⊢
  dsimp only at hnf ⊢
  have hC := runCalls_sharedCount env anns fuel f calls
    { st with sharedOpen := true, sharedResolved := [], sharedStack := [] }
  rw [h] at hC
  dsimp only at hC
  have hAq := runCalls_sharedAcq env anns fuel f calls
    { st with sharedOpen := true, sharedResolved := [], sharedStack := [] }
  rw [h] at hAq
  dsimp only at hAq
  have hnfC : Event.resolveFailed .sharedK f ∉ trC :=
    fun hm => hnf (List.mem_append_left _ hm)
  have hcount := hC.1 rfl hnfC
  constructor
  · have hcU : countE (unwindTrace .sharedS st₁.sharedStack) (Event.invoke .sharedK f) = 0 := by
      apply countE_eq_zero
      intro hm
      obtain ⟨e, he⟩ := unwind_mem hm
      simp at he
    rw [countE_append, hcU, Nat.add_zero]
    rcases hfl : flookup st₁.sharedResolved f with _ | v
    · rw [hfl] at hcount
      simp at hcount
      rw [hcount]
      omega
    · rw [hfl] at hcount
      simp at hcount
      rw [hcount]
  · intro w w' hw hw'
    have hwC : Event.acquired .sharedK f w ∈ trC := by
      rcases List.mem_append.mp hw with hm | hm
      · exact hm
      · obtain ⟨e, he⟩ := unwind_mem hm
        simp at he
    have hwC₂ : Event.acquired .sharedK f w' ∈ trC := by
      rcases List.mem_append.mp hw' with hm | hm
      · exact hm
      · obtain ⟨e, he⟩ := unwind_mem hm
        simp at he
    have e1 := hAq.1 w hwC
    have e2 := hAq.1 w' hwC₂
    rw [e1] at e2
    exact Option.some.inj e2

/-- C3, witness: two resolution scopes inside one shared scope both
acquiring a succeeding shared factory; one invocation, equal values. -/
theorem c3_shared_once_witness :
    countE (runSharedScope envBox [] 2 [⟨[("a", Dep.shared 0)], [], []⟩,
      ⟨[("b", Dep.shared 0)], [], []⟩] St.init).2.2 (Event.invoke .sharedK 0) ≤ 1
    ∧ ∀ w w', Event.acquired .sharedK 0 w ∈ (runSharedScope envBox [] 2
        [⟨[("a", Dep.shared 0)], [], []⟩, ⟨[("b", Dep.shared 0)], [], []⟩] St.init).2.2 →
        Event.acquired .sharedK 0 w' ∈ (runSharedScope envBox [] 2
          [⟨[("a", Dep.shared 0)], [], []⟩, ⟨[("b", Dep.shared 0)], [], []⟩] St.init).2.2 →
        w = w' :=
  c3_shared_once_amended envBox [] 2 [⟨[("a", Dep.shared 0)], [], []⟩,
    ⟨[("b", Dep.shared 0)], [], []⟩] St.init 0 (by decide)

/-- C4: an explicit caller value for a dependency-bearing parameter
short-circuits it — the resolved map carries the override, the parameter's
descriptor is never entered, and (when no other live parameter or
environment factory refers to that producer) the producer is never
invoked. -/
theorem c4_override_short_circuit (env : List FactorySpec) (anns : List AnnSpec)
    (fuel : Nat) (fnP : List (ParamName × Dep)) (fnA : List (ParamName × List Nat))
    (provided : List (ParamName × PyVal)) (st : St) (p : ParamName) (d : Dep)
    (w : PyVal) (args : List (ParamName × PyVal))
    (hmem : (p, d) ∈ fnP)
    (hpr : alookup provided p = some w)
    (hres : (runResolved env anns fuel fnP fnA provided st).res = .ok args)
    (hunique : ∀ x d₂, (x, d₂) ∈ fnP → alookup provided x = none → d₂.fac ≠ d.fac)
    (henv : envMentionsFac env d.fac = false) :
    alookup args p = some w
    ∧ Event.enterParam p ∉ (runResolved env anns fuel fnP fnA provided st).tr
    ∧ ∀ k, Event.invoke k d.fac ∉ (runResolved env anns fuel fnP fnA provided st).tr := by
  obtain ⟨trR, htr, hclass, hargs⟩ := runResolved_decomp env anns fuel fnP fnA provided st
  have hargs₂ := hargs args hres
  have hprov := scopedPhase_provided env fuel provided p w hpr fnP
    { st with callCache := [], callStack := [] } d hmem
  refine ⟨by rw [hargs₂]; exact hprov.1, ?_, ?_⟩
  · rw [htr]
    intro hm
    rcases List.mem_append.mp hm with hm | hm
    · exact hprov.2 hm
    · rcases hclass _ hm with ⟨a, q, ha⟩ | ⟨a, ha⟩ | ⟨e, ha⟩ <;> simp at ha
  · intro k
    rw [htr]
    intro hm
    rcases List.mem_append.mp hm with hm | hm
    · obtain ⟨x, d₂, hx, hprx, hsrc⟩ := scopedPhase_invoke_src env fuel provided fnP
        { st with callCache := [], callStack := [] } k d.fac hm
      rcases hsrc with hsrc | hsrc
      · exact hunique x d₂ hx hprx hsrc.symm
      · rw [henv] at hsrc
        simp at hsrc
    · rcases hclass _ hm with ⟨a, q, ha⟩ | ⟨a, ha⟩ | ⟨e, ha⟩ <;> simp at ha

/-- C4, witness: one overridden dependency parameter; the map holds the
override, no descriptor entry, no invocation of the producer. -/
theorem c4_override_short_circuit_witness :
    alookup [("x", PyVal.box 99)] "x" = some (PyVal.box 99)
    ∧ Event.enterParam "x" ∉ (runResolved envBox [] 2 [("x", Dep.depends 0)] []
        [("x", PyVal.box 99)] St.init).tr
    ∧ ∀ k, Event.invoke k (Dep.depends 0).fac ∉ (runResolved envBox [] 2
        [("x", Dep.depends 0)] [] [("x", PyVal.box 99)] St.init).tr :=
  c4_override_short_circuit envBox [] 2 [("x", Dep.depends 0)] [] [("x", PyVal.box 99)]
    St.init "x" (Dep.depends 0) (PyVal.box 99) [("x", PyVal.box 99)]
    (by decide) (by decide) (by rfl)
    (by
      intro x d₂ hx hprx
      simp only [List.mem_singleton] at hx
      have hxx : x = "x" := congrArg Prod.fst hx
      rw [hxx] at hprx
      simp [alookup] at hprx)
    (by decide)

/-- C5: a scoped producer that raises during acquisition yields a
FailedDependency marker for its parameter in the resolved map, the other
parameters still resolve, and the lifecycle yields the map (provided the
tag-bound phase itself raises nothing). -/
theorem c5_scoped_failure_marker (env : List FactorySpec) (anns : List AnnSpec)
    (fuel : Nat) (fnP : List (ParamName × Dep)) (fnA : List (ParamName × List Nat))
    (provided : List (ParamName × PyVal)) (st : St) (p : ParamName) (f : FactoryId)
    (e₀ : Err)
    (hfail : ∀ args a, (envGet env f).run args a = .error e₀)
    (hparams : (envGet env f).params = [])
    (hfuel : 1 ≤ fuel)
    (hmem : (p, Dep.depends f) ∈ fnP)
    (hpr : alookup provided p = none)
    (hnd : (fnP.map Prod.fst).Nodup)
    (hok : ∀ (a : Nat) (v : Option PyVal), (annGet anns a).aenter v = .ok ()) :
    ∃ args, (runResolved env anns fuel fnP fnA provided st).res = .ok args
      ∧ alookup args p = some (.failedDep p e₀)
      ∧ ∀ x d, (x, d) ∈ fnP → (alookup args x).isSome := by
  rcases h1 : scopedPhase env fuel provided fnP { st with callCache := [], callStack := [] }
    with ⟨args₁, st₁, tr₁⟩
  obtain ⟨st₂, tr₂, h2⟩ := annPhase_all_ok anns hok provided args₁ fnA st₁
  have heq := runResolved_eq env anns fuel fnP fnA provided st args₁ st₁ tr₁ (.ok ())
    st₂ tr₂ h1 h2
  refine ⟨args₁, by rw [heq], ?_, ?_⟩
  · have hm := scopedPhase_failmarker env fuel provided p f e₀ hfail hparams hfuel fnP
      { st with callCache := [], callStack := [] } hmem hpr hnd rfl
    rw [h1] at hm
    exact hm
  · intro x d hx
    have hs := scopedPhase_args_isSome env fuel provided fnP
      { st with callCache := [], callStack := [] } x d hx
    rw [h1] at hs
    exact hs

/-- C5, witness: one parameter wrapping an always-raising factory; the
lifecycle succeeds and the map carries the failure marker. -/
theorem c5_scoped_failure_marker_witness :
    ∃ args, (runResolved envFail [] 1 [("a", Dep.depends 0)] [] [] St.init).res = .ok args
      ∧ alookup args "a" = some (.failedDep "a" (.userErr 7))
      ∧ ∀ x d, (x, d) ∈ [("a", Dep.depends 0)] → (alookup args x).isSome :=
  c5_scoped_failure_marker envFail [] 1 [("a", Dep.depends 0)] [] [] St.init "a" 0
    (.userErr 7) (fun args a => rfl) (by rfl) (by decide) (by decide) (by decide)
    (by decide) (fun a v => rfl)

/-- C6: an error raised while binding or acquiring a tag-bound descriptor
propagates out of the lifecycle as the result (never a failure marker),
and the call stack is still unwound in exact reverse order of its
acquisitions. -/
theorem c6_tag_failure_propagates (env : List FactorySpec) (anns : List AnnSpec)
    (fuel : Nat) (fnP : List (ParamName × Dep)) (fnA : List (ParamName × List Nat))
    (provided : List (ParamName × PyVal)) (st : St) (e : Err)
    (h : (annPhase anns provided
        (scopedPhase env fuel provided fnP { st with callCache := [], callStack := [] }).1
        fnA
        (scopedPhase env fuel provided fnP
          { st with callCache := [], callStack := [] }).2.1).res
      = .error e) :
    (runResolved env anns fuel fnP fnA provided st).res = .error e
    ∧ (runResolved env anns fuel fnP fnA provided st).tr.filterMap (relOf .callS)
      = ((runResolved env anns fuel fnP fnA provided st).tr.filterMap
          (acqOf .callS)).reverse := by
  refine ⟨?_, (runResolved_unwind_callS env anns fuel fnP fnA provided st).1⟩
  rcases h1 : scopedPhase env fuel provided fnP { st with callCache := [], callStack := [] }
    with ⟨args₁, st₁, tr₁⟩
  rw [h1] at h
  dsimp only at h
  rcases h2 : annPhase anns provided args₁ fnA st₁ with ⟨r, st₂, tr₂⟩
  rw [h2] at h
  dsimp only at h
  rw [h] at h2
  rw [runResolved_eq env anns fuel fnP fnA provided st args₁ st₁ tr₁ (.error e)
    st₂ tr₂ h1 h2]

/-- C6, witness: a succeeding scoped resolution followed by a raising
tag-bound descriptor; the error is the lifecycle's result and the
unwinding equality holds. -/
theorem c6_tag_failure_propagates_witness :
    (runResolved envBox annsFail 2 [("x", Dep.depends 0)] [("x", [0])] [] St.init).res
      = .error (.userErr 9)
    ∧ (runResolved envBox annsFail 2 [("x", Dep.depends 0)] [("x", [0])] []
        St.init).tr.filterMap (relOf .callS)
      = ((runResolved envBox annsFail 2 [("x", Dep.depends 0)] [("x", [0])] []
          St.init).tr.filterMap (acqOf .callS)).reverse :=
  c6_tag_failure_propagates envBox annsFail 2 [("x", Dep.depends 0)] [("x", [0])] []
    St.init (.userErr 9) (by rfl)

/-- C7: every tag-bound binding of a lifecycle carries the parameter's
final value (the caller override when present, else the value the scoped
phase resolved, else absent), and the trace splits into a scoped segment
with no bindings followed by a segment with no invocations — bindings
happen strictly after all scoped resolution. -/
theorem c7_tag_bound_final_values (env : List FactorySpec) (anns : List AnnSpec)
    (fuel : Nat) (fnP : List (ParamName × Dep)) (fnA : List (ParamName × List Nat))
    (provided : List (ParamName × PyVal)) (st : St) (a : Nat) (p : ParamName)
    (v : Option PyVal)
    (hbind : Event.bindAnn a p v ∈ (runResolved env anns fuel fnP fnA provided st).tr) :
    v = firstSome (alookup provided p)
        (alookup (scopedPhase env fuel provided fnP
          { st with callCache := [], callStack := [] }).1 p)
    ∧ ∃ trS trA, (runResolved env anns fuel fnP fnA provided st).tr = trS ++ trA
        ∧ (∀ a₂ p₂ v₂, Event.bindAnn a₂ p₂ v₂ ∉ trS)
        ∧ (∀ k g, Event.invoke k g ∉ trA) := by
  obtain ⟨trR, htr, hclass, _⟩ := runResolved_decomp env anns fuel fnP fnA provided st
  constructor
  · rw [htr] at hbind
    rcases List.mem_append.mp hbind with hm | hm
    · exfalso
      have h := scopedPhase_events env fuel provided fnP
        { st with callCache := [], callStack := [] } _ hm
      rcases h with h | ⟨q, hq⟩
      · simp [coreEv] at h
      · simp at hq
    · rcases hclass _ hm with ⟨a₂, p₂, ha⟩ | ⟨a₂, ha⟩ | ⟨e, ha⟩
      · injection ha with g1 g2 g3
        rw [g3, g2]
      · simp at ha
      · simp at ha
  · refine ⟨(scopedPhase env fuel provided fnP
      { st with callCache := [], callStack := [] }).2.2, trR, htr, ?_, ?_⟩
    · intro a₂ p₂ v₂ hm
      have h := scopedPhase_events env fuel provided fnP
        { st with callCache := [], callStack := [] } _ hm
      rcases h with h | ⟨q, hq⟩
      · simp [coreEv] at h
      · simp at hq
    · intro k g hm
      rcases hclass _ hm with ⟨a₂, p₂, ha⟩ | ⟨a₂, ha⟩ | ⟨e, ha⟩ <;> simp at ha

/-- C7, witness: an overridden parameter with a tag-bound descriptor is
bound to the override, never the resolved value. -/
theorem c7_tag_bound_final_values_witness :
    some (PyVal.box 99) = firstSome (alookup [("x", PyVal.box 99)] "x")
        (alookup (scopedPhase envBox 2 [("x", PyVal.box 99)] [("x", Dep.depends 0)]
          { St.init with callCache := [], callStack := [] }).1 "x")
    ∧ ∃ trS trA, (runResolved envBox annsOk 2 [("x", Dep.depends 0)] [("x", [0])]
        [("x", PyVal.box 99)] St.init).tr = trS ++ trA
        ∧ (∀ a₂ p₂ v₂, Event.bindAnn a₂ p₂ v₂ ∉ trS)
        ∧ (∀ k g, Event.invoke k g ∉ trA) :=
  c7_tag_bound_final_values envBox annsOk 2 [("x", Dep.depends 0)] [("x", [0])]
    [("x", PyVal.box 99)] St.init 0 "x" (some (PyVal.box 99)) (by decide)

/-- C8, counterexample: the exported validator (`_validation.py`) does not
flatten defaults with tag-bound descriptors — an exclusive exact type
declared once as a default and once as parameter metadata passes it, while
only the legacy flattened validator (`validation.py`) rejects the pair
naming the exact type. -/
theorem c8_flattened_check_refuted :
    validateDependenciesU tysW [0] [("x", [0])] = none
    ∧ validateDependenciesFlat tysW [0] [("x", [0])] = some (.dupConcrete 0) :=
  ⟨by decide, by decide⟩

/-- C8, amended: the exported validator checks exclusivity over the
default-declared descriptors plus a per-parameter duplicate check for
tag-bound descriptors — it rejects an exclusive exact type repeated within
one parameter's metadata, and it agrees with the flattened legacy
validator whenever there are no tag-bound descriptors. -/
theorem c8_validators_amended (tys : List TypeInfo) (defaults : List Nat)
    (annDeps : List (ParamName × List Nat)) (p : ParamName) (ts : List Nat) (t : Nat)
    (hmem : (p, ts) ∈ annDeps) (hsingle : getSingle tys t = true)
    (hdup : 1 < natCount ts t) :
    validateDependenciesU tys defaults annDeps ≠ none
    ∧ validateDependenciesU tys defaults [] = validateDependenciesFlat tys defaults [] := by
  constructor
  · unfold validateDependenciesU
    rcases h1 : phase1 tys defaults with _ | e
    · simp only [h1]
      rcases h2 : phase2 tys defaults with _ | e
      · simp only [h2]
        exact phaseAnn_ne_none tys annDeps p ts t hmem hsingle hdup
      · simp only [h2]
        simp
    · simp only [h1]
      simp
  · unfold validateDependenciesU validateDependenciesFlat
    simp only [List.map_nil, List.flatten_nil, List.append_nil]
    rcases h1 : phase1 tys defaults with _ | e
    · simp only [h1]
      rcases h2 : phase2 tys defaults with _ | e
      · simp only [h2]
        rfl
      · simp only [h2]
    · simp only [h1]

/-- C8, witness: a repeated exclusive exact type within one parameter's
metadata is rejected by the exported validator, and with no tag-bound
descriptors both validators agree. -/
theorem c8_validators_witness :
    validateDependenciesU tysW [] [("x", [0, 0])] ≠ none
    ∧ validateDependenciesU tysW [] [] = validateDependenciesFlat tysW [] [] :=
  c8_validators_amended tysW [] [("x", [0, 0])] "x" [0, 0] 0
    (by decide) (by decide) (by decide)

/-- C9: the producer adapter classifies a raw result in the fixed order
async context manager, sync context manager, awaitable, plain value — in
particular a result that is both an async context manager and awaitable
is entered on the owning stack and yields its entered value, never its
awaited one. -/
theorem c9_adapter_order (s : ScopeTag) (f : FactoryId) (raw : Raw) (st : St) :
    (raw.isAsyncCM = true →
      resolveFactoryValue s f raw st
        = (raw.enterValue, pushEntry s (.facAsync f) st, [Event.acq s (.facAsync f)]))
    ∧ (raw.isAsyncCM = false → raw.isSyncCM = true →
      resolveFactoryValue s f raw st
        = (raw.enterValue, pushEntry s (.facSync f) st, [Event.acq s (.facSync f)]))
    ∧ (raw.isAsyncCM = false → raw.isSyncCM = false → raw.isAwaitable = true →
      resolveFactoryValue s f raw st = (raw.awaitValue, st, []))
    ∧ (raw.isAsyncCM = false → raw.isSyncCM = false → raw.isAwaitable = false →
      resolveFactoryValue s f raw st = (raw.plainValue, st, []))
    ∧ (raw.isAsyncCM = true → raw.isAwaitable = true →
      (resolveFactoryValue s f raw st).1 = raw.enterValue
      ∧ (resolveFactoryValue s f raw st).2.1 = pushEntry s (.facAsync f) st) := by
  refine ⟨fun h1 => ?_, fun h1 h2 => ?_, fun h1 h2 h3 => ?_, fun h1 h2 h3 => ?_,
    fun h1 h2 => ?_⟩
  · simp [resolveFactoryValue, h1]
  · simp [resolveFactoryValue, h1, h2]
  · simp [resolveFactoryValue, h1, h2, h3]
  · simp [resolveFactoryValue, h1, h2, h3]
  · simp [resolveFactoryValue, h1]

/-- C9, witness: a raw result satisfying both the async-context-manager
and awaitable protocols is adapted as an async resource. -/
theorem c9_adapter_order_witness :
    resolveFactoryValue .callS 0 rawBoth St.init
      = (rawBoth.enterValue, pushEntry .callS (.facAsync 0) St.init,
          [Event.acq .callS (.facAsync 0)])
    ∧ (resolveFactoryValue .callS 0 rawBoth St.init).1 = rawBoth.enterValue :=
  ⟨(c9_adapter_order .callS 0 rawBoth St.init).1 rfl,
   ((c9_adapter_order .callS 0 rawBoth St.init).2.2.2.2 rfl rfl).1⟩

/-- C10: a callable declaring at least one dependency is bridged to a
coroutine function whose runtime signature is exactly one VAR_KEYWORD
parameter, so any positional call fails with a type error and the result
must always be awaited. -/
theorem c10_bridge_kwargs_only (fn : PyFunc)
    (h : fn.depParams.isEmpty = false ∨ fn.annDeps.isEmpty = false) :
    (withoutDependencies fn).isCoroutineFn = true
    ∧ (withoutDependencies fn).unchanged = false
    ∧ (withoutDependencies fn).runtimeSig = [("kwargs", PyParamKind.varKw)]
    ∧ ∀ n, 1 ≤ n → positionalCallFails (withoutDependencies fn) n = true := by
  have hcond : (fn.depParams.isEmpty && fn.annDeps.isEmpty) = false := by
    rcases h with h | h <;> simp [h]
  refine ⟨?_, ?_, ?_, ?_⟩
  · simp [withoutDependencies, hcond]
  · simp [withoutDependencies, hcond]
  · simp [withoutDependencies, hcond]
  · intro n hn
    simp [withoutDependencies, hcond, positionalCallFails, maxPositional]
    omega

/-- C10, witness: a synchronous callable with one dependency-bearing
positional-or-keyword parameter bridges to a kwargs-only coroutine
function rejecting one positional argument. -/
theorem c10_bridge_kwargs_only_witness :
    (withoutDependencies fnDemo).isCoroutineFn = true
    ∧ (withoutDependencies fnDemo).unchanged = false
    ∧ (withoutDependencies fnDemo).runtimeSig = [("kwargs", PyParamKind.varKw)]
    ∧ positionalCallFails (withoutDependencies fnDemo) 1 = true := by
  have h := c10_bridge_kwargs_only fnDemo (.inl rfl)
  exact ⟨h.1, h.2.1, h.2.2.1, h.2.2.2 1 (by decide)⟩

end UncalledFor
